import Mathlib

/-!
# The auto grader of storage-and-modelling-101

A shallow embedding of `src/auto_grader/main.go`, and of the part of Go's `encoding/json` that
it runs, with the properties of the grader proved over it.

* Text is a `String`, a sequence of Unicode characters; input that is not UTF-8 is outside the
  model.
* A finite float64 is a sign and a magnitude in units of `2^-1074` (`F64`); NaN and the
  infinities are the one value `nonFinite`, which `json.Marshal` rejects.
* `json.Unmarshal` is the scanner `parseJSON` followed by the decoder of the destination:
  `interface{}` (`decodeAny`), `[]map[string]interface{}` (`decodeRows`) or `Exercise`
  (`decodeExercise`). The scanner runs on fuel, and is proved never to run out of it.
* `json.Marshal` is `JV.encode`: map keys sorted, strings escaped as Go escapes them, a float64
  printed with the fewest digits that read back as the same float64.
* The database is an `Engine` over an abstract state; a query gives a cursor `Rows`. The values
  `rows.Scan` stores are `nil`, `bool`, `int64`, `float64` and `string` (`Scalar`).
* The file system is the record `FS` of the three calls the grader makes.
* `gradeExercise` either ends in `os.Exit(1)` or hands its result to `printResult`; what is
  printed is not modelled.
-/

namespace AutoGrader

/-! ## Decimal digits -/

def digitChar (d : Nat) : Char := Char.ofNat (48 + d)

def natDigitsAux : Nat → Nat → List Char → List Char
  | 0, _, acc => acc
  | f + 1, n, acc =>
    if n < 10 then digitChar n :: acc
    else natDigitsAux f (n / 10) (digitChar (n % 10) :: acc)

def natDigits (n : Nat) : List Char := natDigitsAux (n + 1) n []

def isDigit (c : Char) : Bool := decide (48 ≤ c.toNat) && decide (c.toNat ≤ 57)

def digitsVal (cs : List Char) : Nat := cs.foldl (fun acc c => acc * 10 + (c.toNat - 48)) 0

def decLenAux : Nat → Nat → Nat
  | 0, _ => 1
  | f + 1, n =>
    if n < 10 then 1
    else if n < 10000000000000000 then decLenAux f (n / 10) + 1
    else decLenAux f (n / 10000000000000000) + 16

def decLen (n : Nat) : Nat := decLenAux n n

/-! ## float64 -/

structure F64 where
  neg : Bool
  mag : Nat
deriving DecidableEq, Repr

def bitLenAux : Nat → Nat → Nat
  | 0, _ => 0
  | f + 1, n =>
    if n = 0 then 0
    else if n < 4294967296 then bitLenAux f (n / 2) + 1
    else bitLenAux f (n / 4294967296) + 32

def bitLen (n : Nat) : Nat := bitLenAux n n

def roundHalfEven (x d : Nat) : Nat :=
  let q := x / d
  let r := x % d
  if 2 * r < d then q else if d < 2 * r then q + 1 else if q % 2 = 0 then q else q + 1

/-- The number `2^1074`: every finite float64 is a multiple of `2^-1074`. -/
def twoPow1074 : Nat :=
  202402253307310618352495346718917307049556649764142118356901358027430339567995346891960383701437124495187077864316811911389808737385793476867013399940738509921517424276566361364466907742093216341239767678472745068562007483424692698618103355649159556340810056512358769552333414615230502532186327508646006263307707741093494784

/-- The number `2^2098 = 2^1024 × 2^1074`, the first magnitude out of range. -/
def twoPow2098 : Nat :=
  36385714125121577340472559612332662432202360514804264086486396913687339219056310314802402804686114227796345399889718936593868775978512167324436429730443356955858289604780191384152549553460039399638713473064124938506225491602920797497875260619022114919931995496736354510800687165312052937084956272975837936169069826073497791360760922931692675051743219887727049160106334730392823329142139967711280283332016783042675309991998958803170596042220367848770430207344043747362706492991623664266224835069035192448520444449092785886821951870935096343833664917106220533285165348610764686913870900786035472501641804305888567549659025932596281344

/-- The number `5^1074`. -/
def fivePow1074 : Nat :=
  4940656458412465441765687928682213723650598026143247644255856825006755072702087518652998363616359923797965646954457177309266567103559397963987747960107818781263007131903114045278458171678489821036887186360569987307230500063874091535649843873124733972731696151400317153853980741262385655911710266585566867681870395603106249319452715914924553293054565444011274801297099995419319894090804165633245247571478690147267801593552386115501348035264934720193790268107107491703332226844753335720832431936092382893458368060106011506169809753078342277318329247904982524730776375927247874656084778203734469699533647017972677717585125660551199131504891101451037862738167250955837389733598993664809941164205702637090279242767544565229087538682506419718265533447265625

/-- The magnitude, in units of `2^-1074`, of the float64 nearest to `a / b` (ties to even),
with no bound on the exponent. -/
@[irreducible] def roundMag (a b : Nat) : Nat :=
  let x := twoPow1074 * a
  let s := bitLen (x / b) - 53
  roundHalfEven x (b * 2 ^ s) * 2 ^ s

def decFrac (d : Nat) (k : Int) : Nat × Nat :=
  if 0 ≤ k then (d * 10 ^ k.toNat, 1) else (d, 10 ^ (-k).toNat)

def parseMag (d : Nat) (k : Int) : Option Nat :=
  let n := roundMag (decFrac d k).1 (decFrac d k).2
  if n < twoPow2098 then some n else none

def stripZeros : Nat → Nat → Int → Nat × Int
  | 0, d, k => (d, k)
  | f + 1, d, k => if d % 10 = 0 ∧ d ≠ 0 then stripZeros f (d / 10) (k + 1) else (d, k)

def roundsTo (N d : Nat) (k : Int) : Bool := parseMag d k == some N

/-- The choice between the decimal below and the decimal above: the nearer one when both
read back as the float, else the one that does. -/
def pickCandidate (okdown okup : Bool) (r u lo : Nat) (down up : Nat × Int) : Option (Nat × Int) :=
  if okdown && okup then
    if 2 * r < u then some down
    else if u < 2 * r then some up
    else if lo % 2 = 0 then some down else some up
  else if okdown then some down
  else if okup then some up
  else none

/-- The decimal of `n` significant digits for the float of magnitude `N`, whose exact decimal
expansion is `E × 10^-1074` with `len` digits, when there is one that reads back as `N`. -/
def shortestAt (N E len n : Nat) : Option (Nat × Int) :=
  let j := len - n
  let lo := E / 10 ^ j
  let k : Int := (j : Int) - 1074
  let down := stripZeros 17 lo k
  let up := stripZeros 17 (lo + 1) k
  pickCandidate (roundsTo N down.1 down.2) (roundsTo N up.1 up.2) (E % 10 ^ j) (10 ^ j) lo down up

def shortestSearch (N E len : Nat) : List Nat → Option (Nat × Int)
  | [] => none
  | n :: ns => (shortestAt N E len n).orElse (fun _ => shortestSearch N E len ns)

/-- The numbers of significant digits tried, in order: 17 digits tell any two float64 apart. -/
def digitCounts : List Nat := [1, 2, 3, 4, 5, 6, 7, 8, 9, 10, 11, 12, 13, 14, 15, 16, 17]

/-- The shortest decimal `d × 10^k` that reads back as the float of magnitude `N`. -/
@[irreducible] def shortest (N : Nat) : Nat × Int :=
  (shortestSearch N (fivePow1074 * N) (decLen (fivePow1074 * N)) digitCounts).getD
    (fivePow1074 * N, -1074)

def lowCut : Nat := roundMag 1 1000000

def highCut : Nat := twoPow1074 * 1000000000000000000000

def formatMag (N : Nat) : List Char :=
  if N = 0 then ['0']
  else
    let ds := natDigits (shortest N).1
    let nd : Int := ds.length
    let dp : Int := nd + (shortest N).2
    if N < lowCut ∨ highCut ≤ N then
      let e := dp - 1
      ds.take 1 ++ (if 1 < ds.length then '.' :: ds.drop 1 else [])
        ++ 'e' :: (if e < 0 then '-' else '+') :: natDigits e.natAbs
    else if dp ≤ 0 then '0' :: '.' :: (List.replicate (-dp).toNat '0' ++ ds)
    else if dp < nd then ds.take dp.toNat ++ '.' :: ds.drop dp.toNat
    else ds ++ List.replicate (dp - nd).toNat '0'

def formatF64 (f : F64) : List Char :=
  if f.neg then '-' :: formatMag f.mag else formatMag f.mag

/-! ## JSON text: syntax trees and the scanner -/

/-- A JSON number literal `±digits × 10^exp10`. -/
structure NumLit where
  neg : Bool
  digits : Nat
  exp10 : Int
deriving DecidableEq, Repr

inductive JSyn where
  | null
  | bool (b : Bool)
  | num (n : NumLit)
  | str (s : List Char)
  | arr (xs : List JSyn)
  | obj (kvs : List (List Char × JSyn))
deriving Repr

inductive JsonError where
  | syntaxError
  | maxDepth
  | outOfRange
  | typeMismatch
  | fuel
deriving DecidableEq, Repr

/-- The message of an error, by its kind. The messages of the library also carry the offending
character, offset or Go type; nothing in the grader looks inside them. -/
def JsonError.Error : JsonError → String
  | .syntaxError => "invalid character in JSON input"
  | .maxDepth => "exceeded max depth"
  | .outOfRange => "json: cannot unmarshal number into Go value of type float64"
  | .typeMismatch => "json: cannot unmarshal value into Go value"
  | .fuel => "unexpected end of JSON input"

/-- White space between tokens: space, `\t`, `\r`, `\n`. -/
def isSpace (c : Char) : Bool :=
  decide (c.toNat = 32) || decide (c.toNat = 9) || decide (c.toNat = 13) || decide (c.toNat = 10)

def skipWs : List Char → List Char
  | [] => []
  | c :: cs => if isSpace c then skipWs cs else c :: cs

def takeDigits : List Char → List Char × List Char
  | [] => ([], [])
  | c :: cs => if isDigit c then (c :: (takeDigits cs).1, (takeDigits cs).2) else ([], c :: cs)

/-- The integer part of a number: `0` or a non-zero digit followed by digits. -/
def lexInt (cs : List Char) : Option (List Char × List Char) :=
  match cs with
  | [] => none
  | c :: rest =>
    if c.toNat = 48 then some ([c], rest)
    else if isDigit c then some (c :: (takeDigits rest).1, (takeDigits rest).2)
    else none

/-- The optional fraction: `.` (code 46) and at least one digit. -/
def lexFrac (cs : List Char) : Option (List Char × List Char) :=
  match cs with
  | [] => some ([], [])
  | c :: rest =>
    if c.toNat = 46 then
      (if (takeDigits rest).1 = [] then none else some (takeDigits rest))
    else some ([], c :: rest)

/-- The optional exponent: `e` or `E` (codes 101, 69), an optional sign `+` or `-` (codes 43,
45) and at least one digit. -/
def lexExp (cs : List Char) : Option (Int × List Char) :=
  match cs with
  | [] => some (0, [])
  | c :: rest =>
    if c.toNat = 101 ∨ c.toNat = 69 then
      match rest with
      | [] => none
      | s :: rest2 =>
        if s.toNat = 43 then
          (if (takeDigits rest2).1 = [] then none
           else some ((digitsVal (takeDigits rest2).1 : Int), (takeDigits rest2).2))
        else if s.toNat = 45 then
          (if (takeDigits rest2).1 = [] then none
           else some (-(digitsVal (takeDigits rest2).1 : Int), (takeDigits rest2).2))
        else
          (if (takeDigits rest).1 = [] then none
           else some ((digitsVal (takeDigits rest).1 : Int), (takeDigits rest).2))
    else some (0, c :: rest)

def lexUnsigned (neg : Bool) (cs : List Char) : Option (NumLit × List Char) :=
  match lexInt cs with
  | none => none
  | some (ip, r1) =>
    match lexFrac r1 with
    | none => none
    | some (fp, r2) =>
      match lexExp r2 with
      | none => none
      | some (e, r3) => some (⟨neg, digitsVal (ip ++ fp), e - fp.length⟩, r3)

/-- A number literal: an optional `-` (code 45), then the unsigned literal. -/
def lexNumber (cs : List Char) : Option (NumLit × List Char) :=
  match cs with
  | [] => none
  | c :: rest => if c.toNat = 45 then lexUnsigned true rest else lexUnsigned false (c :: rest)

def hexVal (c : Char) : Option Nat :=
  if 48 ≤ c.toNat ∧ c.toNat ≤ 57 then some (c.toNat - 48)
  else if 97 ≤ c.toNat ∧ c.toNat ≤ 102 then some (c.toNat - 87)
  else if 65 ≤ c.toNat ∧ c.toNat ≤ 70 then some (c.toNat - 55)
  else none

def hex4 (a b c d : Char) : Option Nat :=
  match hexVal a, hexVal b, hexVal c, hexVal d with
  | some x, some y, some z, some w => some (((x * 16 + y) * 16 + z) * 16 + w)
  | _, _, _, _ => none

/-- The four hex digits of an escape `\uXXXX` whose `\u` was read. -/
def getHex4 (cs : List Char) : Option (Nat × List Char) :=
  match cs with
  | h1 :: h2 :: h3 :: h4 :: rest =>
    match hex4 h1 h2 h3 h4 with
    | some u => some (u, rest)
    | none => none
  | _ => none

/-- The escape `\uXXXX` at the head of the input, when there is one. -/
def getu4 (cs : List Char) : Option (Nat × List Char) :=
  match cs with
  | b :: u :: rest => if b.toNat = 92 ∧ u.toNat = 117 then getHex4 rest else none
  | _ => none

def replacementChar : Char := Char.ofNat 0xFFFD

/-- The escape after a backslash: the character it stands for and the input after it. The
escapes are `\"` (34), `\\` (92), `\/` (47), `\b` (98), `\f` (102), `\n` (110), `\r` (114),
`\t` (116) and `\uXXXX` (117); a `\uXXXX` that is half of a surrogate pair is joined with the
other half when that follows, and is U+FFFD otherwise. -/
def lexEscape (cs : List Char) : Option (Char × List Char) :=
  match cs with
  | [] => none
  | e :: rest =>
    if e.toNat = 34 then some (Char.ofNat 34, rest)
    else if e.toNat = 92 then some (Char.ofNat 92, rest)
    else if e.toNat = 47 then some (Char.ofNat 47, rest)
    else if e.toNat = 98 then some (Char.ofNat 8, rest)
    else if e.toNat = 102 then some (Char.ofNat 12, rest)
    else if e.toNat = 110 then some (Char.ofNat 10, rest)
    else if e.toNat = 114 then some (Char.ofNat 13, rest)
    else if e.toNat = 116 then some (Char.ofNat 9, rest)
    else if e.toNat = 117 then
      match getHex4 rest with
      | none => none
      | some (u, rest2) =>
        if 0xD800 ≤ u ∧ u < 0xE000 then
          match getu4 rest2 with
          | some (l, rest3) =>
            if u < 0xDC00 ∧ 0xDC00 ≤ l ∧ l < 0xE000 then
              some (Char.ofNat ((u - 0xD800) * 1024 + (l - 0xDC00) + 0x10000), rest3)
            else some (replacementChar, rest2)
          | none => some (replacementChar, rest2)
        else some (Char.ofNat u, rest2)
    else none

/-- The body of a string literal, after its opening quote: the decoded text and the input
after the closing quote (code 34). A backslash (code 92) starts an escape; a control character
is an error. -/
def lexString : Nat → List Char → List Char → Option (List Char × List Char)
  | 0, _, _ => none
  | _ + 1, [], _ => none
  | f + 1, c :: rest, acc =>
    if c.toNat = 34 then some (acc.reverse, rest)
    else if c.toNat = 92 then
      match lexEscape rest with
      | none => none
      | some (x, rest2) => lexString f rest2 (x :: acc)
    else if c.toNat < 32 then none
    else lexString f rest (c :: acc)

def maxNestingDepth : Nat := 10000

def expectLit (lit : List Char) (v : JSyn) (cs : List Char) : Except JsonError (JSyn × List Char) :=
  if lit.isPrefixOf cs then .ok (v, cs.drop lit.length) else .error .syntaxError

mutual
/-- One value at nesting depth `d`, after optional white space. The first character tells the
kind: `{` (123), `[` (91), `"` (34), `t` (116), `f` (102), `n` (110), else a number. -/
def parseValue : Nat → Nat → List Char → Except JsonError (JSyn × List Char)
  | 0, _, _ => .error .fuel
  | f + 1, d, cs =>
    match skipWs cs with
    | [] => .error .syntaxError
    | c :: rest =>
      if c.toNat = 123 then
        if maxNestingDepth ≤ d then .error .maxDepth
        else
          match skipWs rest with
          | [] => .error .syntaxError
          | c2 :: rest2 =>
            if c2.toNat = 125 then .ok (.obj [], rest2)
            else parseMembers f (d + 1) (c2 :: rest2) []
      else if c.toNat = 91 then
        if maxNestingDepth ≤ d then .error .maxDepth
        else
          match skipWs rest with
          | [] => .error .syntaxError
          | c2 :: rest2 =>
            if c2.toNat = 93 then .ok (.arr [], rest2)
            else parseElems f (d + 1) (c2 :: rest2) []
      else if c.toNat = 34 then
        match lexString (rest.length + 1) rest [] with
        | some (s, r) => .ok (.str s, r)
        | none => .error .syntaxError
      else if c.toNat = 116 then expectLit ['t', 'r', 'u', 'e'] (.bool true) (c :: rest)
      else if c.toNat = 102 then expectLit ['f', 'a', 'l', 's', 'e'] (.bool false) (c :: rest)
      else if c.toNat = 110 then expectLit ['n', 'u', 'l', 'l'] .null (c :: rest)
      else
        match lexNumber (c :: rest) with
        | some (n, r) => .ok (.num n, r)
        | none => .error .syntaxError
/-- The elements of an array after its `[`, up to its `]` (93), separated by `,` (44). -/
def parseElems : Nat → Nat → List Char → List JSyn → Except JsonError (JSyn × List Char)
  | 0, _, _, _ => .error .fuel
  | f + 1, d, cs, acc =>
    match parseValue f d cs with
    | .error e => .error e
    | .ok (v, r) =>
      match skipWs r with
      | [] => .error .syntaxError
      | c :: rest =>
        if c.toNat = 44 then parseElems f d rest (v :: acc)
        else if c.toNat = 93 then .ok (.arr (v :: acc).reverse, rest)
        else .error .syntaxError
/-- The members of an object after its `{`, up to its `}` (125): a string key, `:` (58), a
value, separated by `,` (44). -/
def parseMembers : Nat → Nat → List Char → List (List Char × JSyn) →
    Except JsonError (JSyn × List Char)
  | 0, _, _, _ => .error .fuel
  | f + 1, d, cs, acc =>
    match skipWs cs with
    | [] => .error .syntaxError
    | q :: rest =>
      if q.toNat = 34 then
        match lexString (rest.length + 1) rest [] with
        | none => .error .syntaxError
        | some (k, r) =>
          match skipWs r with
          | [] => .error .syntaxError
          | c :: r2 =>
            if c.toNat = 58 then
              match parseValue f d r2 with
              | .error e => .error e
              | .ok (v, r3) =>
                match skipWs r3 with
                | [] => .error .syntaxError
                | c3 :: r4 =>
                  if c3.toNat = 44 then parseMembers f d r4 ((k, v) :: acc)
                  else if c3.toNat = 125 then .ok (.obj ((k, v) :: acc).reverse, r4)
                  else .error .syntaxError
            else .error .syntaxError
      else .error .syntaxError
end

/-- The scanner of `json.Unmarshal`: one value, surrounded by optional white space. -/
def parseJSON (cs : List Char) : Except JsonError JSyn :=
  match parseValue (2 * cs.length + 2) 0 cs with
  | .error e => .error e
  | .ok (v, r) => if skipWs r = [] then .ok v else .error .syntaxError

/-! ## Go values -/

/-- A value held in Go's `interface{}`, as far as the grader meets them: what a query
yields (`nil`, `bool`, `int64`, `float64`, `string`) and what `json.Unmarshal` builds
(`nil`, `bool`, `float64`, `string`, `[]interface{}`, `map[string]interface{}`). A map is kept
as an association list sorted by key, the order in which `json.Marshal` writes it. `nonFinite`
stands for the float64 values NaN and ±Inf. -/
inductive JV where
  | null
  | bool (b : Bool)
  | int (n : Int)
  | num (f : F64)
  | nonFinite
  | str (s : List Char)
  | arr (xs : List JV)
  | obj (kvs : List (List Char × JV))
deriving Repr

/-- Go's string order (byte order of the UTF-8 encoding, which is code point order). -/
def ltStr : List Char → List Char → Bool
  | [], [] => false
  | [], _ :: _ => true
  | _ :: _, [] => false
  | a :: as, b :: bs =>
    if a.toNat < b.toNat then true else if b.toNat < a.toNat then false else ltStr as bs

/-- The assignment `m[k] = v` on a map kept sorted by key. -/
def insertKey {α : Type} (k : List Char) (v : α) : List (List Char × α) → List (List Char × α)
  | [] => [(k, v)]
  | (k', v') :: rest =>
    if k = k' then (k, v) :: rest
    else if ltStr k k' then (k, v) :: (k', v') :: rest
    else (k', v') :: insertKey k v rest

/-- The conversion `strconv.ParseFloat(lit, 64)` of a number literal; out of range is an
error. -/
def decodeNum (n : NumLit) : Except JsonError F64 :=
  match parseMag n.digits n.exp10 with
  | some m => .ok ⟨n.neg, m⟩
  | none => .error .outOfRange

mutual
/-- Decoding into an empty `interface{}`. -/
def decodeAny : JSyn → Except JsonError JV
  | .null => .ok .null
  | .bool b => .ok (.bool b)
  | .num n =>
    match decodeNum n with
    | .error e => .error e
    | .ok f => .ok (.num f)
  | .str s => .ok (.str s)
  | .arr xs =>
    match decodeList xs with
    | .error e => .error e
    | .ok vs => .ok (.arr vs)
  | .obj kvs =>
    match decodeMembers kvs [] with
    | .error e => .error e
    | .ok m => .ok (.obj m)
def decodeList : List JSyn → Except JsonError (List JV)
  | [] => .ok []
  | x :: xs =>
    match decodeAny x with
    | .error e => .error e
    | .ok v =>
      match decodeList xs with
      | .error e => .error e
      | .ok vs => .ok (v :: vs)
def decodeMembers : List (List Char × JSyn) → List (List Char × JV) →
    Except JsonError (List (List Char × JV))
  | [], acc => .ok acc
  | (k, x) :: rest, acc =>
    match decodeAny x with
    | .error e => .error e
    | .ok v => decodeMembers rest (insertKey k v acc)
end

/-! ## json.Marshal -/

def hexDigit (n : Nat) : Char := if n < 10 then Char.ofNat (48 + n) else Char.ofNat (87 + n)

/-- The encoder's text for one character of a string: the quote (34) and the backslash (92)
get a backslash; backspace, form feed, newline, carriage return and tab (8, 12, 10, 13, 9) are
written with their letter; the other control characters and the characters 60, 62, 38 of HTML
are written as an escape of four hex digits, and so are U+2028 and U+2029; any other character
is itself. -/
def quoteChar (c : Char) : List Char :=
  if c.toNat = 34 then ['\\', '"']
  else if c.toNat = 92 then ['\\', '\\']
  else if c.toNat = 8 then ['\\', 'b']
  else if c.toNat = 12 then ['\\', 'f']
  else if c.toNat = 10 then ['\\', 'n']
  else if c.toNat = 13 then ['\\', 'r']
  else if c.toNat = 9 then ['\\', 't']
  else if c.toNat < 32 ∨ c.toNat = 60 ∨ c.toNat = 62 ∨ c.toNat = 38 then
    ['\\', 'u', '0', '0', hexDigit (c.toNat / 16), hexDigit (c.toNat % 16)]
  else if c.toNat = 0x2028 then ['\\', 'u', '2', '0', '2', '8']
  else if c.toNat = 0x2029 then ['\\', 'u', '2', '0', '2', '9']
  else [c]

def quoteBody : List Char → List Char
  | [] => []
  | c :: cs => quoteChar c ++ quoteBody cs

def quote (s : List Char) : List Char := '"' :: (quoteBody s ++ ['"'])

def marshalInt (n : Int) : List Char :=
  if n < 0 then '-' :: natDigits n.natAbs else natDigits n.natAbs

mutual
/-- The text the encoder writes for a value (for `nonFinite` the encoder stops with an error
instead, see `marshal`). -/
def JV.encode : JV → List Char
  | .null => ['n', 'u', 'l', 'l']
  | .bool true => ['t', 'r', 'u', 'e']
  | .bool false => ['f', 'a', 'l', 's', 'e']
  | .int n => marshalInt n
  | .num f => formatF64 f
  | .nonFinite => []
  | .str s => quote s
  | .arr xs => '[' :: (encodeElems xs ++ [']'])
  | .obj kvs => '{' :: (encodeMembers kvs ++ ['}'])
def encodeElems : List JV → List Char
  | [] => []
  | [x] => x.encode
  | x :: y :: ys => x.encode ++ ',' :: encodeElems (y :: ys)
def encodeMembers : List (List Char × JV) → List Char
  | [] => []
  | [(k, x)] => quote k ++ ':' :: x.encode
  | (k, x) :: y :: ys => quote k ++ ':' :: (x.encode ++ ',' :: encodeMembers (y :: ys))
end

mutual
/-- No NaN or ±Inf anywhere in the value. -/
def JV.supported : JV → Bool
  | .null => true
  | .bool _ => true
  | .int _ => true
  | .num _ => true
  | .nonFinite => false
  | .str _ => true
  | .arr xs => supportedList xs
  | .obj kvs => supportedMembers kvs
def supportedList : List JV → Bool
  | [] => true
  | x :: xs => x.supported && supportedList xs
def supportedMembers : List (List Char × JV) → Bool
  | [] => true
  | (_, x) :: rest => x.supported && supportedMembers rest
end

/-- The call `json.Marshal(v)`: the text, or nothing when the encoder stops with an
UnsupportedValueError. -/
def marshal (v : JV) : Option (List Char) :=
  if v.supported then some v.encode else none

/-- The conversion `string(b)` of what `json.Marshal` returned when its error is dropped: the
empty string after an error. -/
def marshalString (v : JV) : String :=
  match marshal v with
  | some t => String.mk t
  | none => ""

/-! ## normalizeJSON -/

def unmarshalAny (s : String) : Except JsonError JV :=
  match parseJSON s.data with
  | .error e => .error e
  | .ok t => decodeAny t

def normalizeJSON (s : String) : String :=
  match unmarshalAny s with
  | .error _ => s
  | .ok v => marshalString v

/-! ## Rows -/

/-- A column value as `rows.Scan` stores it in an `interface{}`. -/
inductive Scalar where
  | null
  | bool (b : Bool)
  | int (n : Int)
  | float (f : F64)
  | nonFinite
  | text (s : String)
deriving DecidableEq, Repr

def Scalar.toJV : Scalar → JV
  | .null => .null
  | .bool b => .bool b
  | .int n => .int n
  | .float f => .num f
  | .nonFinite => .nonFinite
  | .text s => .str s.data

/-- A row `map[string]interface{}`. -/
abbrev Row := List (List Char × Scalar)

/-- The loop `row[col] = values[i]` over the columns. -/
def buildRow (columns : List String) (values : List Scalar) : Row :=
  (columns.zip values).foldl (fun row cv => insertKey cv.1.data cv.2 row) []

def Row.toJV (r : Row) : JV := .obj (r.map (fun kv => (kv.1, kv.2.toJV)))

/-- The value of `results []map[string]interface{}` as the encoder sees it: a slice that was
never appended to is nil. -/
def resultsValue (results : List Row) : JV :=
  match results with
  | [] => .null
  | _ :: _ => .arr (results.map Row.toJV)

/-- A map decoded from the expected text, nil when the element was `null`. -/
abbrev ExpRow := Option (List (List Char × JV))

def decodeRow : JSyn → Except JsonError ExpRow
  | .null => .ok none
  | .obj kvs =>
    match decodeMembers kvs [] with
    | .error e => .error e
    | .ok m => .ok (some m)
  | .bool _ => .error .typeMismatch
  | .num _ => .error .typeMismatch
  | .str _ => .error .typeMismatch
  | .arr _ => .error .typeMismatch

def decodeRowList : List JSyn → Except JsonError (List ExpRow)
  | [] => .ok []
  | x :: xs =>
    match decodeRow x with
    | .error e => .error e
    | .ok r =>
      match decodeRowList xs with
      | .error e => .error e
      | .ok rs => .ok (r :: rs)

/-- Decoding into `expected []map[string]interface{}`: nil for `null`. -/
def decodeRows : JSyn → Except JsonError (Option (List ExpRow))
  | .null => .ok none
  | .arr xs =>
    match decodeRowList xs with
    | .error e => .error e
    | .ok rs => .ok (some rs)
  | .bool _ => .error .typeMismatch
  | .num _ => .error .typeMismatch
  | .str _ => .error .typeMismatch
  | .obj _ => .error .typeMismatch

/-- The call `json.Unmarshal([]byte(check.Expected), &expected)`. -/
def unmarshalRows (s : String) : Except JsonError (Option (List ExpRow)) :=
  match parseJSON s.data with
  | .error e => .error e
  | .ok t => decodeRows t

def ExpRow.toJV : ExpRow → JV
  | none => .null
  | some m => .obj m

/-- The value of `expected` as the encoder sees it. -/
def expectedValue : Option (List ExpRow) → JV
  | none => .null
  | some rs => .arr (rs.map ExpRow.toJV)

/-! ## The grader -/

structure Check where
  Name : String
  Query : String
  Expected : String
  Description : String
deriving DecidableEq, Repr

structure Exercise where
  ID : String
  Name : String
  Description : String
  SetupSQL : String
  SolutionSQL : String
  Checks : List Check
deriving DecidableEq, Repr

structure CheckResult where
  CheckName : String
  Passed : Bool
  Message : String
  Expected : String
  Got : String
deriving DecidableEq, Repr

structure GradeResult where
  ExerciseID : String
  Passed : Bool
  Message : String
  Details : List CheckResult
deriving DecidableEq, Repr

/-- The cursor a successful `db.Query` returns: its column names (or the error of
`rows.Columns()`), and for each row `rows.Next()` yields, the scanned values or the error of
`rows.Scan`. -/
structure Rows where
  columns : Except String (List String)
  rows : List (Except String (List Scalar))

/-- The database engine over its states `σ`. -/
structure Engine (σ : Type) where
  query : σ → String → Except String Rows × σ
  exec : σ → String → Except String σ

/-- The loop `for rows.Next()` of runCheck: the rows collected, or the first scan error. -/
def collectRows (columns : List String) : List (Except String (List Scalar)) → List Row →
    Except String (List Row)
  | [], acc => .ok acc
  | .error e :: _, _ => .error e
  | .ok values :: rest, acc => collectRows columns rest (acc ++ [buildRow columns values])

def runCheck {σ : Type} (eng : Engine σ) (db : σ) (check : Check) : CheckResult × σ :=
  match eng.query db check.Query with
  | (.error err, db') =>
    (⟨check.Name, false, "Query error: " ++ err, "", ""⟩, db')
  | (.ok rows, db') =>
    match rows.columns with
    | .error err => (⟨check.Name, false, "Error getting columns: " ++ err, "", ""⟩, db')
    | .ok columns =>
      match collectRows columns rows.rows [] with
      | .error err => (⟨check.Name, false, "Scan error: " ++ err, "", ""⟩, db')
      | .ok results =>
        match unmarshalRows check.Expected with
        | .error err =>
          (⟨check.Name, false, "Invalid expected JSON: " ++ err.Error, "", ""⟩, db')
        | .ok expected =>
          if normalizeJSON (marshalString (resultsValue results))
              = normalizeJSON (marshalString (expectedValue expected)) then
            (⟨check.Name, true, "Passed!", "", ""⟩, db')
          else
            (⟨check.Name, false, check.Description, marshalString (expectedValue expected),
              marshalString (resultsValue results)⟩, db')

/-- The grading loop of gradeExercise: one runCheck per check, in order, on the same
connection; `Passed` starts true and is cleared by every failed check. -/
def gradeLoop {σ : Type} (eng : Engine σ) : σ → List Check → GradeResult → GradeResult
  | _, [], result => result
  | db, check :: rest, result =>
    gradeLoop eng (runCheck eng db check).2 rest
      { result with
        Details := result.Details ++ [(runCheck eng db check).1]
        Passed := if (runCheck eng db check).1.Passed then result.Passed else false }

/-! ## Exercise definitions -/

/-- Unicode simple case folding on the runes that can match an ASCII field name. -/
def foldRune (c : Char) : Nat :=
  if 65 ≤ c.toNat ∧ c.toNat ≤ 90 then c.toNat + 32
  else if c.toNat = 0x212A then 107
  else if c.toNat = 0x17F then 115
  else c.toNat

/-- The decoder's match of an object key with a struct field name: exact, or equal under
case folding. -/
def fieldMatch (key : List Char) (field : String) : Bool :=
  key.map foldRune = field.data.map foldRune

/-- Decoding into a `string` field that holds `old`. -/
def decodeString (old : String) : JSyn → Except JsonError String
  | .str s => .ok (String.mk s)
  | .null => .ok old
  | .bool _ => .error .typeMismatch
  | .num _ => .error .typeMismatch
  | .arr _ => .error .typeMismatch
  | .obj _ => .error .typeMismatch

def decodeCheckFields : List (List Char × JSyn) → Check → Except JsonError Check
  | [], c => .ok c
  | (k, v) :: rest, c =>
    if fieldMatch k "name" then
      match decodeString c.Name v with
      | .error e => .error e
      | .ok s => decodeCheckFields rest { c with Name := s }
    else if fieldMatch k "query" then
      match decodeString c.Query v with
      | .error e => .error e
      | .ok s => decodeCheckFields rest { c with Query := s }
    else if fieldMatch k "expected" then
      match decodeString c.Expected v with
      | .error e => .error e
      | .ok s => decodeCheckFields rest { c with Expected := s }
    else if fieldMatch k "description" then
      match decodeString c.Description v with
      | .error e => .error e
      | .ok s => decodeCheckFields rest { c with Description := s }
    else decodeCheckFields rest c

/-- Decoding into a `Check` that holds `old`. -/
def decodeCheck (old : Check) : JSyn → Except JsonError Check
  | .null => .ok old
  | .obj kvs => decodeCheckFields kvs old
  | .bool _ => .error .typeMismatch
  | .num _ => .error .typeMismatch
  | .str _ => .error .typeMismatch
  | .arr _ => .error .typeMismatch

def zeroCheck : Check := ⟨"", "", "", ""⟩

/-- Decoding the elements of an array into a slice over the backing array `backing`: element
`i` is decoded into what the backing array holds at `i`. Returns the new slice and what is left
of the backing array behind it. -/
def decodeCheckElems : List JSyn → List Check → Except JsonError (List Check × List Check)
  | [], backing => .ok ([], backing)
  | x :: xs, backing =>
    match decodeCheck (backing.headD zeroCheck) x with
    | .error e => .error e
    | .ok c =>
      match decodeCheckElems xs backing.tail with
      | .error e => .error e
      | .ok (cs, stale) => .ok (c :: cs, stale)

/-- Decoding into a `[]Check` field: the slice and the rest of its backing array. -/
def decodeChecks (old : List Check × List Check) : JSyn → Except JsonError (List Check × List Check)
  | .null => .ok ([], [])
  | .arr [] => .ok ([], [])
  | .arr (x :: xs) => decodeCheckElems (x :: xs) (old.1 ++ old.2)
  | .bool _ => .error .typeMismatch
  | .num _ => .error .typeMismatch
  | .str _ => .error .typeMismatch
  | .obj _ => .error .typeMismatch

def decodeExerciseFields : List (List Char × JSyn) → Exercise × List Check →
    Except JsonError (Exercise × List Check)
  | [], st => .ok st
  | (k, v) :: rest, (ex, stale) =>
    if fieldMatch k "id" then
      match decodeString ex.ID v with
      | .error e => .error e
      | .ok s => decodeExerciseFields rest ({ ex with ID := s }, stale)
    else if fieldMatch k "name" then
      match decodeString ex.Name v with
      | .error e => .error e
      | .ok s => decodeExerciseFields rest ({ ex with Name := s }, stale)
    else if fieldMatch k "description" then
      match decodeString ex.Description v with
      | .error e => .error e
      | .ok s => decodeExerciseFields rest ({ ex with Description := s }, stale)
    else if fieldMatch k "setup_sql" then
      match decodeString ex.SetupSQL v with
      | .error e => .error e
      | .ok s => decodeExerciseFields rest ({ ex with SetupSQL := s }, stale)
    else if fieldMatch k "solution_sql" then
      match decodeString ex.SolutionSQL v with
      | .error e => .error e
      | .ok s => decodeExerciseFields rest ({ ex with SolutionSQL := s }, stale)
    else if fieldMatch k "checks" then
      match decodeChecks (ex.Checks, stale) v with
      | .error e => .error e
      | .ok (cs, stale') => decodeExerciseFields rest ({ ex with Checks := cs }, stale')
    else decodeExerciseFields rest (ex, stale)

def zeroExercise : Exercise := ⟨"", "", "", "", "", []⟩

/-- Decoding into a zero `Exercise`: `null` leaves it alone, an object sets the fields it
names, anything else is a type error. -/
def decodeExercise : JSyn → Except JsonError Exercise
  | .null => .ok zeroExercise
  | .obj kvs =>
    match decodeExerciseFields kvs (zeroExercise, []) with
    | .error e => .error e
    | .ok (ex, _) => .ok ex
  | .bool _ => .error .typeMismatch
  | .num _ => .error .typeMismatch
  | .str _ => .error .typeMismatch
  | .arr _ => .error .typeMismatch

/-- The call `json.Unmarshal(data, &exercise)` on a zero `Exercise`. -/
def unmarshalExercise (data : String) : Except JsonError Exercise :=
  match parseJSON data.data with
  | .error e => .error e
  | .ok t => decodeExercise t

/-! ## The file system -/

structure DirEntry where
  Name : String
  IsDir : Bool
deriving DecidableEq, Repr

inductive ReadDirError where
  | notExist
  | other (msg : String)
deriving DecidableEq, Repr

/-- The file system as the grader sees it. Paths are given by the arguments of
`filepath.Join`. -/
structure FS where
  readFile : List String → Except String String
  readDir : List String → Except ReadDirError (List DirEntry)
  statNotExist : List String → Bool

def loadExercise (fs : FS) (id : String) : Except String Exercise :=
  match fs.readFile ["exercises", id, "config.json"] with
  | .error _ => .error ("exercise not found: " ++ id)
  | .ok data =>
    match unmarshalExercise data with
    | .error err => .error ("invalid exercise config: " ++ err.Error)
    | .ok exercise => .ok exercise

/-- The test `strings.HasPrefix(name, ".")`. -/
def hasDotPrefix (name : String) : Bool :=
  match name.data with
  | [] => false
  | c :: _ => decide (c.toNat = 46)

/-- The loop of loadExercises over the directory entries. -/
def loadEntries (fs : FS) : List DirEntry → List Exercise → List Exercise
  | [], exercises => exercises
  | entry :: rest, exercises =>
    if !entry.IsDir then loadEntries fs rest exercises
    else if hasDotPrefix entry.Name then loadEntries fs rest exercises
    else
      match fs.readFile ["exercises", entry.Name, "config.json"] with
      | .error _ => loadEntries fs rest exercises
      | .ok data =>
        match unmarshalExercise data with
        | .error _ => loadEntries fs rest exercises
        | .ok exercise => loadEntries fs rest (exercises ++ [exercise])

def loadExercises (fs : FS) : Except String (List Exercise) :=
  match fs.readDir ["exercises"] with
  | .error .notExist => .ok []
  | .error (.other msg) => .error msg
  | .ok entries => .ok (loadEntries fs entries [])

/-- How a run of gradeExercise ends: `os.Exit(1)` after a message, or the result handed to
printResult. -/
inductive Outcome where
  | exit (message : String)
  | graded (exercise : Exercise) (result : GradeResult)
deriving DecidableEq, Repr

/-- The run of gradeExercise up to its grading loop: the exercise loaded, the solution file
found and read, the database opened, the setup script (when the exercise names one) read and
executed, the solution executed. Every failure prints a message and calls `os.Exit(1)`; the
model keeps the label of the message and the error, not its layout. -/
def prepare {σ : Type} (fs : FS) (connect : Except String σ) (eng : Engine σ)
    (exerciseID : String) : Except String (Exercise × σ) :=
  match loadExercise fs exerciseID with
  | .error err => .error ("Error: " ++ err)
  | .ok exercise =>
    if fs.statNotExist ["solutions", exerciseID ++ ".sql"] then
      .error "Error: Solution file not found"
    else
      match fs.readFile ["solutions", exerciseID ++ ".sql"] with
      | .error err => .error ("Error reading solution: " ++ err)
      | .ok userSolution =>
        match connect with
        | .error err => .error ("Error creating database: " ++ err)
        | .ok db0 =>
          let setup : Except String σ :=
            if exercise.SetupSQL ≠ "" then
              match fs.readFile ["exercises", exerciseID, exercise.SetupSQL] with
              | .error err => .error ("Error reading setup SQL: " ++ err)
              | .ok setupSQL =>
                match eng.exec db0 setupSQL with
                | .error err => .error ("Error running setup SQL: " ++ err)
                | .ok db1 => .ok db1
            else .ok db0
          match setup with
          | .error msg => .error msg
          | .ok db1 =>
            match eng.exec db1 userSolution with
            | .error err => .error ("Error in your SQL: " ++ err)
            | .ok db2 => .ok (exercise, db2)

def gradeExercise {σ : Type} (fs : FS) (connect : Except String σ) (eng : Engine σ)
    (exerciseID : String) : Outcome :=
  match prepare fs connect eng exerciseID with
  | .error msg => .exit msg
  | .ok (exercise, db) =>
    .graded exercise (gradeLoop eng db exercise.Checks ⟨exerciseID, true, "", []⟩)

/-! ## Notions used to state the properties -/

/-- The literal the text of a float64 lexes to. -/
def litOf (f : F64) : NumLit :=
  match lexNumber (formatF64 f) with
  | some (l, _) => l
  | none => ⟨f.neg, 0, 0⟩

mutual
/-- The syntax tree of the text the encoder writes for a value. -/
def JV.syn : JV → JSyn
  | .null => .null
  | .bool b => .bool b
  | .int n => .num ⟨decide (n < 0), n.natAbs, 0⟩
  | .num f => .num (litOf f)
  | .nonFinite => .null
  | .str s => .str s
  | .arr xs => .arr (synList xs)
  | .obj kvs => .obj (synMembers kvs)
def synList : List JV → List JSyn
  | [] => []
  | x :: xs => x.syn :: synList xs
def synMembers : List (List Char × JV) → List (List Char × JSyn)
  | [] => []
  | (k, x) :: rest => (k, x.syn) :: synMembers rest
end

mutual
/-- The value with every `int64` converted to the nearest float64, which is what decoding its
JSON text into an `interface{}` gives. -/
def JV.canon : JV → JV
  | .null => .null
  | .bool b => .bool b
  | .int n => .num ⟨decide (n < 0), roundMag n.natAbs 1⟩
  | .num f => .num f
  | .nonFinite => .nonFinite
  | .str s => .str s
  | .arr xs => .arr (canonList xs)
  | .obj kvs => .obj (canonMembers kvs)
def canonList : List JV → List JV
  | [] => []
  | x :: xs => x.canon :: canonList xs
def canonMembers : List (List Char × JV) → List (List Char × JV)
  | [] => []
  | (k, x) :: rest => (k, x.canon) :: canonMembers rest
end

/-- A magnitude is a float64 magnitude when rounding leaves it alone and it is in range. -/
def validMag (n : Nat) : Bool := decide (roundMag n twoPow1074 = n) && decide (n < twoPow2098)

/-- The keys of a map are in strictly increasing order. -/
def sortedKeys {α : Type} : List (List Char × α) → Bool
  | [] => true
  | [_] => true
  | (k, _) :: (k', v') :: rest => ltStr k k' && sortedKeys ((k', v') :: rest)

/-- An `int64`. -/
def validInt (n : Int) : Bool :=
  decide (-9223372036854775808 ≤ n) && decide (n ≤ 9223372036854775807)

/-- An integer whose nearest float64 is finite, as that of every `int64` is. -/
def intOk (n : Int) : Bool := decide (roundMag n.natAbs 1 < twoPow2098)

mutual
/-- The values the encoder's text can be read back from: an integer converts to a finite
float64, a float64 is one, a map has sorted keys. -/
def JV.valid : JV → Bool
  | .null => true
  | .bool _ => true
  | .int n => intOk n
  | .num f => validMag f.mag
  | .nonFinite => true
  | .str _ => true
  | .arr xs => validList xs
  | .obj kvs => sortedKeys kvs && validMembers kvs
def validList : List JV → Bool
  | [] => true
  | x :: xs => x.valid && validList xs
def validMembers : List (List Char × JV) → Bool
  | [] => true
  | (_, x) :: rest => x.valid && validMembers rest
end

mutual
/-- The values `json.Unmarshal` builds in an `interface{}`: no `int64`, no NaN or ±Inf. -/
def JV.decoded : JV → Bool
  | .null => true
  | .bool _ => true
  | .int _ => false
  | .num f => validMag f.mag
  | .nonFinite => false
  | .str _ => true
  | .arr xs => decodedList xs
  | .obj kvs => sortedKeys kvs && decodedMembers kvs
def decodedList : List JV → Bool
  | [] => true
  | x :: xs => x.decoded && decodedList xs
def decodedMembers : List (List Char × JV) → Bool
  | [] => true
  | (_, x) :: rest => x.decoded && decodedMembers rest
end

mutual
/-- The nesting depth of a value: 0 for a scalar. -/
def JV.depth : JV → Nat
  | .null => 0
  | .bool _ => 0
  | .int _ => 0
  | .num _ => 0
  | .nonFinite => 0
  | .str _ => 0
  | .arr xs => depthList xs + 1
  | .obj kvs => depthMembers kvs + 1
def depthList : List JV → Nat
  | [] => 0
  | x :: xs => max x.depth (depthList xs)
def depthMembers : List (List Char × JV) → Nat
  | [] => 0
  | (_, x) :: rest => max x.depth (depthMembers rest)
end

mutual
def JSyn.depth : JSyn → Nat
  | .null => 0
  | .bool _ => 0
  | .num _ => 0
  | .str _ => 0
  | .arr xs => JSyn.depthList xs + 1
  | .obj kvs => JSyn.depthMembers kvs + 1
def JSyn.depthList : List JSyn → Nat
  | [] => 0
  | x :: xs => max x.depth (JSyn.depthList xs)
def JSyn.depthMembers : List (List Char × JSyn) → Nat
  | [] => 0
  | (_, x) :: rest => max x.depth (JSyn.depthMembers rest)
end

/-- A column value of the engine is a machine value: an integer is an `int64`, a finite float
is a float64. -/
def Scalar.valid : Scalar → Bool
  | .null => true
  | .bool _ => true
  | .int n => validInt n
  | .float f => validMag f.mag
  | .nonFinite => true
  | .text _ => true

/-- Every value a query yields is a machine value. -/
def Rows.valid (rows : Rows) : Prop :=
  ∀ values, Except.ok values ∈ rows.rows → ∀ s ∈ values, s.valid = true

/-- A row with every integer converted to the nearest float64. -/
def canonRow (r : Row) : List (List Char × JV) :=
  canonMembers (r.map (fun kv => (kv.1, kv.2.toJV)))

/-- The rows of the decoded expected value: none for a nil slice. -/
def expectedRows : Option (List ExpRow) → List ExpRow
  | none => []
  | some rs => rs

/-- A column value and a decoded JSON value are the same value; a number of the engine and a
JSON number are compared by their exact values. -/
def sameValue : Scalar → JV → Bool
  | .null, .null => true
  | .bool a, .bool b => a == b
  | .int n, .num f =>
    decide (f.mag = twoPow1074 * n.natAbs) && (f.neg == decide (n < 0) || decide (n = 0))
  | .float g, .num f => decide (f.mag = g.mag) && (f.neg == g.neg || decide (g.mag = 0))
  | .text s, .str t => decide (s.data = t)
  | _, _ => false

/-- Two maps have the same keys with the same values. -/
def sameMembers : Row → List (List Char × JV) → Bool
  | [], [] => true
  | (k, s) :: r, (k', v) :: m => decide (k = k') && sameValue s v && sameMembers r m
  | _, _ => false

def sameRow : Row → ExpRow → Bool
  | r, some m => sameMembers r m
  | _, none => false

/-- Two row sequences are the same, row by row. -/
def sameRows : List Row → List ExpRow → Bool
  | [], [] => true
  | r :: rs, e :: es => sameRow r e && sameRows rs es
  | _, _ => false


/-- The input does not go on with a digit. -/
def NoDigit (rest : List Char) : Prop := ∀ c r, rest = c :: r → isDigit c = false

/-- The input does not go on with a character a number could go on with. -/
def NumEnd (rest : List Char) : Prop :=
  ∀ c r, rest = c :: r → isDigit c = false ∧ c.toNat ≠ 46 ∧ c.toNat ≠ 101 ∧ c.toNat ≠ 69

/-- A magnitude is a float64 magnitude when rounding leaves it alone and it is in range. -/
def ValidMag (n : Nat) : Prop := roundMag n twoPow1074 = n ∧ n < twoPow2098

/-- The head of a value's text is not white space. -/
abbrev Visible (c : Char) : Prop :=
  c.toNat ≠ 32 ∧ c.toNat ≠ 9 ∧ c.toNat ≠ 13 ∧ c.toNat ≠ 10

/-- A row of machine values with sorted keys. -/
def GoodRow (r : Row) : Prop := sortedKeys r = true ∧ ∀ p ∈ r, p.2.toJV.valid = true

/-- The results of the checks, each run on the database the checks before it left. -/
def checkResults {σ : Type} (eng : Engine σ) : σ → List Check → List CheckResult
  | _, [] => []
  | db, check :: rest =>
    (runCheck eng db check).1 :: checkResults eng (runCheck eng db check).2 rest

/-- The ID a member for `id` leaves in an Exercise that holds `cur`: its string, or `cur` when
it is `null`. -/
def memberValue (cur : String) : JSyn → String
  | .str s => String.mk s
  | .null => cur
  | .bool _ => cur
  | .num _ => cur
  | .arr _ => cur
  | .obj _ => cur

/-- The ID the members of a definition give to an Exercise that holds `cur`: each member whose
key is `id` in any letter case sets it, so the last such member wins. -/
def memberID : List (List Char × JSyn) → String → String
  | [], cur => cur
  | (k, v) :: rest, cur => memberID rest (if fieldMatch k "id" then memberValue cur v else cur)

/-- The ID a definition gives to a zero Exercise: empty unless the definition is an object with
a member for it. -/
def definitionID : JSyn → String
  | .obj kvs => memberID kvs ""
  | .null => ""
  | .bool _ => ""
  | .num _ => ""
  | .str _ => ""
  | .arr _ => ""

/-- The catalog as the spec describes it: the exercises decoded from the entries that are
directories, are not hidden, and have a readable definition that decodes, in listing order. -/
def catalogOf (fs : FS) (entries : List DirEntry) : List Exercise :=
  entries.filterMap (fun entry =>
    if entry.IsDir && !hasDotPrefix entry.Name then
      match fs.readFile ["exercises", entry.Name, "config.json"] with
      | .error _ => none
      | .ok data =>
        match unmarshalExercise data with
        | .error _ => none
        | .ok exercise => some exercise
    else none)

/-! ## Concrete environments -/

/-- An engine without state whose every query yields the same outcome. -/
def constEngine (out : Except String Rows) : Engine Unit :=
  ⟨fun _ _ => (out, ()), fun _ _ => .ok ()⟩

/-- The cursor of a query over one column `x`, one row per value. -/
def columnX (values : List Scalar) : Rows :=
  ⟨.ok ["x"], values.map (fun v => .ok [v])⟩

/-- A file system whose catalog lists a plain file, a hidden directory, the exercise `id` with
the definition `config`, a directory with a malformed definition and one with none; the
solution of the exercise exists. -/
def catalogFS (id config : String) : FS where
  readFile := fun path =>
    if path = ["exercises", id, "config.json"] then .ok config
    else if path = ["solutions", id ++ ".sql"] then .ok "CREATE TABLE t(x INT);"
    else if path = ["exercises", "broken", "config.json"] then .ok "not json"
    else .error "no such file or directory"
  readDir := fun path =>
    if path = ["exercises"] then
      .ok [⟨"README.md", false⟩, ⟨".git", true⟩, ⟨id, true⟩, ⟨"broken", true⟩, ⟨"empty", true⟩]
    else .error .notExist
  statNotExist := fun path => !decide (path = ["solutions", id ++ ".sql"])


/-- A definition with two checks; the expected text of the first is not JSON. -/
def sampleConfig : String :=
  "\x7b\"id\":\"a\",\"name\":\"A\",\"description\":\"d\",\"solution_sql\":\"a.sql\","
    ++ "\"checks\":[\x7b\"name\":\"c1\",\"query\":\"SELECT x FROM t\",\"expected\":\"oops\","
    ++ "\"description\":\"never\"\x7d,\x7b\"name\":\"c2\",\"query\":\"SELECT x FROM t\","
    ++ "\"expected\":\"[\x7b\\\"x\\\":1\x7d]\",\"description\":\"x is 1\"\x7d]\x7d"

/-- The exercise `sampleConfig` decodes to. -/
def sampleExercise : Exercise :=
  ⟨"a", "A", "d", "", "a.sql",
    [⟨"c1", "SELECT x FROM t", "oops", "never"⟩,
     ⟨"c2", "SELECT x FROM t", "[\x7b\"x\":1\x7d]", "x is 1"⟩]⟩

/-! ## Decimal digits -/

theorem digitChar_toNat (d : Nat) (h : d < 10) : (digitChar d).toNat = 48 + d := by
  interval_cases d <;> rfl

theorem isDigit_digitChar (d : Nat) (h : d < 10) : isDigit (digitChar d) = true := by
  interval_cases d <;> rfl

theorem digitChar_ne_zero (d : Nat) (h : d < 10) (h0 : d ≠ 0) : digitChar d ≠ '0' := by
  interval_cases d <;> first | exact absurd rfl h0 | decide

theorem natDigitsAux_append : ∀ (f n : Nat) (acc : List Char),
    natDigitsAux f n acc = natDigitsAux f n [] ++ acc := by
  intro f
  induction f with
  | zero => intro n acc; simp [natDigitsAux]
  | succ f ih =>
    intro n acc
    unfold natDigitsAux
    by_cases h : n < 10
    · simp [h]
    · simp only [h, if_false]
      rw [ih (n / 10) (digitChar (n % 10) :: acc), ih (n / 10) [digitChar (n % 10)]]
      simp

theorem natDigitsAux_fuel : ∀ (f g n : Nat), n < f → n < g →
    natDigitsAux f n [] = natDigitsAux g n [] := by
  intro f
  induction f with
  | zero => intro g n h; omega
  | succ f ih =>
    intro g n hf hg
    cases g with
    | zero => omega
    | succ g =>
      unfold natDigitsAux
      by_cases h : n < 10
      · simp [h]
      · simp only [h, if_false]
        rw [natDigitsAux_append f, natDigitsAux_append g]
        rw [ih g (n / 10) (by omega) (by omega)]

theorem natDigits_lt (n : Nat) (h : n < 10) : natDigits n = [digitChar n] := by
  unfold natDigits natDigitsAux
  simp [h]

theorem natDigits_ge (n : Nat) (h : ¬ n < 10) :
    natDigits n = natDigits (n / 10) ++ [digitChar (n % 10)] := by
  unfold natDigits
  rw [natDigitsAux]
  simp only [h, if_false]
  rw [natDigitsAux_append]
  rw [natDigitsAux_fuel n (n / 10 + 1) (n / 10) (by omega) (by omega)]

theorem digitsVal_append_single (ds : List Char) (c : Char) :
    digitsVal (ds ++ [c]) = digitsVal ds * 10 + (c.toNat - 48) := by
  unfold digitsVal
  rw [List.foldl_append]
  rfl

theorem digitsVal_nil : digitsVal [] = 0 := rfl

theorem digitsVal_append (a b : List Char) :
    digitsVal (a ++ b) = digitsVal a * 10 ^ b.length + digitsVal b := by
  induction b using List.reverseRecOn with
  | nil => simp [digitsVal_nil]
  | append_singleton b c ih =>
    rw [← List.append_assoc, digitsVal_append_single, ih, digitsVal_append_single]
    rw [List.length_append, List.length_singleton, pow_succ]
    ring

theorem digitsVal_zeros (n : Nat) : digitsVal (List.replicate n '0') = 0 := by
  induction n with
  | zero => rfl
  | succ n ih =>
    rw [List.replicate_succ', digitsVal_append_single, ih]
    rfl

theorem digitsVal_natDigits (n : Nat) : digitsVal (natDigits n) = n := by
  induction n using Nat.strong_induction_on with
  | _ n ih =>
    by_cases h : n < 10
    · rw [natDigits_lt n h]
      have := digitsVal_append_single [] (digitChar n)
      simp only [List.nil_append] at this
      rw [this, digitsVal_nil, digitChar_toNat n h]
      omega
    · rw [natDigits_ge n h, digitsVal_append_single, ih (n / 10) (by omega),
        digitChar_toNat _ (Nat.mod_lt _ (by norm_num))]
      omega

/-- The digits of a number: a first digit, not `0` unless the number is zero, then digits. -/
theorem natDigits_shape (n : Nat) : ∃ c tl, natDigits n = c :: tl ∧ isDigit c = true ∧
    (n ≠ 0 → c ≠ '0') ∧ ∀ x ∈ tl, isDigit x = true := by
  induction n using Nat.strong_induction_on with
  | _ n ih =>
    by_cases h : n < 10
    · refine ⟨digitChar n, [], natDigits_lt n h, isDigit_digitChar n h,
        fun h0 => digitChar_ne_zero n h h0, ?_⟩
      intro x hx; simp at hx
    · obtain ⟨c, tl, e, hc, hz, htl⟩ := ih (n / 10) (by omega)
      refine ⟨c, tl ++ [digitChar (n % 10)], ?_, hc, fun _ => hz (by omega), ?_⟩
      · rw [natDigits_ge n h, e]; rfl
      · intro x hx
        rcases List.mem_append.mp hx with hx | hx
        · exact htl x hx
        · rw [List.mem_singleton.mp hx]
          exact isDigit_digitChar _ (Nat.mod_lt _ (by norm_num))

theorem natDigits_allDigits (n : Nat) : ∀ x ∈ natDigits n, isDigit x = true := by
  obtain ⟨c, tl, e, hc, _, htl⟩ := natDigits_shape n
  intro x hx
  rw [e] at hx
  rcases List.mem_cons.mp hx with hx | hx
  · rw [hx]; exact hc
  · exact htl x hx

theorem natDigits_ne_nil (n : Nat) : natDigits n ≠ [] := by
  obtain ⟨c, tl, e, _⟩ := natDigits_shape n
  rw [e]; simp

theorem natDigits_zero : natDigits 0 = ['0'] := rfl

theorem NumEnd.noDigit {rest : List Char} (h : NumEnd rest) : NoDigit rest :=
  fun c r e => (h c r e).1

theorem isDigit_iff (c : Char) : isDigit c = true ↔ 48 ≤ c.toNat ∧ c.toNat ≤ 57 := by
  unfold isDigit
  simp

theorem isDigit_false_iff (c : Char) : isDigit c = false ↔ ¬ (48 ≤ c.toNat ∧ c.toNat ≤ 57) := by
  rw [← isDigit_iff]; simp

theorem takeDigits_append (ds rest : List Char) (hd : ∀ x ∈ ds, isDigit x = true)
    (hr : NoDigit rest) : takeDigits (ds ++ rest) = (ds, rest) := by
  induction ds with
  | nil =>
    cases rest with
    | nil => rfl
    | cons c r =>
      have := hr c r rfl
      simp [takeDigits, this]
  | cons d ds ih =>
    have h1 : isDigit d = true := hd d (List.mem_cons_self _ _)
    have h2 := ih (fun x hx => hd x (List.mem_cons_of_mem _ hx))
    show takeDigits (d :: (ds ++ rest)) = (d :: ds, rest)
    rw [takeDigits]
    simp only [h1, if_true, h2]

/-! ## Number literals -/

theorem lexInt_zero (rest : List Char) : lexInt ('0' :: rest) = some (['0'], rest) := by
  simp [lexInt]

theorem toNat_ne_of_ne (c : Char) (n : Nat) (h : c ≠ Char.ofNat n) : c.toNat ≠ n := by
  intro hc
  apply h
  rw [← hc, Char.ofNat_toNat]

theorem lexInt_digits (c : Char) (tl rest : List Char) (hc : isDigit c = true) (h0 : c ≠ '0')
    (htl : ∀ x ∈ tl, isDigit x = true) (hr : NoDigit rest) :
    lexInt (c :: tl ++ rest) = some (c :: tl, rest) := by
  have h0' : c.toNat ≠ 48 := toNat_ne_of_ne c 48 h0
  simp only [lexInt, List.cons_append, h0', if_false, hc, if_true,
    takeDigits_append tl rest htl hr]

theorem lexInt_natDigits (n : Nat) (rest : List Char) (hr : NoDigit rest) :
    lexInt (natDigits n ++ rest) = some (natDigits n, rest) := by
  obtain ⟨c, tl, e, hc, hz, htl⟩ := natDigits_shape n
  by_cases h0 : n = 0
  · subst h0; rw [natDigits_zero]; exact lexInt_zero rest
  · rw [e]; exact lexInt_digits c tl rest hc (hz h0) htl hr

theorem lexFrac_end (rest : List Char) (hr : NumEnd rest) : lexFrac rest = some ([], rest) := by
  cases rest with
  | nil => rfl
  | cons c r =>
    have := hr c r rfl
    simp [lexFrac, this.2.1]

theorem lexFrac_dot (fp rest : List Char) (hfp : ∀ x ∈ fp, isDigit x = true) (hne : fp ≠ [])
    (hr : NoDigit rest) : lexFrac ('.' :: (fp ++ rest)) = some (fp, rest) := by
  simp [lexFrac, takeDigits_append fp rest hfp hr, hne]

theorem lexFrac_e (rest : List Char) : lexFrac ('e' :: rest) = some ([], 'e' :: rest) := by
  simp [lexFrac]

theorem lexExp_end (rest : List Char) (hr : NumEnd rest) : lexExp rest = some (0, rest) := by
  cases rest with
  | nil => rfl
  | cons c r =>
    have := hr c r rfl
    simp [lexExp, this.2.2.1, this.2.2.2]

theorem lexExp_plus (n : Nat) (rest : List Char) (hr : NoDigit rest) :
    lexExp ('e' :: '+' :: (natDigits n ++ rest)) = some ((n : Int), rest) := by
  simp [lexExp, takeDigits_append _ rest (natDigits_allDigits n) hr, natDigits_ne_nil,
    digitsVal_natDigits]

theorem lexExp_minus (n : Nat) (rest : List Char) (hr : NoDigit rest) :
    lexExp ('e' :: '-' :: (natDigits n ++ rest)) = some (-(n : Int), rest) := by
  simp [lexExp, takeDigits_append _ rest (natDigits_allDigits n) hr, natDigits_ne_nil,
    digitsVal_natDigits]

/-! ## Rounding to float64 -/

theorem bitLenAux_zero (f : Nat) : bitLenAux f 0 = 0 := by
  cases f <;> simp [bitLenAux]

theorem bitLenAux_spec : ∀ (f n : Nat), n ≤ f →
    n < 2 ^ bitLenAux f n ∧ (n ≠ 0 → 2 ^ bitLenAux f n ≤ 2 * n) := by
  intro f
  induction f with
  | zero =>
    intro n hn
    have : n = 0 := by omega
    subst this
    simp [bitLenAux]
  | succ f ih =>
    intro n hn
    unfold bitLenAux
    by_cases h0 : n = 0
    · subst h0; simp
    · simp only [h0, if_false]
      by_cases hs : n < 4294967296
      · simp only [hs, if_true]
        have hle : n / 2 ≤ f := by omega
        obtain ⟨h1, h2⟩ := ih (n / 2) hle
        refine ⟨?_, fun _ => ?_⟩
        · rw [pow_succ]; omega
        · by_cases hz : n / 2 = 0
          · rw [hz, bitLenAux_zero]; omega
          · have := h2 hz
            rw [pow_succ]; omega
      · simp only [hs, if_false]
        have hm : n / 4294967296 ≠ 0 := by omega
        have hle : n / 4294967296 ≤ f := by omega
        obtain ⟨h1, h2⟩ := ih (n / 4294967296) hle
        have h2' := h2 hm
        have e32 : (2 : Nat) ^ 32 = 4294967296 := by norm_num
        refine ⟨?_, fun _ => ?_⟩
        · rw [pow_add, e32]; omega
        · rw [pow_add, e32]; omega

theorem lt_two_pow_bitLen (n : Nat) : n < 2 ^ bitLen n :=
  (bitLenAux_spec n n (le_refl n)).1

theorem two_pow_bitLen_le (n : Nat) (h : n ≠ 0) : 2 ^ bitLen n ≤ 2 * n :=
  (bitLenAux_spec n n (le_refl n)).2 h

theorem bitLen_zero : bitLen 0 = 0 := bitLenAux_zero 0

/-- A bound on the bit length from a bound on the number. -/
theorem bitLen_le_of_lt {n e : Nat} (h : n < 2 ^ e) : bitLen n ≤ e := by
  by_cases h0 : n = 0
  · subst h0; rw [bitLen_zero]; omega
  · have h1 := two_pow_bitLen_le n h0
    by_contra hc
    have h2 : e + 1 ≤ bitLen n := by omega
    have h3 : 2 ^ (e + 1) ≤ 2 ^ bitLen n := Nat.pow_le_pow_right (by norm_num) h2
    rw [pow_succ] at h3
    omega

theorem roundHalfEven_ge (x d : Nat) : x / d ≤ roundHalfEven x d := by
  unfold roundHalfEven
  simp only
  split_ifs <;> omega

theorem roundHalfEven_le (x d : Nat) : roundHalfEven x d ≤ x / d + 1 := by
  unfold roundHalfEven
  simp only
  split_ifs <;> omega

theorem roundHalfEven_exact (c d : Nat) (hd : 0 < d) : roundHalfEven (c * d) d = c := by
  unfold roundHalfEven
  simp only
  rw [Nat.mul_mod_left, Nat.mul_div_cancel c hd]
  simp [hd]

theorem roundHalfEven_scale (x d c : Nat) (hc : 0 < c) :
    roundHalfEven (x * c) (d * c) = roundHalfEven x d := by
  unfold roundHalfEven
  simp only
  rw [Nat.mul_div_mul_right x d hc, Nat.mul_mod_mul_right]
  have e1 : (2 * (x % d * c) < d * c) ↔ (2 * (x % d) < d) := by
    rw [← mul_assoc]; exact Nat.mul_lt_mul_right hc
  have e2 : (d * c < 2 * (x % d * c)) ↔ (d < 2 * (x % d)) := by
    rw [← mul_assoc]; exact Nat.mul_lt_mul_right hc
  simp only [e1, e2]

theorem twoPow1074_eq : twoPow1074 = 2 ^ 1074 := by
  unfold twoPow1074; norm_num

theorem twoPow2098_eq : twoPow2098 = 2 ^ 2098 := by
  unfold twoPow2098; norm_num

theorem fivePow1074_eq : fivePow1074 = 5 ^ 1074 := by
  unfold fivePow1074; norm_num

theorem twoPow1074_pos : 0 < twoPow1074 := by
  rw [twoPow1074_eq]; exact Nat.two_pow_pos _

theorem roundMag_def (a b : Nat) :
    roundMag a b = roundHalfEven (a * twoPow1074) (b * 2 ^ (bitLen (a * twoPow1074 / b) - 53))
      * 2 ^ (bitLen (a * twoPow1074 / b) - 53) := by
  unfold roundMag
  simp only [Nat.mul_comm twoPow1074 a]

theorem roundMag_scale (a b c : Nat) (hc : 0 < c) : roundMag (a * c) (b * c) = roundMag a b := by
  rw [roundMag_def, roundMag_def]
  have e1 : a * c * twoPow1074 = a * twoPow1074 * c := by ring
  rw [e1, Nat.mul_div_mul_right _ _ hc]
  have e2 : b * c * 2 ^ (bitLen (a * twoPow1074 / b) - 53)
      = b * 2 ^ (bitLen (a * twoPow1074 / b) - 53) * c := by ring
  rw [e2, roundHalfEven_scale _ _ _ hc]

/-- The mantissa the rounding produces has at most 53 bits, or is `2^53`. -/
theorem roundMag_mantissa_le (a b : Nat) :
    roundHalfEven (a * twoPow1074) (b * 2 ^ (bitLen (a * twoPow1074 / b) - 53)) ≤ 2 ^ 53 := by
  generalize a * twoPow1074 = x
  generalize hs : bitLen (x / b) - 53 = s
  have h1 := roundHalfEven_le x (b * 2 ^ s)
  have h2 : x / (b * 2 ^ s) = x / b / 2 ^ s := by rw [Nat.div_div_eq_div_mul]
  have h3 : x / b < 2 ^ bitLen (x / b) := lt_two_pow_bitLen _
  have h4 : x / b / 2 ^ s < 2 ^ 53 := by
    rw [Nat.div_lt_iff_lt_mul (Nat.two_pow_pos _)]
    rw [← pow_add]
    refine lt_of_lt_of_le h3 (Nat.pow_le_pow_right (by norm_num) ?_)
    omega
  omega

theorem validMag_iff (n : Nat) : validMag n = true ↔ ValidMag n := by
  unfold validMag ValidMag
  simp

theorem roundMag_of_mul_pow (c s : Nat) (hs : bitLen (c * 2 ^ s) - 53 ≤ s) :
    roundMag (c * 2 ^ s) twoPow1074 = c * 2 ^ s := by
  rw [roundMag_def]
  rw [Nat.mul_div_cancel _ twoPow1074_pos]
  generalize ht : bitLen (c * 2 ^ s) - 53 = t at hs
  obtain ⟨u, hu⟩ : ∃ u, s = t + u := ⟨s - t, by omega⟩
  have e1 : c * 2 ^ s * twoPow1074 = (c * 2 ^ u) * (twoPow1074 * 2 ^ t) := by
    rw [hu, pow_add]; ring
  rw [e1, roundHalfEven_exact _ _ (Nat.mul_pos twoPow1074_pos (Nat.two_pow_pos _))]
  rw [hu, pow_add]; ring

theorem roundMag_idem (a b : Nat) : roundMag (roundMag a b) twoPow1074 = roundMag a b := by
  rw [roundMag_def a b]
  have hle := roundMag_mantissa_le a b
  generalize bitLen (a * twoPow1074 / b) - 53 = s at hle ⊢
  generalize roundHalfEven (a * twoPow1074) (b * 2 ^ s) = m at hle ⊢
  rcases Nat.lt_or_ge m (2 ^ 53) with hlt | hge
  · apply roundMag_of_mul_pow
    have h1 : m * 2 ^ s < 2 ^ (53 + s) := by
      rw [pow_add]; exact Nat.mul_lt_mul_of_pos_right hlt (Nat.two_pow_pos _)
    have := bitLen_le_of_lt h1
    omega
  · have hm53 : m = 2 ^ 53 := le_antisymm hle hge
    rw [hm53]
    have e : (2 : Nat) ^ 53 * 2 ^ s = 2 ^ 52 * 2 ^ (s + 1) := by
      rw [pow_succ]; ring
    rw [e]
    apply roundMag_of_mul_pow
    have h1 : 2 ^ 52 * 2 ^ (s + 1) < 2 ^ (53 + (s + 1)) := by
      have e2 : (2 : Nat) ^ (53 + (s + 1)) = 2 ^ 53 * 2 ^ (s + 1) := pow_add 2 53 (s + 1)
      rw [e2]
      exact Nat.mul_lt_mul_of_pos_right (show (2 : Nat) ^ 52 < 2 ^ 53 by norm_num)
        (Nat.two_pow_pos _)
    have := bitLen_le_of_lt h1
    omega

theorem parseMag_eq (d : Nat) (k : Int) (n : Nat) (h : parseMag d k = some n) :
    n = roundMag (decFrac d k).1 (decFrac d k).2 ∧ n < twoPow2098 := by
  unfold parseMag at h
  simp only at h
  split_ifs at h with hlt
  exact ⟨(Option.some.inj h).symm, by rw [← Option.some.inj h]; exact hlt⟩

theorem parseMag_valid (d : Nat) (k : Int) (n : Nat) (h : parseMag d k = some n) : ValidMag n := by
  obtain ⟨h1, h2⟩ := parseMag_eq d k n h
  exact ⟨by rw [h1, roundMag_idem], h2⟩

theorem parseMag_zero_zero : parseMag 0 0 = some 0 := by with_unfolding_all decide

theorem validMag_zero : ValidMag 0 := parseMag_valid 0 0 0 parseMag_zero_zero

/-! ## The shortest decimal of a float64 -/

theorem pickCandidate_ok (okdown okup : Bool) (r u lo : Nat) (down up res : Nat × Int)
    (h : pickCandidate okdown okup r u lo down up = some res) :
    (res = down ∧ okdown = true) ∨ (res = up ∧ okup = true) := by
  unfold pickCandidate at h
  cases okdown <;> cases okup <;> simp at h
  · exact Or.inr ⟨h.symm, rfl⟩
  · exact Or.inl ⟨h.symm, rfl⟩
  · split_ifs at h
    · exact Or.inl ⟨(Option.some.inj h).symm, rfl⟩
    · exact Or.inr ⟨(Option.some.inj h).symm, rfl⟩
    · exact Or.inl ⟨(Option.some.inj h).symm, rfl⟩
    · exact Or.inr ⟨(Option.some.inj h).symm, rfl⟩

theorem shortestAt_ok (N E len n : Nat) (r : Nat × Int) (h : shortestAt N E len n = some r) :
    parseMag r.1 r.2 = some N := by
  unfold shortestAt at h
  rcases pickCandidate_ok _ _ _ _ _ _ _ _ h with ⟨h1, h2⟩ | ⟨h1, h2⟩
  · rw [h1]; simpa [roundsTo] using h2
  · rw [h1]; simpa [roundsTo] using h2

theorem shortestSearch_ok (N E len : Nat) (ns : List Nat) (r : Nat × Int)
    (h : shortestSearch N E len ns = some r) : parseMag r.1 r.2 = some N := by
  induction ns with
  | nil => rw [shortestSearch] at h; exact absurd h (by simp)
  | cons n ns ih =>
    rw [shortestSearch] at h
    cases hsa : shortestAt N E len n with
    | none =>
      rw [hsa] at h
      exact ih h
    | some r' =>
      rw [hsa] at h
      rw [← Option.some.inj h]
      exact shortestAt_ok N E len n r' hsa

theorem parseMag_exact (N : Nat) (hv : ValidMag N) :
    parseMag (fivePow1074 * N) (-1074) = some N := by
  have e : (10 : Nat) ^ 1074 = twoPow1074 * fivePow1074 := by
    rw [twoPow1074_eq, fivePow1074_eq, ← Nat.mul_pow]
  have h1 : decFrac (fivePow1074 * N) (-1074) = (N * fivePow1074, twoPow1074 * fivePow1074) := by
    unfold decFrac
    rw [if_neg (by omega), ← e, Nat.mul_comm]
    rfl
  have h2 : roundMag (N * fivePow1074) (twoPow1074 * fivePow1074) = N := by
    rw [roundMag_scale _ _ _ (by rw [fivePow1074_eq]; exact Nat.pow_pos (by norm_num)), hv.1]
  unfold parseMag
  rw [h1]
  simp only [h2]
  rw [if_pos hv.2]

theorem shortest_eq (N : Nat) : shortest N
    = (shortestSearch N (fivePow1074 * N) (decLen (fivePow1074 * N)) digitCounts).getD
        (fivePow1074 * N, -1074) := by
  unfold shortest; rfl

/-- The digits the encoder writes for a float64 read back as that float64. -/
theorem shortest_ok (N : Nat) (hv : ValidMag N) :
    parseMag (shortest N).1 (shortest N).2 = some N := by
  rw [shortest_eq]
  generalize ho : shortestSearch N (fivePow1074 * N) (decLen (fivePow1074 * N)) digitCounts = o
  cases o with
  | none => exact parseMag_exact N hv
  | some r => exact shortestSearch_ok _ _ _ _ r ho

theorem lexUnsigned_parts (neg : Bool) (text ip fp r1 r2 r3 : List Char) (e : Int)
    (h1 : lexInt text = some (ip, r1)) (h2 : lexFrac r1 = some (fp, r2))
    (h3 : lexExp r2 = some (e, r3)) :
    lexUnsigned neg text = some (⟨neg, digitsVal (ip ++ fp), e - fp.length⟩, r3) := by
  unfold lexUnsigned
  rw [h1]; simp only
  rw [h2]; simp only
  rw [h3]

theorem noDigit_cons (c : Char) (r : List Char) (h : isDigit c = false) : NoDigit (c :: r) := by
  intro c' r' e
  rw [(List.cons.inj e).1] at h
  exact h

theorem roundMag_zero (b : Nat) (hb : 0 < b) : roundMag 0 b = 0 := by
  rw [roundMag_def]
  simp only [Nat.zero_mul, Nat.zero_div, bitLen_zero, Nat.zero_sub, pow_zero, mul_one]
  unfold roundHalfEven
  simp [hb]

theorem decFrac_snd_pos (d : Nat) (k : Int) : 0 < (decFrac d k).2 := by
  unfold decFrac
  split_ifs
  · exact Nat.one_pos
  · exact Nat.pow_pos (by norm_num)

theorem parseMag_zero (k : Int) : parseMag 0 k = some 0 := by
  have h1 : (decFrac 0 k).1 = 0 := by
    unfold decFrac; split_ifs <;> simp
  unfold parseMag
  simp only [h1, roundMag_zero _ (decFrac_snd_pos 0 k)]
  rw [if_pos]
  unfold twoPow2098; norm_num

theorem parseMag_shift (d : Nat) (k : Int) (hk : 0 ≤ k) :
    parseMag (d * 10 ^ k.toNat) 0 = parseMag d k := by
  have : decFrac (d * 10 ^ k.toNat) 0 = decFrac d k := by
    unfold decFrac
    simp [hk]
  unfold parseMag
  rw [this]

/-- The text of a non-zero float64 magnitude, laid out from the digits `d` and the decimal
exponent `k`. -/
theorem formatMag_eq (N : Nat) (h0 : N ≠ 0) :
    formatMag N =
      if N < lowCut ∨ highCut ≤ N then
        (natDigits (shortest N).1).take 1
          ++ (if 1 < (natDigits (shortest N).1).length then
                '.' :: (natDigits (shortest N).1).drop 1 else [])
          ++ 'e' :: (if ((natDigits (shortest N).1).length : Int) + (shortest N).2 - 1 < 0
                then '-' else '+')
            :: natDigits (((natDigits (shortest N).1).length : Int) + (shortest N).2 - 1).natAbs
      else if ((natDigits (shortest N).1).length : Int) + (shortest N).2 ≤ 0 then
        '0' :: '.' :: (List.replicate
          (-(((natDigits (shortest N).1).length : Int) + (shortest N).2)).toNat '0'
            ++ natDigits (shortest N).1)
      else if ((natDigits (shortest N).1).length : Int) + (shortest N).2
          < ((natDigits (shortest N).1).length : Int) then
        (natDigits (shortest N).1).take
            (((natDigits (shortest N).1).length : Int) + (shortest N).2).toNat
          ++ '.' :: (natDigits (shortest N).1).drop
            (((natDigits (shortest N).1).length : Int) + (shortest N).2).toNat
      else natDigits (shortest N).1 ++ List.replicate
        (((natDigits (shortest N).1).length : Int) + (shortest N).2
          - ((natDigits (shortest N).1).length : Int)).toNat '0' := by
  unfold formatMag
  rw [if_neg h0]

/-- The layouts of a decimal `d × 10^k` with `d > 0` all lex back to a literal of that value. -/
theorem lex_layout (d : Nat) (k : Int) (hd : d ≠ 0) (c1 : Prop) [Decidable c1] :
    ∃ a e, parseMag a e = parseMag d k ∧ ∀ neg rest, NumEnd rest →
      lexUnsigned neg
        ((if c1 then
          (natDigits d).take 1
            ++ (if 1 < (natDigits d).length then '.' :: (natDigits d).drop 1 else [])
            ++ 'e' :: (if ((natDigits d).length : Int) + k - 1 < 0 then '-' else '+')
              :: natDigits (((natDigits d).length : Int) + k - 1).natAbs
        else if ((natDigits d).length : Int) + k ≤ 0 then
          '0' :: '.' :: (List.replicate (-(((natDigits d).length : Int) + k)).toNat '0'
              ++ natDigits d)
        else if ((natDigits d).length : Int) + k < ((natDigits d).length : Int) then
          (natDigits d).take (((natDigits d).length : Int) + k).toNat
            ++ '.' :: (natDigits d).drop (((natDigits d).length : Int) + k).toNat
        else natDigits d ++ List.replicate
          (((natDigits d).length : Int) + k - ((natDigits d).length : Int)).toNat '0') ++ rest)
        = some (⟨neg, a, e⟩, rest) := by
  generalize hnd : (natDigits d).length = nd
  obtain ⟨c, tl, e, hc, hz, htl⟩ := natDigits_shape d
  have hz := hz hd
  have hval := digitsVal_natDigits d
  have hall := natDigits_allDigits d
  rw [e] at hval hall hnd
  rw [e]
  have hnd' : nd = tl.length + 1 := by rw [← hnd]; rfl
  have ht1 : (c :: tl).take 1 = [c] := rfl
  have hd1 : (c :: tl).drop 1 = tl := rfl
  have hdot : isDigit '.' = false := by decide
  have he : isDigit 'e' = false := by decide
  by_cases h1 : c1
  · -- exponent layout
    refine ⟨d, k, rfl, ?_⟩
    intro neg rest hr
    rw [if_pos h1, ht1, hd1]
    generalize hE : ((nd : Int) + k - 1) = ex
    have hexp : ∀ r, NoDigit r → lexExp ('e' :: (if ex < 0 then '-' else '+')
        :: (natDigits ex.natAbs ++ r)) = some (ex, r) := by
      intro r hnr
      by_cases hneg : ex < 0
      · simp only [hneg, if_true]
        rw [lexExp_minus _ _ hnr]
        congr 2; omega
      · simp only [hneg, if_false]
        rw [lexExp_plus _ _ hnr]
        congr 2; omega
    by_cases htl0 : tl = []
    · subst htl0
      have hnd1 : nd = 1 := hnd'
      rw [if_neg (by omega)]
      have hi := lexInt_digits c [] ('e' :: (if ex < 0 then '-' else '+')
        :: (natDigits ex.natAbs ++ rest)) hc hz (by simp) (noDigit_cons _ _ he)
      have hf := lexFrac_e ((if ex < 0 then '-' else '+') :: (natDigits ex.natAbs ++ rest))
      have := lexUnsigned_parts neg _ _ _ _ _ _ _ hi hf (hexp rest hr.noDigit)
      simp only [List.nil_append, List.cons_append, List.append_nil, List.append_assoc] at this ⊢
      rw [this, hval]
      congr 3
      simp only [List.length_nil]
      omega
    · have hlen : 1 < nd := by
        have : tl.length ≠ 0 := fun h => htl0 (List.length_eq_zero.mp h)
        omega
      rw [if_pos hlen]
      have hi := lexInt_digits c [] ('.' :: (tl ++ 'e' :: (if ex < 0 then '-' else '+')
        :: (natDigits ex.natAbs ++ rest))) hc hz (by simp) (noDigit_cons _ _ hdot)
      have hf := lexFrac_dot tl ('e' :: (if ex < 0 then '-' else '+')
        :: (natDigits ex.natAbs ++ rest)) htl htl0 (noDigit_cons _ _ he)
      have := lexUnsigned_parts neg _ _ _ _ _ _ _ hi hf (hexp rest hr.noDigit)
      simp only [List.nil_append, List.cons_append, List.append_nil, List.append_assoc] at this ⊢
      rw [this, hval]
      congr 3
      omega
  · rw [if_neg h1]
    by_cases h2 : (nd : Int) + k ≤ 0
    · -- leading zeros
      refine ⟨d, k, rfl, ?_⟩
      intro neg rest hr
      rw [if_pos h2]
      generalize hzn : (-((nd : Int) + k)).toNat = z
      have hi := lexInt_zero ('.' :: (List.replicate z '0' ++ c :: tl ++ rest))
      have hf := lexFrac_dot (List.replicate z '0' ++ c :: tl) rest
        (by
          intro x hx
          rcases List.mem_append.mp hx with hx | hx
          · rw [(List.mem_replicate.mp hx).2]; decide
          · exact hall x hx)
        (by simp) hr.noDigit
      have := lexUnsigned_parts neg _ _ _ _ _ _ _ hi hf (lexExp_end rest hr)
      simp only [List.nil_append, List.cons_append, List.append_nil, List.append_assoc] at this ⊢
      rw [this]
      have hv2 : digitsVal ('0' :: (List.replicate z '0' ++ c :: tl)) = d := by
        have : '0' :: (List.replicate z '0' ++ c :: tl)
            = List.replicate (z + 1) '0' ++ c :: tl := rfl
        rw [this, digitsVal_append, digitsVal_zeros, hval]
        simp
      rw [hv2]
      congr 3
      simp only [List.length_append, List.length_replicate, List.length_cons]
      push_cast
      omega
    · rw [if_neg h2]
      by_cases h3 : (nd : Int) + k < (nd : Int)
      · -- decimal point inside the digits
        refine ⟨d, k, rfl, ?_⟩
        intro neg rest hr
        rw [if_pos h3]
        generalize hpn : ((nd : Int) + k).toNat = p
        have hp1 : 0 < p := by omega
        have hp2 : p < tl.length + 1 := by omega
        obtain ⟨p', hp'⟩ : ∃ p', p = p' + 1 := ⟨p - 1, by omega⟩
        subst hp'
        have ht2 : (c :: tl).take (p' + 1) = c :: tl.take p' := rfl
        have hd2 : (c :: tl).drop (p' + 1) = tl.drop p' := rfl
        rw [ht2, hd2]
        have hi := lexInt_digits c (tl.take p') ('.' :: (tl.drop p' ++ rest)) hc hz
          (fun x hx => htl x (List.mem_of_mem_take hx)) (noDigit_cons _ _ hdot)
        have hf := lexFrac_dot (tl.drop p') rest
          (fun x hx => htl x (List.mem_of_mem_drop hx))
          (by
            intro hnil
            have := congrArg List.length hnil
            simp at this
            omega)
          hr.noDigit
        have := lexUnsigned_parts neg _ _ _ _ _ _ _ hi hf (lexExp_end rest hr)
        simp only [List.nil_append, List.cons_append, List.append_nil, List.append_assoc] at this ⊢
        rw [this]
        have hv2 : digitsVal (c :: (List.take p' tl ++ List.drop p' tl)) = d := by
          rw [List.take_append_drop]; exact hval
        rw [hv2]
        congr 3
        simp only [List.length_drop]
        omega
      · -- trailing zeros
        have hk : 0 ≤ k := by omega
        refine ⟨d * 10 ^ k.toNat, 0, parseMag_shift d k hk, ?_⟩
        intro neg rest hr
        rw [if_neg h3]
        have hj : ((nd : Int) + k - (nd : Int)).toNat = k.toNat := by congr 1; omega
        rw [hj]
        have hi := lexInt_digits c (tl ++ List.replicate k.toNat '0') rest hc hz
          (by
            intro x hx
            rcases List.mem_append.mp hx with hx | hx
            · exact htl x hx
            · rw [(List.mem_replicate.mp hx).2]; decide)
          hr.noDigit
        have := lexUnsigned_parts neg _ _ _ _ _ _ _ hi (lexFrac_end rest hr) (lexExp_end rest hr)
        simp only [List.nil_append, List.cons_append, List.append_nil, List.append_assoc] at this ⊢
        rw [this]
        have hv2 : digitsVal (c :: (tl ++ List.replicate k.toNat '0')) = d * 10 ^ k.toNat := by
          rw [← List.cons_append, digitsVal_append, digitsVal_zeros, hval]
          simp
        rw [hv2]
        rfl

theorem shortest_ne_zero (N : Nat) (hv : ValidMag N) (h0 : N ≠ 0) : (shortest N).1 ≠ 0 := by
  intro hz
  have h := shortest_ok N hv
  rw [hz, parseMag_zero] at h
  exact h0 (Option.some.inj h).symm

/-- The text of a float64 magnitude lexes back to a literal that converts to it. -/
theorem formatMag_lex (N : Nat) (hv : ValidMag N) :
    ∃ a e, parseMag a e = some N ∧ ∀ neg rest, NumEnd rest →
      lexUnsigned neg (formatMag N ++ rest) = some (⟨neg, a, e⟩, rest) := by
  by_cases h0 : N = 0
  · subst h0
    refine ⟨0, 0, parseMag_zero_zero, ?_⟩
    intro neg rest hr
    have hf : formatMag 0 = ['0'] := rfl
    rw [hf]
    have := lexUnsigned_parts neg _ _ _ _ _ _ _ (lexInt_zero rest) (lexFrac_end rest hr)
      (lexExp_end rest hr)
    simpa [digitsVal] using this
  · obtain ⟨a, e, h1, h2⟩ := lex_layout (shortest N).1 (shortest N).2
      (shortest_ne_zero N hv h0) (N < lowCut ∨ highCut ≤ N)
    refine ⟨a, e, by rw [h1]; exact shortest_ok N hv, ?_⟩
    intro neg rest hr
    rw [formatMag_eq N h0]
    exact h2 neg rest hr

theorem lexUnsigned_head (neg : Bool) (text : List Char) (r : NumLit × List Char)
    (h : lexUnsigned neg text = some r) : ∃ c tl, text = c :: tl ∧ isDigit c = true := by
  cases text with
  | nil => simp [lexUnsigned, lexInt] at h
  | cons c tl =>
    refine ⟨c, tl, rfl, ?_⟩
    by_cases hc0 : c.toNat = 48
    · rw [isDigit_iff]; omega
    · by_cases hd : isDigit c = true
      · exact hd
      · simp [lexUnsigned, lexInt, hc0, hd] at h

theorem formatMag_head (N : Nat) (hv : ValidMag N) :
    ∃ c tl, formatMag N = c :: tl ∧ isDigit c = true := by
  obtain ⟨a, e, _, h2⟩ := formatMag_lex N hv
  have := h2 false [] (by intro c r h; cases h)
  rw [List.append_nil] at this
  exact lexUnsigned_head false _ _ this

theorem isDigit_ne_minus (c : Char) (h : isDigit c = true) : c.toNat ≠ 45 := by
  rw [isDigit_iff] at h; omega

theorem lexNumber_digit (c : Char) (tl : List Char) (h : isDigit c = true) :
    lexNumber (c :: tl) = lexUnsigned false (c :: tl) := by
  simp [lexNumber, isDigit_ne_minus c h]

theorem lexNumber_minus (tl : List Char) : lexNumber ('-' :: tl) = lexUnsigned true tl := by
  simp [lexNumber]

theorem numEnd_nil : NumEnd [] := by intro c r h; cases h

/-- The text of a float64 lexes back to one literal, whatever follows the number. -/
theorem formatF64_lex (f : F64) (hv : ValidMag f.mag) :
    ∃ lit, decodeNum lit = .ok f ∧ ∀ rest, NumEnd rest →
      lexNumber (formatF64 f ++ rest) = some (lit, rest) := by
  obtain ⟨a, e, h1, h2⟩ := formatMag_lex f.mag hv
  obtain ⟨c, tl, hc, hdig⟩ := formatMag_head f.mag hv
  refine ⟨⟨f.neg, a, e⟩, ?_, ?_⟩
  · unfold decodeNum
    simp only [h1]
  · intro rest hr
    unfold formatF64
    cases hn : f.neg with
    | true =>
      simp only [if_true, List.cons_append]
      rw [lexNumber_minus]
      exact h2 true rest hr
    | false =>
      simp only [Bool.false_eq_true, if_false]
      have := h2 false rest hr
      rw [hc] at this ⊢
      rw [List.cons_append, lexNumber_digit c _ hdig]
      exact this

theorem lexNumber_formatF64 (f : F64) (hv : ValidMag f.mag) (rest : List Char) (hr : NumEnd rest) :
    lexNumber (formatF64 f ++ rest) = some (litOf f, rest) := by
  obtain ⟨lit, _, h2⟩ := formatF64_lex f hv
  have h0 := h2 [] numEnd_nil
  rw [List.append_nil] at h0
  have : litOf f = lit := by unfold litOf; rw [h0]
  rw [this]
  exact h2 rest hr

theorem decodeNum_litOf (f : F64) (hv : ValidMag f.mag) : decodeNum (litOf f) = .ok f := by
  obtain ⟨lit, h1, h2⟩ := formatF64_lex f hv
  have h0 := h2 [] numEnd_nil
  rw [List.append_nil] at h0
  have : litOf f = lit := by unfold litOf; rw [h0]
  rw [this]
  exact h1

theorem lexNumber_marshalInt (n : Int) (rest : List Char) (hr : NumEnd rest) :
    lexNumber (marshalInt n ++ rest) = some (⟨decide (n < 0), n.natAbs, 0⟩, rest) := by
  have hp := lexUnsigned_parts (decide (n < 0)) _ _ _ _ _ _ _
    (lexInt_natDigits n.natAbs rest hr.noDigit) (lexFrac_end rest hr) (lexExp_end rest hr)
  rw [List.append_nil, digitsVal_natDigits] at hp
  simp only [List.length_nil, Nat.cast_zero, sub_zero] at hp
  unfold marshalInt
  by_cases hn : n < 0
  · simp only [hn, if_true, List.cons_append, decide_True] at hp ⊢
    rw [lexNumber_minus]
    exact hp
  · simp only [hn, if_false, decide_False] at hp ⊢
    obtain ⟨c, tl, e, hc, _, _⟩ := natDigits_shape n.natAbs
    rw [e] at hp ⊢
    rw [List.cons_append, lexNumber_digit c _ hc]
    exact hp

theorem marshalInt_head (n : Int) :
    ∃ c tl, marshalInt n = c :: tl ∧ (isDigit c = true ∨ c.toNat = 45) := by
  unfold marshalInt
  by_cases hn : n < 0
  · simp only [hn, if_true]
    exact ⟨'-', _, rfl, Or.inr rfl⟩
  · simp only [hn, if_false]
    obtain ⟨c, tl, e, hc, _, _⟩ := natDigits_shape n.natAbs
    exact ⟨c, tl, e, Or.inl hc⟩

theorem formatF64_head (f : F64) (hv : ValidMag f.mag) :
    ∃ c tl, formatF64 f = c :: tl ∧ (isDigit c = true ∨ c.toNat = 45) := by
  unfold formatF64
  cases f.neg with
  | true => exact ⟨'-', _, rfl, Or.inr rfl⟩
  | false =>
    obtain ⟨c, tl, e, hc⟩ := formatMag_head f.mag hv
    exact ⟨c, tl, by simpa using e, Or.inl hc⟩

/-! ## String literals -/

theorem hexVal_hexDigit (n : Nat) (h : n < 16) : hexVal (hexDigit n) = some n := by
  interval_cases n <;> rfl

theorem lexString_raw (f : Nat) (c : Char) (rest acc : List Char) (h1 : c.toNat ≠ 34)
    (h2 : c.toNat ≠ 92) (h3 : ¬ c.toNat < 32) :
    lexString (f + 1) (c :: rest) acc = lexString f rest (c :: acc) := by
  rw [lexString]
  simp only [h1, h2, h3, if_false]

theorem lexString_esc (f : Nat) (x : Char) (tl rest acc : List Char)
    (h : lexEscape (tl ++ rest) = some (x, rest)) :
    lexString (f + 1) ('\\' :: tl ++ rest) acc = lexString f rest (x :: acc) := by
  rw [List.cons_append, lexString]
  have h1 : ('\\' : Char).toNat ≠ 34 := by decide
  have h2 : ('\\' : Char).toNat = 92 := by decide
  rw [if_neg h1, if_pos h2, h]

theorem lexEscape_u (h1 h2 h3 h4 : Char) (u : Nat) (rest : List Char)
    (h : hex4 h1 h2 h3 h4 = some u) (hu : u < 0xD800) :
    lexEscape (['u', h1, h2, h3, h4] ++ rest) = some (Char.ofNat u, rest) := by
  have hns : ¬ (0xD800 ≤ u ∧ u < 0xE000) := by omega
  have e : ('u' : Char).toNat = 117 := by decide
  show lexEscape ('u' :: h1 :: h2 :: h3 :: h4 :: rest) = some (Char.ofNat u, rest)
  rw [lexEscape]
  simp only [e, getHex4, h]
  rw [if_pos trivial, if_neg hns]
  simp

theorem lexEscape_simple (e : Char) (n : Nat) (rest : List Char)
    (h : (e.toNat = 34 ∧ n = 34) ∨ (e.toNat = 92 ∧ n = 92) ∨ (e.toNat = 98 ∧ n = 8)
      ∨ (e.toNat = 102 ∧ n = 12) ∨ (e.toNat = 110 ∧ n = 10) ∨ (e.toNat = 114 ∧ n = 13)
      ∨ (e.toNat = 116 ∧ n = 9)) :
    lexEscape ([e] ++ rest) = some (Char.ofNat n, rest) := by
  show lexEscape (e :: rest) = some (Char.ofNat n, rest)
  rw [lexEscape]
  rcases h with ⟨h1, h2⟩ | ⟨h1, h2⟩ | ⟨h1, h2⟩ | ⟨h1, h2⟩ | ⟨h1, h2⟩ | ⟨h1, h2⟩ | ⟨h1, h2⟩ <;>
    subst h2 <;> simp only [h1] <;> rfl

theorem char_eq_of_toNat (c : Char) (n : Nat) (h : c.toNat = n) : Char.ofNat n = c := by
  rw [← h, Char.ofNat_toNat]

theorem lexString_quoteChar (f : Nat) (c : Char) (rest acc : List Char) :
    lexString (f + 1) (quoteChar c ++ rest) acc = lexString f rest (c :: acc) := by
  unfold quoteChar
  by_cases h1 : c.toNat = 34
  · rw [if_pos h1]
    have : lexEscape (['"'] ++ rest) = some (c, rest) := by
      rw [← char_eq_of_toNat c 34 h1]
      exact lexEscape_simple '"' 34 rest
        (Or.inl ⟨rfl, rfl⟩)
    exact lexString_esc f c _ rest acc this
  rw [if_neg h1]
  by_cases h2 : c.toNat = 92
  · rw [if_pos h2]
    have : lexEscape (['\\'] ++ rest) = some (c, rest) := by
      rw [← char_eq_of_toNat c 92 h2]
      exact lexEscape_simple '\\' 92 rest
        (Or.inr (Or.inl ⟨rfl, rfl⟩))
    exact lexString_esc f c _ rest acc this
  rw [if_neg h2]
  by_cases h3 : c.toNat = 8
  · rw [if_pos h3]
    have : lexEscape (['b'] ++ rest) = some (c, rest) := by
      rw [← char_eq_of_toNat c 8 h3]
      exact lexEscape_simple 'b' 8 rest
        (Or.inr (Or.inr (Or.inl ⟨rfl, rfl⟩)))
    exact lexString_esc f c _ rest acc this
  rw [if_neg h3]
  by_cases h4 : c.toNat = 12
  · rw [if_pos h4]
    have : lexEscape (['f'] ++ rest) = some (c, rest) := by
      rw [← char_eq_of_toNat c 12 h4]
      exact lexEscape_simple 'f' 12 rest
        (Or.inr (Or.inr (Or.inr (Or.inl ⟨rfl, rfl⟩))))
    exact lexString_esc f c _ rest acc this
  rw [if_neg h4]
  by_cases h5 : c.toNat = 10
  · rw [if_pos h5]
    have : lexEscape (['n'] ++ rest) = some (c, rest) := by
      rw [← char_eq_of_toNat c 10 h5]
      exact lexEscape_simple 'n' 10 rest
        (Or.inr (Or.inr (Or.inr (Or.inr (Or.inl ⟨rfl, rfl⟩)))))
    exact lexString_esc f c _ rest acc this
  rw [if_neg h5]
  by_cases h6 : c.toNat = 13
  · rw [if_pos h6]
    have : lexEscape (['r'] ++ rest) = some (c, rest) := by
      rw [← char_eq_of_toNat c 13 h6]
      exact lexEscape_simple 'r' 13 rest
        (Or.inr (Or.inr (Or.inr (Or.inr (Or.inr (Or.inl ⟨rfl, rfl⟩))))))
    exact lexString_esc f c _ rest acc this
  rw [if_neg h6]
  by_cases h7 : c.toNat = 9
  · rw [if_pos h7]
    have : lexEscape (['t'] ++ rest) = some (c, rest) := by
      rw [← char_eq_of_toNat c 9 h7]
      exact lexEscape_simple 't' 9 rest
        (Or.inr (Or.inr (Or.inr (Or.inr (Or.inr (Or.inr ⟨rfl, rfl⟩))))))
    exact lexString_esc f c _ rest acc this
  rw [if_neg h7]
  by_cases h8 : c.toNat < 32 ∨ c.toNat = 60 ∨ c.toNat = 62 ∨ c.toNat = 38
  · rw [if_pos h8]
    have hlt : c.toNat < 64 := by omega
    have hx : hex4 '0' '0' (hexDigit (c.toNat / 16)) (hexDigit (c.toNat % 16)) = some c.toNat := by
      unfold hex4
      rw [hexVal_hexDigit _ (by omega), hexVal_hexDigit _ (by omega)]
      have : hexVal '0' = some 0 := rfl
      simp only [this]
      congr 1
      omega
    have := lexEscape_u _ _ _ _ _ rest hx (by omega)
    rw [Char.ofNat_toNat] at this
    exact lexString_esc f c _ rest acc this
  rw [if_neg h8]
  by_cases h9 : c.toNat = 0x2028
  · rw [if_pos h9]
    have hx : hex4 '2' '0' '2' '8' = some 0x2028 := rfl
    have := lexEscape_u _ _ _ _ _ rest hx (by norm_num)
    rw [char_eq_of_toNat c 0x2028 h9] at this
    exact lexString_esc f c _ rest acc this
  rw [if_neg h9]
  by_cases h10 : c.toNat = 0x2029
  · rw [if_pos h10]
    have hx : hex4 '2' '0' '2' '9' = some 0x2029 := rfl
    have := lexEscape_u _ _ _ _ _ rest hx (by norm_num)
    rw [char_eq_of_toNat c 0x2029 h10] at this
    exact lexString_esc f c _ rest acc this
  rw [if_neg h10]
  exact lexString_raw f c rest acc h1 h2 (fun h => h8 (Or.inl h))

theorem lexString_quoteBody : ∀ (s : List Char) (f : Nat) (rest acc : List Char),
    s.length + 1 ≤ f →
    lexString f (quoteBody s ++ '"' :: rest) acc = some (acc.reverse ++ s, rest) := by
  intro s
  induction s with
  | nil =>
    intro f rest acc hf
    obtain ⟨f', rfl⟩ : ∃ f', f = f' + 1 := ⟨f - 1, by simp at hf; omega⟩
    have h1 : ('"' : Char).toNat = 34 := by decide
    simp only [quoteBody, List.nil_append, lexString, h1, if_true, List.append_nil]
  | cons c s ih =>
    intro f rest acc hf
    obtain ⟨f', rfl⟩ : ∃ f', f = f' + 1 := ⟨f - 1, by simp at hf; omega⟩
    rw [quoteBody, List.append_assoc, lexString_quoteChar]
    rw [ih f' rest (c :: acc) (by simp at hf ⊢; omega)]
    simp

theorem ite_length_pos {p : Prop} [Decidable p] (a b : List Char) (ha : 1 ≤ a.length)
    (hb : 1 ≤ b.length) : 1 ≤ (if p then a else b).length := by
  by_cases h : p
  · rw [if_pos h]; exact ha
  · rw [if_neg h]; exact hb

theorem quoteChar_length (c : Char) : 1 ≤ (quoteChar c).length := by
  unfold quoteChar
  repeat' apply ite_length_pos
  all_goals simp

theorem quoteBody_length (s : List Char) : s.length ≤ (quoteBody s).length := by
  induction s with
  | nil => simp [quoteBody]
  | cons c s ih =>
    rw [quoteBody, List.length_append, List.length_cons]
    have := quoteChar_length c
    omega

/-- A quoted string lexes back to the string. -/
theorem lexString_quote (s rest : List Char) :
    lexString ((quoteBody s ++ '"' :: rest).length + 1) (quoteBody s ++ '"' :: rest) []
      = some (s, rest) := by
  have := lexString_quoteBody s ((quoteBody s ++ '"' :: rest).length + 1) rest [] (by
    have := quoteBody_length s
    simp only [List.length_append, List.length_cons]
    omega)
  simpa using this

/-! ## The scanner on the encoder's text -/

theorem skipWs_cons (c : Char) (cs : List Char) (h : isSpace c = false) :
    skipWs (c :: cs) = c :: cs := by
  rw [skipWs, h]; rfl

theorem isSpace_false_of (c : Char) (h1 : c.toNat ≠ 32) (h2 : c.toNat ≠ 9) (h3 : c.toNat ≠ 13)
    (h4 : c.toNat ≠ 10) : isSpace c = false := by
  unfold isSpace
  simp [h1, h2, h3, h4]

theorem Visible.isSpace {c : Char} (h : Visible c) : isSpace c = false :=
  isSpace_false_of c h.1 h.2.1 h.2.2.1 h.2.2.2

theorem parseValue_number (f d : Nat) (c : Char) (tl : List Char) (n : NumLit) (r : List Char)
    (hc : isDigit c = true ∨ c.toNat = 45) (h : lexNumber (c :: tl) = some (n, r)) :
    parseValue (f + 1) d (c :: tl) = .ok (.num n, r) := by
  have hb : 48 ≤ c.toNat ∧ c.toNat ≤ 57 ∨ c.toNat = 45 := by
    rcases hc with hc | hc
    · exact Or.inl ((isDigit_iff c).mp hc)
    · exact Or.inr hc
  have hv : isSpace c = false := isSpace_false_of c (by omega) (by omega) (by omega) (by omega)
  rw [parseValue, skipWs_cons c tl hv]
  simp only
  rw [if_neg (by omega), if_neg (by omega), if_neg (by omega), if_neg (by omega),
    if_neg (by omega), if_neg (by omega), h]

theorem parseValue_string (f d : Nat) (s : List Char) (rest : List Char) :
    parseValue (f + 1) d (quote s ++ rest) = .ok (.str s, rest) := by
  have e : quote s ++ rest = '"' :: (quoteBody s ++ '"' :: rest) := by
    unfold quote; simp
  have hq : ('"' : Char).toNat = 34 := by decide
  have hv : isSpace '"' = false := by decide
  rw [e, parseValue, skipWs_cons _ _ hv]
  simp only
  rw [if_neg (by omega), if_neg (by omega), if_pos hq, lexString_quote]

theorem parseValue_null (f d : Nat) (rest : List Char) :
    parseValue (f + 1) d (['n', 'u', 'l', 'l'] ++ rest) = .ok (.null, rest) := by
  have hv : isSpace 'n' = false := by decide
  have hq : ('n' : Char).toNat = 110 := by decide
  show parseValue (f + 1) d ('n' :: ('u' :: 'l' :: 'l' :: rest)) = _
  rw [parseValue, skipWs_cons _ _ hv]
  simp only
  rw [if_neg (by omega), if_neg (by omega), if_neg (by omega), if_neg (by omega),
    if_neg (by omega), if_pos hq]
  simp [expectLit]

theorem parseValue_true (f d : Nat) (rest : List Char) :
    parseValue (f + 1) d (['t', 'r', 'u', 'e'] ++ rest) = .ok (.bool true, rest) := by
  have hv : isSpace 't' = false := by decide
  have hq : ('t' : Char).toNat = 116 := by decide
  show parseValue (f + 1) d ('t' :: ('r' :: 'u' :: 'e' :: rest)) = _
  rw [parseValue, skipWs_cons _ _ hv]
  simp only
  rw [if_neg (by omega), if_neg (by omega), if_neg (by omega), if_pos hq]
  simp [expectLit]

theorem parseValue_false (f d : Nat) (rest : List Char) :
    parseValue (f + 1) d (['f', 'a', 'l', 's', 'e'] ++ rest) = .ok (.bool false, rest) := by
  have hv : isSpace 'f' = false := by decide
  have hq : ('f' : Char).toNat = 102 := by decide
  show parseValue (f + 1) d ('f' :: ('a' :: 'l' :: 's' :: 'e' :: rest)) = _
  rw [parseValue, skipWs_cons _ _ hv]
  simp only
  rw [if_neg (by omega), if_neg (by omega), if_neg (by omega), if_neg (by omega), if_pos hq]
  simp [expectLit]

theorem parseValue_arr_empty (f d : Nat) (rest : List Char) (hd : d < maxNestingDepth) :
    parseValue (f + 1) d ('[' :: ']' :: rest) = .ok (.arr [], rest) := by
  have hv : isSpace '[' = false := by decide
  have hv2 : isSpace ']' = false := by decide
  have hq : ('[' : Char).toNat = 91 := by decide
  have hq2 : (']' : Char).toNat = 93 := by decide
  rw [parseValue, skipWs_cons _ _ hv]
  simp only
  rw [if_neg (by omega), if_pos hq, if_neg (by omega), skipWs_cons _ _ hv2]
  simp only
  rw [if_pos hq2]

theorem parseValue_arr (f d : Nat) (c : Char) (tl : List Char) (hd : d < maxNestingDepth)
    (hc : Visible c) (hc2 : c.toNat ≠ 93) :
    parseValue (f + 1) d ('[' :: c :: tl) = parseElems f (d + 1) (c :: tl) [] := by
  have hv : isSpace '[' = false := by decide
  have hq : ('[' : Char).toNat = 91 := by decide
  rw [parseValue, skipWs_cons _ _ hv]
  simp only
  rw [if_neg (by omega), if_pos hq, if_neg (by omega), skipWs_cons _ _ hc.isSpace]
  simp only
  rw [if_neg hc2]

theorem parseValue_obj_empty (f d : Nat) (rest : List Char) (hd : d < maxNestingDepth) :
    parseValue (f + 1) d ('{' :: '}' :: rest) = .ok (.obj [], rest) := by
  have hv : isSpace '{' = false := by decide
  have hv2 : isSpace '}' = false := by decide
  have hq : ('{' : Char).toNat = 123 := by decide
  have hq2 : ('}' : Char).toNat = 125 := by decide
  rw [parseValue, skipWs_cons _ _ hv]
  simp only
  rw [if_pos hq, if_neg (by omega), skipWs_cons _ _ hv2]
  simp only
  rw [if_pos hq2]

theorem parseValue_obj (f d : Nat) (c : Char) (tl : List Char) (hd : d < maxNestingDepth)
    (hc : Visible c) (hc2 : c.toNat ≠ 125) :
    parseValue (f + 1) d ('{' :: c :: tl) = parseMembers f (d + 1) (c :: tl) [] := by
  have hv : isSpace '{' = false := by decide
  have hq : ('{' : Char).toNat = 123 := by decide
  rw [parseValue, skipWs_cons _ _ hv]
  simp only
  rw [if_pos hq, if_neg (by omega), skipWs_cons _ _ hc.isSpace]
  simp only
  rw [if_neg hc2]

theorem parseElems_last (f d : Nat) (cs rest : List Char) (v : JSyn) (acc : List JSyn)
    (h : parseValue f d cs = .ok (v, ']' :: rest)) :
    parseElems (f + 1) d cs acc = .ok (.arr (v :: acc).reverse, rest) := by
  have hv : isSpace ']' = false := by decide
  have hq : (']' : Char).toNat = 93 := by decide
  rw [parseElems, h]
  simp only
  rw [skipWs_cons _ _ hv]
  simp only
  rw [if_neg (by omega), if_pos hq]

theorem parseElems_more (f d : Nat) (cs rest : List Char) (v : JSyn) (acc : List JSyn)
    (h : parseValue f d cs = .ok (v, ',' :: rest)) :
    parseElems (f + 1) d cs acc = parseElems f d rest (v :: acc) := by
  have hv : isSpace ',' = false := by decide
  have hq : (',' : Char).toNat = 44 := by decide
  rw [parseElems, h]
  simp only
  rw [skipWs_cons _ _ hv]
  simp only
  rw [if_pos hq]

theorem parseMembers_last (f d : Nat) (k cs rest : List Char) (v : JSyn)
    (acc : List (List Char × JSyn)) (h : parseValue f d cs = .ok (v, '}' :: rest)) :
    parseMembers (f + 1) d (quote k ++ ':' :: cs) acc = .ok (.obj ((k, v) :: acc).reverse, rest) := by
  have e : quote k ++ ':' :: cs = '"' :: (quoteBody k ++ '"' :: ':' :: cs) := by
    unfold quote; simp
  have hv : isSpace '"' = false := by decide
  have hv2 : isSpace ':' = false := by decide
  have hv3 : isSpace '}' = false := by decide
  have hq : ('"' : Char).toNat = 34 := by decide
  have hq2 : (':' : Char).toNat = 58 := by decide
  have hq3 : ('}' : Char).toNat = 125 := by decide
  rw [e, parseMembers, skipWs_cons _ _ hv]
  simp only
  rw [if_pos hq, lexString_quote]
  simp only
  rw [skipWs_cons _ _ hv2]
  simp only
  rw [if_pos hq2, h]
  simp only
  rw [skipWs_cons _ _ hv3]
  simp only
  rw [if_neg (by omega), if_pos hq3]

theorem parseMembers_more (f d : Nat) (k cs rest : List Char) (v : JSyn)
    (acc : List (List Char × JSyn)) (h : parseValue f d cs = .ok (v, ',' :: rest)) :
    parseMembers (f + 1) d (quote k ++ ':' :: cs) acc = parseMembers f d rest ((k, v) :: acc) := by
  have e : quote k ++ ':' :: cs = '"' :: (quoteBody k ++ '"' :: ':' :: cs) := by
    unfold quote; simp
  have hv : isSpace '"' = false := by decide
  have hv2 : isSpace ':' = false := by decide
  have hv3 : isSpace ',' = false := by decide
  have hq : ('"' : Char).toNat = 34 := by decide
  have hq2 : (':' : Char).toNat = 58 := by decide
  have hq3 : (',' : Char).toNat = 44 := by decide
  rw [e, parseMembers, skipWs_cons _ _ hv]
  simp only
  rw [if_pos hq, lexString_quote]
  simp only
  rw [skipWs_cons _ _ hv2]
  simp only
  rw [if_pos hq2, h]
  simp only
  rw [skipWs_cons _ _ hv3]
  simp only
  rw [if_pos hq3]

theorem visible_of_digit_or_minus (c : Char) (h : isDigit c = true ∨ c.toNat = 45) :
    Visible c ∧ c.toNat ≠ 93 ∧ c.toNat ≠ 125 := by
  have hb : 48 ≤ c.toNat ∧ c.toNat ≤ 57 ∨ c.toNat = 45 := by
    rcases h with h | h
    · exact Or.inl ((isDigit_iff c).mp h)
    · exact Or.inr h
  unfold Visible
  omega

/-- The text of a value starts with a character that is not white space and closes
nothing. -/
theorem encode_head (v : JV) (hv : v.valid = true) (hs : v.supported = true) :
    ∃ c tl, v.encode = c :: tl ∧ Visible c ∧ c.toNat ≠ 93 ∧ c.toNat ≠ 125 := by
  cases v with
  | null => exact ⟨'n', _, rfl, by decide⟩
  | bool b =>
    cases b
    · exact ⟨'f', _, rfl, by decide⟩
    · exact ⟨'t', _, rfl, by decide⟩
  | int n =>
    obtain ⟨c, tl, e, hc⟩ := marshalInt_head n
    exact ⟨c, tl, by rw [JV.encode, e], visible_of_digit_or_minus c hc⟩
  | num f =>
    rw [JV.valid, validMag_iff] at hv
    obtain ⟨c, tl, e, hc⟩ := formatF64_head f hv
    exact ⟨c, tl, by rw [JV.encode, e], visible_of_digit_or_minus c hc⟩
  | nonFinite => simp [JV.supported] at hs
  | str s => exact ⟨'"', _, by rw [JV.encode]; rfl, by decide⟩
  | arr xs => exact ⟨'[', _, by rw [JV.encode], by decide⟩
  | obj kvs => exact ⟨'{', _, by rw [JV.encode], by decide⟩

theorem numEnd_cons (c : Char) (r : List Char) (h1 : ¬ (48 ≤ c.toNat ∧ c.toNat ≤ 57))
    (h2 : c.toNat ≠ 46) (h3 : c.toNat ≠ 101) (h4 : c.toNat ≠ 69) : NumEnd (c :: r) := by
  intro c' r' e
  rw [← (List.cons.inj e).1]
  exact ⟨(isDigit_false_iff c).mpr h1, h2, h3, h4⟩

theorem numEnd_comma (r : List Char) : NumEnd (',' :: r) :=
  numEnd_cons _ _ (by decide) (by decide) (by decide) (by decide)

theorem numEnd_bracket (r : List Char) : NumEnd (']' :: r) :=
  numEnd_cons _ _ (by decide) (by decide) (by decide) (by decide)

theorem numEnd_brace (r : List Char) : NumEnd ('}' :: r) :=
  numEnd_cons _ _ (by decide) (by decide) (by decide) (by decide)

theorem encode_length_pos (v : JV) (hv : v.valid = true) (hs : v.supported = true) :
    1 ≤ v.encode.length := by
  obtain ⟨c, tl, e, _⟩ := encode_head v hv hs
  rw [e]; simp

theorem quote_length (k : List Char) : 2 ≤ (quote k).length := by
  unfold quote; simp

theorem synList_nil : synList [] = [] := by rw [synList]

theorem synList_cons (x : JV) (xs : List JV) : synList (x :: xs) = x.syn :: synList xs := by
  rw [synList]

theorem synMembers_nil : synMembers [] = [] := by rw [synMembers]

theorem synMembers_cons (k : List Char) (x : JV) (rest : List (List Char × JV)) :
    synMembers ((k, x) :: rest) = (k, x.syn) :: synMembers rest := by
  rw [synMembers]

mutual
/-- The scanner reads the text of a value back as the syntax tree of that value. -/
theorem parse_encode : ∀ (v : JV), v.valid = true → v.supported = true →
    ∀ (f d : Nat) (rest : List Char), NumEnd rest → 2 * v.encode.length ≤ f →
      d + v.depth ≤ maxNestingDepth →
      parseValue f d (v.encode ++ rest) = .ok (v.syn, rest)
  | .null, _, _, f, d, rest, _, hf, _ => by
    obtain ⟨f', rfl⟩ : ∃ f', f = f' + 1 := ⟨f - 1, by rw [JV.encode] at hf; simp at hf; omega⟩
    rw [JV.encode, JV.syn]
    exact parseValue_null f' d rest
  | .bool true, _, _, f, d, rest, _, hf, _ => by
    obtain ⟨f', rfl⟩ : ∃ f', f = f' + 1 := ⟨f - 1, by rw [JV.encode] at hf; simp at hf; omega⟩
    rw [JV.encode, JV.syn]
    exact parseValue_true f' d rest
  | .bool false, _, _, f, d, rest, _, hf, _ => by
    obtain ⟨f', rfl⟩ : ∃ f', f = f' + 1 := ⟨f - 1, by rw [JV.encode] at hf; simp at hf; omega⟩
    rw [JV.encode, JV.syn]
    exact parseValue_false f' d rest
  | .int n, _, _, f, d, rest, hr, hf, _ => by
    obtain ⟨c, tl, e, hc⟩ := marshalInt_head n
    have hl := lexNumber_marshalInt n rest hr
    rw [JV.encode] at hf ⊢
    rw [e] at hf hl ⊢
    obtain ⟨f', rfl⟩ : ∃ f', f = f' + 1 := ⟨f - 1, by simp at hf; omega⟩
    rw [JV.syn]
    exact parseValue_number f' d c (tl ++ rest) _ rest hc hl
  | .num x, hv, _, f, d, rest, hr, hf, _ => by
    rw [JV.valid, validMag_iff] at hv
    obtain ⟨c, tl, e, hc⟩ := formatF64_head x hv
    have hl := lexNumber_formatF64 x hv rest hr
    rw [JV.encode] at hf ⊢
    rw [e] at hf hl ⊢
    obtain ⟨f', rfl⟩ : ∃ f', f = f' + 1 := ⟨f - 1, by simp at hf; omega⟩
    rw [JV.syn]
    exact parseValue_number f' d c (tl ++ rest) _ rest hc hl
  | .nonFinite, _, hs, _, _, _, _, _, _ => by simp [JV.supported] at hs
  | .str s, _, _, f, d, rest, _, hf, _ => by
    rw [JV.encode] at hf ⊢
    obtain ⟨f', rfl⟩ : ∃ f', f = f' + 1 := ⟨f - 1, by have := quote_length s; omega⟩
    rw [JV.syn]
    exact parseValue_string f' d s rest
  | .arr [], _, _, f, d, rest, _, hf, hd => by
    rw [JV.encode] at hf ⊢
    rw [JV.depth] at hd
    obtain ⟨f', rfl⟩ : ∃ f', f = f' + 1 := ⟨f - 1, by simp at hf; omega⟩
    rw [JV.syn, synList, encodeElems]
    exact parseValue_arr_empty f' d rest (by omega)
  | .arr (x :: xs), hv, hs, f, d, rest, _, hf, hd => by
    rw [JV.encode] at hf ⊢
    rw [JV.depth] at hd
    rw [JV.valid] at hv
    rw [JV.supported] at hs
    obtain ⟨f', rfl⟩ : ∃ f', f = f' + 1 := ⟨f - 1, by simp at hf; omega⟩
    have ih := parse_elems (x :: xs) (by simp) hv hs f' (d + 1) rest []
      (by simp at hf; omega) (by omega)
    have hx : x.valid = true ∧ x.supported = true := by
      rw [validList] at hv; rw [supportedList] at hs
      simp only [Bool.and_eq_true] at hv hs
      exact ⟨hv.1, hs.1⟩
    obtain ⟨c, tl, e, hvis, h93, _⟩ := encode_head x hx.1 hx.2
    have he : ∃ tl', encodeElems (x :: xs) = c :: tl' := by
      cases xs with
      | nil => exact ⟨tl, by rw [encodeElems, e]⟩
      | cons y ys => exact ⟨tl ++ ',' :: encodeElems (y :: ys), by rw [encodeElems, e]; rfl⟩
    obtain ⟨tl', he⟩ := he
    rw [JV.syn]
    rw [he] at ih ⊢
    simp only [List.cons_append, List.append_assoc, List.singleton_append, List.reverse_nil,
      List.nil_append] at ih ⊢
    rw [parseValue_arr f' d c _ (by omega) hvis h93]
    exact ih
  | .obj [], _, _, f, d, rest, _, hf, hd => by
    rw [JV.encode] at hf ⊢
    rw [JV.depth] at hd
    obtain ⟨f', rfl⟩ : ∃ f', f = f' + 1 := ⟨f - 1, by simp at hf; omega⟩
    rw [JV.syn, synMembers, encodeMembers]
    exact parseValue_obj_empty f' d rest (by omega)
  | .obj ((k, x) :: kvs), hv, hs, f, d, rest, _, hf, hd => by
    rw [JV.encode] at hf ⊢
    rw [JV.depth] at hd
    rw [JV.valid] at hv
    rw [JV.supported] at hs
    simp only [Bool.and_eq_true] at hv
    obtain ⟨f', rfl⟩ : ∃ f', f = f' + 1 := ⟨f - 1, by simp at hf; omega⟩
    have ih := parse_members ((k, x) :: kvs) (by simp) hv.2 hs f' (d + 1) rest []
      (by simp at hf; omega) (by omega)
    have he : ∃ tl', encodeMembers ((k, x) :: kvs) = '"' :: tl' := by
      cases kvs with
      | nil => rw [encodeMembers]; unfold quote; exact ⟨_, rfl⟩
      | cons y ys => rw [encodeMembers]; unfold quote; exact ⟨_, rfl⟩
    obtain ⟨tl', he⟩ := he
    rw [JV.syn]
    rw [he] at ih ⊢
    simp only [List.cons_append, List.append_assoc, List.singleton_append, List.reverse_nil,
      List.nil_append] at ih ⊢
    rw [parseValue_obj f' d '"' _ (by omega) (by decide) (by decide)]
    exact ih
theorem parse_elems : ∀ (xs : List JV), xs ≠ [] → validList xs = true →
    supportedList xs = true → ∀ (f d : Nat) (rest : List Char) (acc : List JSyn),
      2 * (encodeElems xs).length + 1 ≤ f → d + depthList xs ≤ maxNestingDepth →
      parseElems f d (encodeElems xs ++ ']' :: rest) acc
        = .ok (.arr (acc.reverse ++ synList xs), rest)
  | [], hne, _, _, _, _, _, _, _, _ => absurd rfl hne
  | [x], _, hv, hs, f, d, rest, acc, hf, hd => by
    rw [validList] at hv; rw [supportedList] at hs
    simp only [Bool.and_eq_true] at hv hs
    rw [encodeElems] at hf ⊢
    rw [depthList] at hd
    have hpos := encode_length_pos x hv.1 hs.1
    obtain ⟨f', rfl⟩ : ∃ f', f = f' + 1 := ⟨f - 1, by omega⟩
    have ih := parse_encode x hv.1 hs.1 f' d (']' :: rest) (numEnd_bracket rest) (by omega)
      (by have := le_max_left x.depth (depthList []); omega)
    rw [parseElems_last f' d _ rest _ acc ih]
    simp [synList_cons, synList_nil]
  | x :: y :: ys, _, hv, hs, f, d, rest, acc, hf, hd => by
    rw [validList] at hv; rw [supportedList] at hs
    simp only [Bool.and_eq_true] at hv hs
    rw [encodeElems] at hf ⊢
    rw [depthList] at hd
    have hpos := encode_length_pos x hv.1 hs.1
    obtain ⟨f', rfl⟩ : ∃ f', f = f' + 1 := ⟨f - 1, by omega⟩
    rw [List.length_append, List.length_cons] at hf
    have ih := parse_encode x hv.1 hs.1 f' d (',' :: (encodeElems (y :: ys) ++ ']' :: rest))
      (numEnd_comma _) (by omega)
      (by have := le_max_left x.depth (depthList (y :: ys)); omega)
    have ih2 := parse_elems (y :: ys) (by simp) hv.2 hs.2 f' d rest (x.syn :: acc) (by omega)
      (by have := le_max_right x.depth (depthList (y :: ys)); omega)
    rw [List.append_assoc, List.cons_append]
    rw [parseElems_more f' d _ _ _ acc ih, ih2]
    simp [synList_cons]
theorem parse_members : ∀ (kvs : List (List Char × JV)), kvs ≠ [] → validMembers kvs = true →
    supportedMembers kvs = true →
    ∀ (f d : Nat) (rest : List Char) (acc : List (List Char × JSyn)),
      2 * (encodeMembers kvs).length + 1 ≤ f → d + depthMembers kvs ≤ maxNestingDepth →
      parseMembers f d (encodeMembers kvs ++ '}' :: rest) acc
        = .ok (.obj (acc.reverse ++ synMembers kvs), rest)
  | [], hne, _, _, _, _, _, _, _, _ => absurd rfl hne
  | [(k, x)], _, hv, hs, f, d, rest, acc, hf, hd => by
    rw [validMembers] at hv; rw [supportedMembers] at hs
    simp only [Bool.and_eq_true] at hv hs
    rw [encodeMembers] at hf ⊢
    rw [depthMembers] at hd
    have hpos := encode_length_pos x hv.1 hs.1
    rw [List.length_append, List.length_cons] at hf
    obtain ⟨f', rfl⟩ : ∃ f', f = f' + 1 := ⟨f - 1, by omega⟩
    have ih := parse_encode x hv.1 hs.1 f' d ('}' :: rest) (numEnd_brace rest) (by omega)
      (by have := le_max_left x.depth (depthMembers []); omega)
    rw [List.append_assoc, List.cons_append]
    rw [parseMembers_last f' d k _ rest _ acc ih]
    simp [synMembers_cons, synMembers_nil]
  | (k, x) :: y :: ys, _, hv, hs, f, d, rest, acc, hf, hd => by
    rw [validMembers] at hv; rw [supportedMembers] at hs
    simp only [Bool.and_eq_true] at hv hs
    rw [encodeMembers] at hf ⊢
    rw [depthMembers] at hd
    have hpos := encode_length_pos x hv.1 hs.1
    rw [List.length_append, List.length_cons, List.length_append, List.length_cons] at hf
    obtain ⟨f', rfl⟩ : ∃ f', f = f' + 1 := ⟨f - 1, by omega⟩
    have ih := parse_encode x hv.1 hs.1 f' d (',' :: (encodeMembers (y :: ys) ++ '}' :: rest))
      (numEnd_comma _) (by omega)
      (by have := le_max_left x.depth (depthMembers (y :: ys)); omega)
    have ih2 := parse_members (y :: ys) (by simp) hv.2 hs.2 f' d rest ((k, x.syn) :: acc)
      (by omega) (by have := le_max_right x.depth (depthMembers (y :: ys)); omega)
    rw [List.append_assoc, List.cons_append, List.append_assoc, List.cons_append]
    rw [parseMembers_more f' d k _ _ _ acc ih, ih2]
    simp [synMembers_cons]
end

/-! ## The order of keys -/

theorem ltStr_irrefl : ∀ (a : List Char), ltStr a a = false
  | [] => by rw [ltStr]
  | c :: cs => by
    rw [ltStr, if_neg (Nat.lt_irrefl _), if_neg (Nat.lt_irrefl _)]
    exact ltStr_irrefl cs

theorem ltStr_trans : ∀ (a b c : List Char), ltStr a b = true → ltStr b c = true →
    ltStr a c = true
  | [], [], _, h1, _ => by rw [ltStr] at h1; exact absurd h1 (by simp)
  | [], _ :: _, [], _, h2 => by rw [ltStr] at h2; exact absurd h2 (by simp)
  | [], _ :: _, _ :: _, _, _ => by rw [ltStr]
  | _ :: _, [], _, h1, _ => by rw [ltStr] at h1; exact absurd h1 (by simp)
  | _ :: _, _ :: _, [], _, h2 => by rw [ltStr] at h2; exact absurd h2 (by simp)
  | x :: xs, y :: ys, z :: zs, h1, h2 => by
    rw [ltStr] at h1 h2 ⊢
    by_cases hxy : x.toNat < y.toNat
    · by_cases hyz : y.toNat < z.toNat
      · rw [if_pos (by omega)]
      · rw [if_neg hyz] at h2
        by_cases hzy : z.toNat < y.toNat
        · rw [if_pos hzy] at h2; exact absurd h2 (by simp)
        · rw [if_pos (by omega)]
    · rw [if_neg hxy] at h1
      by_cases hyx : y.toNat < x.toNat
      · rw [if_pos hyx] at h1; exact absurd h1 (by simp)
      · rw [if_neg hyx] at h1
        by_cases hyz : y.toNat < z.toNat
        · rw [if_pos (by omega)]
        · rw [if_neg hyz] at h2
          by_cases hzy : z.toNat < y.toNat
          · rw [if_pos hzy] at h2; exact absurd h2 (by simp)
          · rw [if_neg hzy] at h2
            rw [if_neg (by omega), if_neg (by omega)]
            exact ltStr_trans xs ys zs h1 h2

theorem ltStr_asymm (a b : List Char) (h : ltStr a b = true) : ltStr b a = false := by
  cases hb : ltStr b a with
  | false => rfl
  | true =>
    have := ltStr_trans a b a h hb
    rw [ltStr_irrefl] at this
    exact absurd this (by simp)

theorem ltStr_ne (a b : List Char) (h : ltStr a b = true) : a ≠ b := by
  intro e
  rw [e, ltStr_irrefl] at h
  exact absurd h (by simp)

theorem char_eq_of_toNat_eq (a b : Char) (h : a.toNat = b.toNat) : a = b := by
  rw [← Char.ofNat_toNat a, ← Char.ofNat_toNat b, h]

theorem ltStr_total : ∀ (a b : List Char), a ≠ b → ltStr a b = false → ltStr b a = true
  | [], [], h, _ => absurd rfl h
  | [], _ :: _, _, h2 => by rw [ltStr] at h2; exact absurd h2 (by simp)
  | _ :: _, [], _, _ => by rw [ltStr]
  | x :: xs, y :: ys, h, h2 => by
    rw [ltStr] at h2 ⊢
    by_cases hxy : x.toNat < y.toNat
    · rw [if_pos hxy] at h2; exact absurd h2 (by simp)
    · rw [if_neg hxy] at h2
      by_cases hyx : y.toNat < x.toNat
      · rw [if_pos hyx]
      · rw [if_neg hyx] at h2
        rw [if_neg hyx, if_neg hxy]
        have hc : x = y := char_eq_of_toNat_eq x y (by omega)
        refine ltStr_total xs ys ?_ h2
        intro e
        exact h (by rw [hc, e])

/-! ## Maps kept sorted -/

theorem sortedKeys_tail {α : Type} (p : List Char × α) (rest : List (List Char × α))
    (h : sortedKeys (p :: rest) = true) : sortedKeys rest = true := by
  cases rest with
  | nil => rw [sortedKeys]
  | cons q rest' =>
    obtain ⟨k, v⟩ := p
    obtain ⟨k', v'⟩ := q
    rw [sortedKeys, Bool.and_eq_true] at h
    exact h.2

theorem sortedKeys_head_lt {α : Type} : ∀ (k : List Char) (v : α)
    (rest : List (List Char × α)), sortedKeys ((k, v) :: rest) = true →
    ∀ p ∈ rest, ltStr k p.1 = true
  | _, _, [], _, p, hp => by simp at hp
  | k, v, (k', v') :: rest', h, p, hp => by
    rw [sortedKeys, Bool.and_eq_true] at h
    rcases List.mem_cons.mp hp with e | hp'
    · rw [e]; exact h.1
    · exact ltStr_trans k k' p.1 h.1 (sortedKeys_head_lt k' v' rest' h.2 p hp')

theorem sortedKeys_cons {α : Type} (k : List Char) (v : α) (rest : List (List Char × α))
    (h1 : sortedKeys rest = true) (h2 : ∀ p ∈ rest, ltStr k p.1 = true) :
    sortedKeys ((k, v) :: rest) = true := by
  cases rest with
  | nil => rw [sortedKeys]
  | cons q rest' =>
    obtain ⟨k', v'⟩ := q
    rw [sortedKeys, Bool.and_eq_true]
    exact ⟨h2 (k', v') (List.mem_cons_self _ _), h1⟩

theorem insertKey_append {α : Type} (k : List Char) (v : α) :
    ∀ (acc : List (List Char × α)), (∀ a ∈ acc, ltStr a.1 k = true) →
      insertKey k v acc = acc ++ [(k, v)]
  | [], _ => by rw [insertKey]; rfl
  | (k', v') :: rest, h => by
    have h1 := h (k', v') (List.mem_cons_self _ _)
    rw [insertKey, if_neg (fun e => ltStr_ne k' k h1 e.symm)]
    rw [ltStr_asymm k' k h1]
    simp only [Bool.false_eq_true, if_false, List.cons_append]
    rw [insertKey_append k v rest (fun a ha => h a (List.mem_cons_of_mem _ ha))]

theorem mem_insertKey {α : Type} (k : List Char) (v : α) :
    ∀ (m : List (List Char × α)) (p : List Char × α), p ∈ insertKey k v m →
      p = (k, v) ∨ p ∈ m
  | [], p, hp => by
    rw [insertKey] at hp
    exact Or.inl (List.mem_singleton.mp hp)
  | (k', v') :: rest, p, hp => by
    rw [insertKey] at hp
    by_cases e : k = k'
    · rw [if_pos e] at hp
      rcases List.mem_cons.mp hp with h | h
      · exact Or.inl h
      · exact Or.inr (List.mem_cons_of_mem _ h)
    · rw [if_neg e] at hp
      by_cases hl : ltStr k k' = true
      · rw [if_pos hl] at hp
        rcases List.mem_cons.mp hp with h | h
        · exact Or.inl h
        · exact Or.inr h
      · rw [if_neg hl] at hp
        rcases List.mem_cons.mp hp with h | h
        · exact Or.inr (by rw [h]; exact List.mem_cons_self _ _)
        · rcases mem_insertKey k v rest p h with h' | h'
          · exact Or.inl h'
          · exact Or.inr (List.mem_cons_of_mem _ h')

theorem sortedKeys_insertKey {α : Type} (k : List Char) (v : α) :
    ∀ (m : List (List Char × α)), sortedKeys m = true → sortedKeys (insertKey k v m) = true
  | [], _ => by rw [insertKey, sortedKeys]
  | (k', v') :: rest, h => by
    rw [insertKey]
    by_cases e : k = k'
    · rw [if_pos e]
      refine sortedKeys_cons k v rest (sortedKeys_tail _ _ h) ?_
      rw [e]
      exact sortedKeys_head_lt k' v' rest h
    · rw [if_neg e]
      by_cases hl : ltStr k k' = true
      · rw [if_pos hl]
        refine sortedKeys_cons k v _ h ?_
        intro p hp
        rcases List.mem_cons.mp hp with h' | h'
        · rw [h']; exact hl
        · exact ltStr_trans k k' p.1 hl (sortedKeys_head_lt k' v' rest h p h')
      · rw [if_neg hl]
        refine sortedKeys_cons k' v' _ (sortedKeys_insertKey k v rest (sortedKeys_tail _ _ h)) ?_
        intro p hp
        rcases mem_insertKey k v rest p hp with h' | h'
        · rw [h']
          exact ltStr_total k k' e (by simpa using hl)
        · exact sortedKeys_head_lt k' v' rest h p h'

/-! ## Decoding the encoder's text -/

theorem roundMag_le (a b : Nat) : roundMag a b ≤ 3 * (a * twoPow1074 / b) + 1 := by
  rw [roundMag_def]
  generalize a * twoPow1074 = x
  generalize hs : bitLen (x / b) - 53 = s
  have h1 := roundHalfEven_le x (b * 2 ^ s)
  have h2 : x / (b * 2 ^ s) = x / b / 2 ^ s := by rw [Nat.div_div_eq_div_mul]
  rw [h2] at h1
  have h3 : x / b / 2 ^ s * 2 ^ s ≤ x / b := Nat.div_mul_le_self _ _
  have h4 : 2 ^ s ≤ 2 * (x / b) + 1 := by
    by_cases h0 : x / b = 0
    · rw [h0, bitLen_zero] at hs
      have : s = 0 := by omega
      rw [this]; simp
    · have := two_pow_bitLen_le (x / b) h0
      have h5 : 2 ^ s ≤ 2 ^ bitLen (x / b) := Nat.pow_le_pow_right (by norm_num) (by omega)
      omega
  calc roundHalfEven x (b * 2 ^ s) * 2 ^ s
      ≤ (x / b / 2 ^ s + 1) * 2 ^ s := Nat.mul_le_mul_right _ h1
    _ = x / b / 2 ^ s * 2 ^ s + 2 ^ s := by ring
    _ ≤ 3 * (x / b) + 1 := by omega

theorem validInt_natAbs (n : Int) (h : validInt n = true) : n.natAbs ≤ 2 ^ 63 := by
  unfold validInt at h
  simp only [Bool.and_eq_true, decide_eq_true_eq] at h
  have e : (2 : Nat) ^ 63 = 9223372036854775808 := by norm_num
  rw [e]
  omega

/-- The nearest float64 of an `int64` is finite. -/
theorem intOk_of_validInt (n : Int) (h : validInt n = true) : intOk n = true := by
  have hb := validInt_natAbs n h
  have h1 := roundMag_le n.natAbs 1
  rw [Nat.div_one] at h1
  have e1 : twoPow2098 = 2 ^ 1024 * twoPow1074 := by
    rw [twoPow2098_eq, twoPow1074_eq, ← pow_add]
  have e2 : 3 * 2 ^ 63 + 1 ≤ 2 ^ 1024 := by
    calc 3 * 2 ^ 63 + 1 ≤ 2 ^ 65 := by norm_num
      _ ≤ 2 ^ 1024 := Nat.pow_le_pow_right (by norm_num) (by norm_num)
  have e3 : 1 < twoPow1074 := by
    rw [twoPow1074_eq]; exact Nat.one_lt_two_pow (by norm_num)
  have e4 : n.natAbs * twoPow1074 ≤ 2 ^ 63 * twoPow1074 := Nat.mul_le_mul_right twoPow1074 hb
  unfold intOk
  rw [decide_eq_true_eq]
  calc roundMag n.natAbs 1 ≤ 3 * (n.natAbs * twoPow1074) + 1 := h1
    _ < 3 * (2 ^ 63 * twoPow1074) + 1 * twoPow1074 := by omega
    _ = (3 * 2 ^ 63 + 1) * twoPow1074 := by ring
    _ ≤ 2 ^ 1024 * twoPow1074 := Nat.mul_le_mul_right _ e2
    _ = twoPow2098 := e1.symm

theorem decodeNum_int (n : Int) (h : intOk n = true) :
    decodeNum ⟨decide (n < 0), n.natAbs, 0⟩ = .ok ⟨decide (n < 0), roundMag n.natAbs 1⟩ := by
  unfold intOk at h
  rw [decide_eq_true_eq] at h
  have hd : decFrac n.natAbs 0 = (n.natAbs, 1) := by
    unfold decFrac
    simp
  have hp : parseMag n.natAbs 0 = some (roundMag n.natAbs 1) := by
    unfold parseMag
    rw [hd]
    simp only
    generalize roundMag n.natAbs 1 = m at h ⊢
    rw [if_pos h]
  unfold decodeNum
  simp only [hp]

theorem decodeAny_null : decodeAny .null = .ok .null := rfl

theorem decodeAny_bool (b : Bool) : decodeAny (.bool b) = .ok (.bool b) := rfl

theorem decodeAny_str (s : List Char) : decodeAny (.str s) = .ok (.str s) := rfl

theorem decodeAny_num_eq (n : NumLit) : decodeAny (.num n) =
    (match decodeNum n with
    | .error e => .error e
    | .ok f => .ok (.num f)) := rfl

theorem decodeAny_arr_eq (xs : List JSyn) : decodeAny (.arr xs) =
    (match decodeList xs with
    | .error e => .error e
    | .ok vs => .ok (.arr vs)) := rfl

theorem decodeAny_obj_eq (kvs : List (List Char × JSyn)) : decodeAny (.obj kvs) =
    (match decodeMembers kvs [] with
    | .error e => .error e
    | .ok m => .ok (.obj m)) := rfl

theorem decodeList_nil : decodeList [] = .ok [] := rfl

theorem decodeList_cons (x : JSyn) (xs : List JSyn) : decodeList (x :: xs) =
    (match decodeAny x with
    | .error e => .error e
    | .ok v =>
      match decodeList xs with
      | .error e => .error e
      | .ok vs => .ok (v :: vs)) := rfl

theorem decodeMembers_nil (acc : List (List Char × JV)) : decodeMembers [] acc = .ok acc := rfl

theorem decodeMembers_cons (k : List Char) (x : JSyn) (rest : List (List Char × JSyn))
    (acc : List (List Char × JV)) : decodeMembers ((k, x) :: rest) acc =
    (match decodeAny x with
    | .error e => .error e
    | .ok v => decodeMembers rest (insertKey k v acc)) := rfl

theorem decodeAny_num (n : NumLit) (f : F64) (h : decodeNum n = .ok f) :
    decodeAny (.num n) = .ok (.num f) := by
  rw [decodeAny_num_eq, h]

theorem mem_synMembers : ∀ (kvs : List (List Char × JV)) (p : List Char × JSyn),
    p ∈ synMembers kvs → ∃ q ∈ kvs, p.1 = q.1
  | [], p, hp => by rw [synMembers] at hp; simp at hp
  | (k, x) :: rest, p, hp => by
    rw [synMembers] at hp
    rcases List.mem_cons.mp hp with e | h
    · exact ⟨(k, x), List.mem_cons_self _ _, by rw [e]⟩
    · obtain ⟨q, hq, e⟩ := mem_synMembers rest p h
      exact ⟨q, List.mem_cons_of_mem _ hq, e⟩

mutual
/-- Decoding the syntax tree of a value's text gives the value with its integers converted
to float64. -/
theorem decode_syn : ∀ (v : JV), v.valid = true → v.supported = true →
    decodeAny v.syn = .ok v.canon
  | .null, _, _ => by rw [JV.syn, decodeAny_null, JV.canon]
  | .bool b, _, _ => by rw [JV.syn, decodeAny_bool, JV.canon]
  | .int n, hv, _ => by
    rw [JV.valid] at hv
    rw [JV.syn, JV.canon]
    exact decodeAny_num _ _ (decodeNum_int n hv)
  | .num f, hv, _ => by
    rw [JV.valid, validMag_iff] at hv
    rw [JV.syn, JV.canon]
    exact decodeAny_num _ _ (decodeNum_litOf f hv)
  | .nonFinite, _, hs => by rw [JV.supported] at hs; exact absurd hs (by simp)
  | .str s, _, _ => by rw [JV.syn, decodeAny_str, JV.canon]
  | .arr xs, hv, hs => by
    rw [JV.valid] at hv
    rw [JV.supported] at hs
    rw [JV.syn, decodeAny_arr_eq, decode_synList xs hv hs, JV.canon]
  | .obj kvs, hv, hs => by
    rw [JV.valid, Bool.and_eq_true] at hv
    rw [JV.supported] at hs
    rw [JV.syn, decodeAny_obj_eq, decode_synMembers kvs [] hv.2 hs hv.1
      (fun a ha => absurd ha (List.not_mem_nil a)), JV.canon]
    rfl
theorem decode_synList : ∀ (xs : List JV), validList xs = true → supportedList xs = true →
    decodeList (synList xs) = .ok (canonList xs)
  | [], _, _ => by rw [synList, decodeList_nil, canonList]
  | x :: xs, hv, hs => by
    rw [validList, Bool.and_eq_true] at hv
    rw [supportedList, Bool.and_eq_true] at hs
    rw [synList, decodeList_cons, decode_syn x hv.1 hs.1]
    simp only
    rw [decode_synList xs hv.2 hs.2, canonList]
theorem decode_synMembers : ∀ (kvs : List (List Char × JV)) (acc : List (List Char × JV)),
    validMembers kvs = true → supportedMembers kvs = true → sortedKeys kvs = true →
    (∀ a ∈ acc, ∀ p ∈ kvs, ltStr a.1 p.1 = true) →
    decodeMembers (synMembers kvs) acc = .ok (acc ++ canonMembers kvs)
  | [], acc, _, _, _, _ => by rw [synMembers, decodeMembers_nil, canonMembers, List.append_nil]
  | (k, x) :: rest, acc, hv, hs, hsort, hacc => by
    rw [validMembers, Bool.and_eq_true] at hv
    rw [supportedMembers, Bool.and_eq_true] at hs
    rw [synMembers, decodeMembers_cons, decode_syn x hv.1 hs.1]
    simp only
    rw [insertKey_append k x.canon acc (fun a ha => hacc a ha (k, x) (List.mem_cons_self _ _))]
    rw [decode_synMembers rest (acc ++ [(k, x.canon)]) hv.2 hs.2 (sortedKeys_tail _ _ hsort)
      (by
        intro a ha p hp
        rcases List.mem_append.mp ha with h | h
        · exact hacc a h p (List.mem_cons_of_mem _ hp)
        · rw [List.mem_singleton.mp h]
          exact sortedKeys_head_lt k x rest hsort p hp)]
    rw [canonMembers, List.append_assoc]
    rfl
end

/-! ## What decoding builds -/

theorem decodedMembers_iff : ∀ (m : List (List Char × JV)),
    decodedMembers m = true ↔ ∀ p ∈ m, p.2.decoded = true
  | [] => by
    rw [decodedMembers]
    exact ⟨fun _ p hp => absurd hp (List.not_mem_nil p), fun _ => rfl⟩
  | (k, x) :: rest => by
    rw [decodedMembers, Bool.and_eq_true, decodedMembers_iff rest, List.forall_mem_cons]

theorem depthMembers_le_iff (b : Nat) : ∀ (m : List (List Char × JV)),
    depthMembers m ≤ b ↔ ∀ p ∈ m, p.2.depth ≤ b
  | [] => by
    rw [depthMembers]
    exact ⟨fun _ p hp => absurd hp (List.not_mem_nil p), fun _ => Nat.zero_le _⟩
  | (k, x) :: rest => by
    rw [depthMembers, max_le_iff, depthMembers_le_iff b rest, List.forall_mem_cons]

theorem decodeNum_valid (n : NumLit) (f : F64) (h : decodeNum n = .ok f) :
    validMag f.mag = true := by
  unfold decodeNum at h
  cases hp : parseMag n.digits n.exp10 with
  | none => rw [hp] at h; cases h
  | some m =>
    rw [hp] at h
    simp only [Except.ok.injEq] at h
    rw [← h]
    exact (validMag_iff m).mpr (parseMag_valid _ _ _ hp)

mutual
/-- What decoding builds in an `interface{}`: no integers, finite float64 numbers, maps with
sorted keys, and no deeper than the text. -/
theorem decodeAny_sound : ∀ (t : JSyn) (v : JV), decodeAny t = .ok v →
    v.decoded = true ∧ v.depth ≤ t.depth
  | .null, v, h => by
    rw [decodeAny_null] at h
    simp only [Except.ok.injEq] at h
    rw [← h, JV.decoded, JV.depth]
    exact ⟨rfl, Nat.zero_le _⟩
  | .bool b, v, h => by
    rw [decodeAny_bool] at h
    simp only [Except.ok.injEq] at h
    rw [← h, JV.decoded, JV.depth]
    exact ⟨rfl, Nat.zero_le _⟩
  | .str s, v, h => by
    rw [decodeAny_str] at h
    simp only [Except.ok.injEq] at h
    rw [← h, JV.decoded, JV.depth]
    exact ⟨rfl, Nat.zero_le _⟩
  | .num n, v, h => by
    rw [decodeAny_num_eq] at h
    cases hn : decodeNum n with
    | error e => rw [hn] at h; cases h
    | ok f =>
      rw [hn] at h
      simp only [Except.ok.injEq] at h
      rw [← h, JV.decoded, JV.depth]
      exact ⟨decodeNum_valid n f hn, Nat.zero_le _⟩
  | .arr xs, v, h => by
    rw [decodeAny_arr_eq] at h
    cases hl : decodeList xs with
    | error e => rw [hl] at h; cases h
    | ok vs =>
      rw [hl] at h
      simp only [Except.ok.injEq] at h
      have ih := decodeList_sound xs vs hl
      rw [← h, JV.decoded, JV.depth, JSyn.depth]
      exact ⟨ih.1, Nat.succ_le_succ ih.2⟩
  | .obj kvs, v, h => by
    rw [decodeAny_obj_eq] at h
    cases hl : decodeMembers kvs [] with
    | error e => rw [hl] at h; cases h
    | ok m =>
      rw [hl] at h
      simp only [Except.ok.injEq] at h
      have ih := decodeMembers_sound kvs [] m hl (by rw [sortedKeys])
        (fun p hp => absurd hp (List.not_mem_nil p)) (JSyn.depthMembers kvs)
        (fun p hp => absurd hp (List.not_mem_nil p)) (le_refl _)
      rw [← h, JV.decoded, JV.depth, JSyn.depth, Bool.and_eq_true]
      refine ⟨⟨ih.1, (decodedMembers_iff m).mpr (fun p hp => (ih.2 p hp).1)⟩, ?_⟩
      exact Nat.succ_le_succ ((depthMembers_le_iff _ m).mpr (fun p hp => (ih.2 p hp).2))
theorem decodeList_sound : ∀ (ts : List JSyn) (vs : List JV), decodeList ts = .ok vs →
    decodedList vs = true ∧ depthList vs ≤ JSyn.depthList ts
  | [], vs, h => by
    rw [decodeList_nil] at h
    simp only [Except.ok.injEq] at h
    rw [← h, decodedList, depthList]
    exact ⟨rfl, Nat.zero_le _⟩
  | t :: ts, vs, h => by
    rw [decodeList_cons] at h
    cases hx : decodeAny t with
    | error e => rw [hx] at h; cases h
    | ok v =>
      rw [hx] at h
      simp only at h
      cases hl : decodeList ts with
      | error e => rw [hl] at h; cases h
      | ok vs' =>
        rw [hl] at h
        simp only [Except.ok.injEq] at h
        have ih1 := decodeAny_sound t v hx
        have ih2 := decodeList_sound ts vs' hl
        rw [← h, decodedList, depthList, JSyn.depthList, Bool.and_eq_true]
        exact ⟨⟨ih1.1, ih2.1⟩, max_le_max ih1.2 ih2.2⟩
theorem decodeMembers_sound : ∀ (kvs : List (List Char × JSyn)) (acc m : List (List Char × JV)),
    decodeMembers kvs acc = .ok m → sortedKeys acc = true →
    (∀ p ∈ acc, p.2.decoded = true) → ∀ (b : Nat), (∀ p ∈ acc, p.2.depth ≤ b) →
    JSyn.depthMembers kvs ≤ b →
    sortedKeys m = true ∧ ∀ p ∈ m, p.2.decoded = true ∧ p.2.depth ≤ b
  | [], acc, m, h, hs, hd, b, hb, _ => by
    rw [decodeMembers_nil] at h
    simp only [Except.ok.injEq] at h
    rw [← h]
    exact ⟨hs, fun p hp => ⟨hd p hp, hb p hp⟩⟩
  | (k, t) :: rest, acc, m, h, hs, hd, b, hb, hk => by
    rw [decodeMembers_cons] at h
    rw [JSyn.depthMembers, max_le_iff] at hk
    cases hx : decodeAny t with
    | error e => rw [hx] at h; cases h
    | ok v =>
      rw [hx] at h
      simp only at h
      have ih1 := decodeAny_sound t v hx
      refine decodeMembers_sound rest (insertKey k v acc) m h (sortedKeys_insertKey k v acc hs)
        ?_ b ?_ hk.2
      · intro p hp
        rcases mem_insertKey k v acc p hp with e | hp'
        · rw [e]; exact ih1.1
        · exact hd p hp'
      · intro p hp
        rcases mem_insertKey k v acc p hp with e | hp'
        · rw [e]; exact le_trans ih1.2 hk.1
        · exact hb p hp'
end

mutual
/-- A decoded value is a machine value the encoder supports, with no integer to convert. -/
theorem decoded_props : ∀ (v : JV), v.decoded = true →
    v.valid = true ∧ v.supported = true ∧ v.canon = v
  | .null, _ => by rw [JV.valid, JV.supported, JV.canon]; exact ⟨rfl, rfl, rfl⟩
  | .bool b, _ => by rw [JV.valid, JV.supported, JV.canon]; exact ⟨rfl, rfl, rfl⟩
  | .int n, h => by rw [JV.decoded] at h; exact absurd h (by simp)
  | .num f, h => by
    rw [JV.decoded] at h
    rw [JV.valid, JV.supported, JV.canon]; exact ⟨h, rfl, rfl⟩
  | .nonFinite, h => by rw [JV.decoded] at h; exact absurd h (by simp)
  | .str s, _ => by rw [JV.valid, JV.supported, JV.canon]; exact ⟨rfl, rfl, rfl⟩
  | .arr xs, h => by
    rw [JV.decoded] at h
    have ih := decodedList_props xs h
    rw [JV.valid, JV.supported, JV.canon, ih.2.2]
    exact ⟨ih.1, ih.2.1, rfl⟩
  | .obj kvs, h => by
    rw [JV.decoded, Bool.and_eq_true] at h
    have ih := decodedMembers_props kvs h.2
    rw [JV.valid, JV.supported, JV.canon, ih.2.2, Bool.and_eq_true]
    exact ⟨⟨h.1, ih.1⟩, ih.2.1, rfl⟩
theorem decodedList_props : ∀ (xs : List JV), decodedList xs = true →
    validList xs = true ∧ supportedList xs = true ∧ canonList xs = xs
  | [], _ => by rw [validList, supportedList, canonList]; exact ⟨rfl, rfl, rfl⟩
  | x :: xs, h => by
    rw [decodedList, Bool.and_eq_true] at h
    have ih1 := decoded_props x h.1
    have ih2 := decodedList_props xs h.2
    rw [validList, supportedList, canonList, ih1.2.2, ih2.2.2, Bool.and_eq_true,
      Bool.and_eq_true]
    exact ⟨⟨ih1.1, ih2.1⟩, ⟨ih1.2.1, ih2.2.1⟩, rfl⟩
theorem decodedMembers_props : ∀ (kvs : List (List Char × JV)), decodedMembers kvs = true →
    validMembers kvs = true ∧ supportedMembers kvs = true ∧ canonMembers kvs = kvs
  | [], _ => by rw [validMembers, supportedMembers, canonMembers]; exact ⟨rfl, rfl, rfl⟩
  | (k, x) :: rest, h => by
    rw [decodedMembers, Bool.and_eq_true] at h
    have ih1 := decoded_props x h.1
    have ih2 := decodedMembers_props rest h.2
    rw [validMembers, supportedMembers, canonMembers, ih1.2.2, ih2.2.2, Bool.and_eq_true,
      Bool.and_eq_true]
    exact ⟨⟨ih1.1, ih2.1⟩, ⟨ih1.2.1, ih2.2.1⟩, rfl⟩
end

/-! ## The depth of what the scanner accepts -/

theorem syn_depthList_le_iff (b : Nat) : ∀ (xs : List JSyn),
    JSyn.depthList xs ≤ b ↔ ∀ x ∈ xs, x.depth ≤ b
  | [] => by
    rw [JSyn.depthList]
    exact ⟨fun _ p hp => absurd hp (List.not_mem_nil p), fun _ => Nat.zero_le _⟩
  | x :: xs => by
    rw [JSyn.depthList, max_le_iff, syn_depthList_le_iff b xs, List.forall_mem_cons]

theorem syn_depthMembers_le_iff (b : Nat) : ∀ (m : List (List Char × JSyn)),
    JSyn.depthMembers m ≤ b ↔ ∀ p ∈ m, p.2.depth ≤ b
  | [] => by
    rw [JSyn.depthMembers]
    exact ⟨fun _ p hp => absurd hp (List.not_mem_nil p), fun _ => Nat.zero_le _⟩
  | (k, x) :: rest => by
    rw [JSyn.depthMembers, max_le_iff, syn_depthMembers_le_iff b rest, List.forall_mem_cons]

theorem expectLit_depth (lit : List Char) (v : JSyn) (cs : List Char) (t : JSyn) (r : List Char)
    (hv : v.depth = 0) (h : expectLit lit v cs = .ok (t, r)) : t.depth = 0 := by
  unfold expectLit at h
  split at h
  · simp only [Except.ok.injEq, Prod.mk.injEq] at h
    rw [← h.1]; exact hv
  · cases h

/-- The three scanners only accept values nested within the limit. -/
theorem parse_depth (f : Nat) :
    (∀ d cs t r, parseValue f d cs = .ok (t, r) → d ≤ maxNestingDepth →
      d + t.depth ≤ maxNestingDepth) ∧
    (∀ d cs acc t r, parseElems f d cs acc = .ok (t, r) → d ≤ maxNestingDepth →
      (∀ a ∈ acc, d + a.depth ≤ maxNestingDepth) → d + t.depth ≤ maxNestingDepth + 1) ∧
    (∀ d cs acc t r, parseMembers f d cs acc = .ok (t, r) → d ≤ maxNestingDepth →
      (∀ a ∈ acc, d + a.2.depth ≤ maxNestingDepth) → d + t.depth ≤ maxNestingDepth + 1) := by
  induction f with
  | zero =>
    refine ⟨?_, ?_, ?_⟩
    · intro d cs t r h; rw [parseValue] at h; cases h
    · intro d cs acc t r h; rw [parseElems] at h; cases h
    · intro d cs acc t r h; rw [parseMembers] at h; cases h
  | succ f ih =>
    obtain ⟨ihV, ihE, ihM⟩ := ih
    refine ⟨?_, ?_, ?_⟩
    · intro d cs t r h hd
      rw [parseValue] at h
      split at h
      · cases h
      · next c rest _ =>
        split at h
        · split at h
          · cases h
          · split at h
            · cases h
            · next c2 rest2 _ =>
              split at h
              · simp only [Except.ok.injEq, Prod.mk.injEq] at h
                rw [← h.1, JSyn.depth, JSyn.depthMembers]
                omega
              · have := ihM (d + 1) _ _ t r h (by omega)
                  (fun a ha => absurd ha (List.not_mem_nil a))
                omega
        · split at h
          · split at h
            · cases h
            · split at h
              · cases h
              · next c2 rest2 _ =>
                split at h
                · simp only [Except.ok.injEq, Prod.mk.injEq] at h
                  rw [← h.1, JSyn.depth, JSyn.depthList]
                  omega
                · have := ihE (d + 1) _ _ t r h (by omega)
                    (fun a ha => absurd ha (List.not_mem_nil a))
                  omega
          · split at h
            · split at h
              · simp only [Except.ok.injEq, Prod.mk.injEq] at h
                rw [← h.1, JSyn.depth]
                exact hd
              · cases h
            · split at h
              · rw [expectLit_depth _ _ _ t r (by rw [JSyn.depth]) h]; exact hd
              · split at h
                · rw [expectLit_depth _ _ _ t r (by rw [JSyn.depth]) h]; exact hd
                · split at h
                  · rw [expectLit_depth _ _ _ t r (by rw [JSyn.depth]) h]; exact hd
                  · split at h
                    · simp only [Except.ok.injEq, Prod.mk.injEq] at h
                      rw [← h.1, JSyn.depth]
                      exact hd
                    · cases h
    · intro d cs acc t r h hd hacc
      rw [parseElems] at h
      split at h
      · cases h
      · next v r1 hv =>
        have hvd := ihV d cs v r1 hv hd
        split at h
        · cases h
        · next c rest _ =>
          split at h
          · refine ihE d rest (v :: acc) t r h hd ?_
            intro a ha
            rcases List.mem_cons.mp ha with e | ha'
            · rw [e]; exact hvd
            · exact hacc a ha'
          · split at h
            · simp only [Except.ok.injEq, Prod.mk.injEq] at h
              rw [← h.1, JSyn.depth]
              have : JSyn.depthList (v :: acc).reverse ≤ maxNestingDepth - d := by
                rw [syn_depthList_le_iff]
                intro x hx
                rcases List.mem_cons.mp (List.mem_reverse.mp hx) with e | hx'
                · rw [e]; omega
                · have := hacc x hx'; omega
              omega
            · cases h
    · intro d cs acc t r h hd hacc
      rw [parseMembers] at h
      split at h
      · cases h
      · next q rest _ =>
        split at h
        · split at h
          · cases h
          · next k r1 _ =>
            split at h
            · cases h
            · next c r2 _ =>
              split at h
              · split at h
                · cases h
                · next v r3 hv =>
                  have hvd := ihV d r2 v r3 hv hd
                  split at h
                  · cases h
                  · next c3 r4 _ =>
                    split at h
                    · refine ihM d r4 ((k, v) :: acc) t r h hd ?_
                      intro a ha
                      rcases List.mem_cons.mp ha with e | ha'
                      · rw [e]; exact hvd
                      · exact hacc a ha'
                    · split at h
                      · simp only [Except.ok.injEq, Prod.mk.injEq] at h
                        rw [← h.1, JSyn.depth]
                        have : JSyn.depthMembers ((k, v) :: acc).reverse
                            ≤ maxNestingDepth - d := by
                          rw [syn_depthMembers_le_iff]
                          intro x hx
                          rcases List.mem_cons.mp (List.mem_reverse.mp hx) with e | hx'
                          · rw [e]; show v.depth ≤ _; omega
                          · have := hacc x hx'; omega
                        omega
                      · cases h
              · cases h
        · cases h

theorem parseJSON_depth (cs : List Char) (t : JSyn) (h : parseJSON cs = .ok t) :
    t.depth ≤ maxNestingDepth := by
  unfold parseJSON at h
  split at h
  · cases h
  · next v r hv =>
    split at h
    · simp only [Except.ok.injEq] at h
      have := (parse_depth _).1 0 cs v r hv (Nat.zero_le _)
      rw [← h]; omega
    · cases h

/-! ## json.Unmarshal after json.Marshal -/

theorem parseJSON_encode (v : JV) (hv : v.valid = true) (hs : v.supported = true)
    (hd : v.depth ≤ maxNestingDepth) : parseJSON v.encode = .ok v.syn := by
  have h := parse_encode v hv hs (2 * v.encode.length + 2) 0 [] numEnd_nil (by omega) (by omega)
  rw [List.append_nil] at h
  unfold parseJSON
  rw [h]
  simp only [skipWs, if_true]

/-- Decoding the text of a value gives the value with its integers converted to float64. -/
theorem unmarshalAny_encode (v : JV) (hv : v.valid = true) (hs : v.supported = true)
    (hd : v.depth ≤ maxNestingDepth) : unmarshalAny (String.mk v.encode) = .ok v.canon := by
  unfold unmarshalAny
  simp only
  rw [parseJSON_encode v hv hs hd]
  simp only
  exact decode_syn v hv hs

theorem unmarshalAny_sound (s : String) (v : JV) (h : unmarshalAny s = .ok v) :
    v.decoded = true ∧ v.depth ≤ maxNestingDepth := by
  unfold unmarshalAny at h
  cases hp : parseJSON s.data with
  | error e => rw [hp] at h; cases h
  | ok t =>
    rw [hp] at h
    simp only at h
    have h1 := decodeAny_sound t v h
    have h2 := parseJSON_depth s.data t hp
    exact ⟨h1.1, le_trans h1.2 h2⟩

theorem marshalString_supported (v : JV) (hs : v.supported = true) :
    marshalString v = String.mk v.encode := by
  unfold marshalString marshal
  rw [if_pos hs]

theorem marshalString_unsupported (v : JV) (hs : v.supported = false) :
    marshalString v = "" := by
  unfold marshalString marshal
  rw [if_neg (by rw [hs]; simp)]

/-- The text of a decoded value is a fixed point of normalizeJSON. -/
theorem normalizeJSON_decoded (v : JV) (hdec : v.decoded = true)
    (hd : v.depth ≤ maxNestingDepth) : normalizeJSON (marshalString v) = marshalString v := by
  obtain ⟨hv, hs, hc⟩ := decoded_props v hdec
  rw [marshalString_supported v hs]
  unfold normalizeJSON
  rw [unmarshalAny_encode v hv hs hd, hc]
  simp only
  exact marshalString_supported v hs

theorem normalizeJSON_idem (s : String) : normalizeJSON (normalizeJSON s) = normalizeJSON s := by
  cases h : unmarshalAny s with
  | error e =>
    have : normalizeJSON s = s := by unfold normalizeJSON; rw [h]
    rw [this, this]
  | ok v =>
    have : normalizeJSON s = marshalString v := by unfold normalizeJSON; rw [h]
    rw [this]
    obtain ⟨h1, h2⟩ := unmarshalAny_sound s v h
    exact normalizeJSON_decoded v h1 h2

/-- Two decoded values with the same text are the same value. -/
theorem encode_inj (x y : JV) (hx : x.decoded = true) (hy : y.decoded = true)
    (hdx : x.depth ≤ maxNestingDepth) (hdy : y.depth ≤ maxNestingDepth)
    (h : x.encode = y.encode) : x = y := by
  obtain ⟨hvx, hsx, hcx⟩ := decoded_props x hx
  obtain ⟨hvy, hsy, hcy⟩ := decoded_props y hy
  have h1 := unmarshalAny_encode x hvx hsx hdx
  have h2 := unmarshalAny_encode y hvy hsy hdy
  rw [h, h2, hcx, hcy] at h1
  simp only [Except.ok.injEq] at h1
  exact h1.symm

mutual
theorem syn_depth : ∀ (v : JV), v.syn.depth = v.depth
  | .null => by rw [JV.syn, JSyn.depth, JV.depth]
  | .bool b => by rw [JV.syn, JSyn.depth, JV.depth]
  | .int n => by rw [JV.syn, JSyn.depth, JV.depth]
  | .num f => by rw [JV.syn, JSyn.depth, JV.depth]
  | .nonFinite => by rw [JV.syn, JSyn.depth, JV.depth]
  | .str s => by rw [JV.syn, JSyn.depth, JV.depth]
  | .arr xs => by rw [JV.syn, JSyn.depth, JV.depth, synList_depth xs]
  | .obj kvs => by rw [JV.syn, JSyn.depth, JV.depth, synMembers_depth kvs]
theorem synList_depth : ∀ (xs : List JV), JSyn.depthList (synList xs) = depthList xs
  | [] => by rw [synList, JSyn.depthList, depthList]
  | x :: xs => by rw [synList, JSyn.depthList, depthList, syn_depth x, synList_depth xs]
theorem synMembers_depth : ∀ (kvs : List (List Char × JV)),
    JSyn.depthMembers (synMembers kvs) = depthMembers kvs
  | [] => by rw [synMembers, JSyn.depthMembers, depthMembers]
  | (k, x) :: rest => by
    rw [synMembers, JSyn.depthMembers, depthMembers, syn_depth x, synMembers_depth rest]
end

/-- Converting the integers of a machine value gives a decoded value, no deeper. -/
theorem canon_decoded (v : JV) (hv : v.valid = true) (hs : v.supported = true) :
    v.canon.decoded = true ∧ v.canon.depth ≤ v.depth := by
  have h := decodeAny_sound v.syn v.canon (decode_syn v hv hs)
  rw [syn_depth] at h
  exact h

/-- The comparison of runCheck on the text of a machine value. -/
theorem normalizeJSON_encode (v : JV) (hv : v.valid = true) (hs : v.supported = true)
    (hd : v.depth ≤ maxNestingDepth) :
    normalizeJSON (marshalString v) = String.mk v.canon.encode := by
  rw [marshalString_supported v hs]
  unfold normalizeJSON
  rw [unmarshalAny_encode v hv hs hd]
  simp only
  have := canon_decoded v hv hs
  exact marshalString_supported _ (decoded_props _ this.1).2.1

theorem normalizeJSON_empty : normalizeJSON "" = "" := by decide

/-! ## The rows of a query as a value -/

theorem validList_iff : ∀ (xs : List JV), validList xs = true ↔ ∀ x ∈ xs, x.valid = true
  | [] => by
    rw [validList]
    exact ⟨fun _ p hp => absurd hp (List.not_mem_nil p), fun _ => rfl⟩
  | x :: xs => by rw [validList, Bool.and_eq_true, validList_iff xs, List.forall_mem_cons]

theorem validMembers_iff : ∀ (m : List (List Char × JV)),
    validMembers m = true ↔ ∀ p ∈ m, p.2.valid = true
  | [] => by
    rw [validMembers]
    exact ⟨fun _ p hp => absurd hp (List.not_mem_nil p), fun _ => rfl⟩
  | (k, x) :: rest => by
    rw [validMembers, Bool.and_eq_true, validMembers_iff rest, List.forall_mem_cons]

theorem supportedList_iff : ∀ (xs : List JV),
    supportedList xs = true ↔ ∀ x ∈ xs, x.supported = true
  | [] => by
    rw [supportedList]
    exact ⟨fun _ p hp => absurd hp (List.not_mem_nil p), fun _ => rfl⟩
  | x :: xs => by
    rw [supportedList, Bool.and_eq_true, supportedList_iff xs, List.forall_mem_cons]

theorem supportedMembers_iff : ∀ (m : List (List Char × JV)),
    supportedMembers m = true ↔ ∀ p ∈ m, p.2.supported = true
  | [] => by
    rw [supportedMembers]
    exact ⟨fun _ p hp => absurd hp (List.not_mem_nil p), fun _ => rfl⟩
  | (k, x) :: rest => by
    rw [supportedMembers, Bool.and_eq_true, supportedMembers_iff rest, List.forall_mem_cons]

theorem depthList_le_iff (b : Nat) : ∀ (xs : List JV),
    depthList xs ≤ b ↔ ∀ x ∈ xs, x.depth ≤ b
  | [] => by
    rw [depthList]
    exact ⟨fun _ p hp => absurd hp (List.not_mem_nil p), fun _ => Nat.zero_le _⟩
  | x :: xs => by rw [depthList, max_le_iff, depthList_le_iff b xs, List.forall_mem_cons]

theorem sortedKeys_map {α β : Type} (f : α → β) : ∀ (m : List (List Char × α)),
    sortedKeys (m.map (fun kv => (kv.1, f kv.2))) = sortedKeys m
  | [] => by rw [List.map_nil, sortedKeys, sortedKeys]
  | [(k, v)] => by rw [List.map_cons, List.map_nil, sortedKeys, sortedKeys]
  | (k, v) :: (k', v') :: rest => by
    have ih := sortedKeys_map f ((k', v') :: rest)
    rw [List.map_cons] at ih
    rw [List.map_cons, List.map_cons, sortedKeys, sortedKeys, ih]

theorem scalar_depth_toJV (s : Scalar) : s.toJV.depth = 0 := by
  cases s <;> rw [Scalar.toJV, JV.depth]

theorem scalar_valid_toJV (s : Scalar) (h : s.valid = true) : s.toJV.valid = true := by
  cases s with
  | null => rw [Scalar.toJV, JV.valid]
  | bool b => rw [Scalar.toJV, JV.valid]
  | int n => rw [Scalar.toJV, JV.valid]; rw [Scalar.valid] at h; exact intOk_of_validInt n h
  | float f => rw [Scalar.toJV, JV.valid]; rw [Scalar.valid] at h; exact h
  | nonFinite => rw [Scalar.toJV, JV.valid]
  | text s => rw [Scalar.toJV, JV.valid]

theorem row_valid_toJV (r : Row) (h : GoodRow r) : r.toJV.valid = true := by
  unfold Row.toJV
  rw [JV.valid, Bool.and_eq_true, sortedKeys_map Scalar.toJV r, validMembers_iff]
  refine ⟨h.1, ?_⟩
  intro p hp
  obtain ⟨q, hq, e⟩ := List.mem_map.mp hp
  rw [← e]
  exact h.2 q hq

theorem row_depth_toJV (r : Row) : r.toJV.depth ≤ 1 := by
  unfold Row.toJV
  rw [JV.depth]
  have : depthMembers (r.map (fun kv => (kv.1, kv.2.toJV))) ≤ 0 := by
    rw [depthMembers_le_iff]
    intro p hp
    obtain ⟨q, hq, e⟩ := List.mem_map.mp hp
    rw [← e]
    exact le_of_eq (scalar_depth_toJV q.2)
  omega

theorem resultsValue_valid (results : List Row) (h : ∀ r ∈ results, GoodRow r) :
    (resultsValue results).valid = true := by
  unfold resultsValue
  cases results with
  | nil => simp only; rw [JV.valid]
  | cons r rs =>
    simp only
    rw [JV.valid, validList_iff]
    intro x hx
    obtain ⟨q, hq, e⟩ := List.mem_map.mp hx
    rw [← e]
    exact row_valid_toJV q (h q hq)

theorem resultsValue_depth (results : List Row) :
    (resultsValue results).depth ≤ maxNestingDepth := by
  unfold resultsValue
  cases results with
  | nil => simp only; rw [JV.depth]; exact Nat.zero_le _
  | cons r rs =>
    simp only
    rw [JV.depth]
    have : depthList ((r :: rs).map Row.toJV) ≤ 1 := by
      rw [depthList_le_iff]
      intro x hx
      obtain ⟨q, _, e⟩ := List.mem_map.mp hx
      rw [← e]
      exact row_depth_toJV q
    unfold maxNestingDepth
    omega

theorem foldl_insertKey_good (vals : List Scalar) :
    ∀ (cvs : List (String × Scalar)) (row : Row), (∀ cv ∈ cvs, cv.2 ∈ vals) →
      sortedKeys row = true → (∀ p ∈ row, p.2 ∈ vals) →
      sortedKeys (cvs.foldl (fun row cv => insertKey cv.1.data cv.2 row) row) = true ∧
      ∀ p ∈ cvs.foldl (fun row cv => insertKey cv.1.data cv.2 row) row, p.2 ∈ vals
  | [], row, _, hs, hm => ⟨hs, hm⟩
  | cv :: cvs, row, hc, hs, hm => by
    rw [List.foldl_cons]
    refine foldl_insertKey_good vals cvs _ (fun x hx => hc x (List.mem_cons_of_mem _ hx))
      (sortedKeys_insertKey _ _ row hs) ?_
    intro p hp
    rcases mem_insertKey _ _ row p hp with e | hp'
    · rw [e]; exact hc cv (List.mem_cons_self _ _)
    · exact hm p hp'

theorem buildRow_good (columns : List String) (values : List Scalar)
    (h : ∀ s ∈ values, s.valid = true) : GoodRow (buildRow columns values) := by
  unfold buildRow
  have := foldl_insertKey_good values (columns.zip values) []
    (fun cv hcv => (List.of_mem_zip hcv).2) (by rw [sortedKeys])
    (fun p hp => absurd hp (List.not_mem_nil p))
  exact ⟨this.1, fun p hp => scalar_valid_toJV _ (h _ (this.2 p hp))⟩

theorem collectRows_good (columns : List String) :
    ∀ (rws : List (Except String (List Scalar))) (acc results : List Row),
      collectRows columns rws acc = .ok results →
      (∀ values, Except.ok values ∈ rws → ∀ s ∈ values, s.valid = true) →
      (∀ r ∈ acc, GoodRow r) → ∀ r ∈ results, GoodRow r
  | [], acc, results, h, _, hacc => by
    rw [collectRows] at h
    simp only [Except.ok.injEq] at h
    rw [← h]; exact hacc
  | .error e :: rest, acc, results, h, _, _ => by
    rw [collectRows] at h; cases h
  | .ok values :: rest, acc, results, h, hv, hacc => by
    rw [collectRows] at h
    refine collectRows_good columns rest _ results h
      (fun vs hvs => hv vs (List.mem_cons_of_mem _ hvs)) ?_
    intro r hr
    rcases List.mem_append.mp hr with h1 | h1
    · exact hacc r h1
    · rw [List.mem_singleton.mp h1]
      exact buildRow_good columns values (hv values (List.mem_cons_self _ _))

/-! ## The expected rows as a value -/

theorem decodeRow_any (t : JSyn) (e : ExpRow) (h : decodeRow t = .ok e) :
    decodeAny t = .ok e.toJV := by
  cases t with
  | null =>
    rw [decodeRow] at h
    simp only [Except.ok.injEq] at h
    rw [← h, decodeAny_null]; rfl
  | obj kvs =>
    rw [decodeRow] at h
    rw [decodeAny_obj_eq]
    cases hm : decodeMembers kvs [] with
    | error err => rw [hm] at h; cases h
    | ok m =>
      rw [hm] at h
      simp only [Except.ok.injEq] at h
      rw [← h]; rfl
  | bool b => rw [decodeRow] at h; cases h
  | num n => rw [decodeRow] at h; cases h
  | str s => rw [decodeRow] at h; cases h
  | arr xs => rw [decodeRow] at h; cases h

theorem decodeRowList_any : ∀ (ts : List JSyn) (es : List ExpRow), decodeRowList ts = .ok es →
    decodeList ts = .ok (es.map ExpRow.toJV)
  | [], es, h => by
    rw [decodeRowList] at h
    simp only [Except.ok.injEq] at h
    rw [← h, decodeList_nil]; rfl
  | t :: ts, es, h => by
    rw [decodeRowList] at h
    cases hr : decodeRow t with
    | error err => rw [hr] at h; cases h
    | ok r =>
      rw [hr] at h
      simp only at h
      cases hl : decodeRowList ts with
      | error err => rw [hl] at h; cases h
      | ok rs =>
        rw [hl] at h
        simp only [Except.ok.injEq] at h
        rw [decodeList_cons, decodeRow_any t r hr]
        simp only
        rw [decodeRowList_any ts rs hl, ← h]
        rfl

theorem decodeRows_any (t : JSyn) (e : Option (List ExpRow)) (h : decodeRows t = .ok e) :
    decodeAny t = .ok (expectedValue e) := by
  cases t with
  | null =>
    rw [decodeRows] at h
    simp only [Except.ok.injEq] at h
    rw [← h, decodeAny_null]; rfl
  | arr xs =>
    rw [decodeRows] at h
    rw [decodeAny_arr_eq]
    cases hm : decodeRowList xs with
    | error err => rw [hm] at h; cases h
    | ok rs =>
      rw [hm] at h
      simp only [Except.ok.injEq] at h
      rw [decodeRowList_any xs rs hm, ← h]; rfl
  | bool b => rw [decodeRows] at h; cases h
  | num n => rw [decodeRows] at h; cases h
  | str s => rw [decodeRows] at h; cases h
  | obj kvs => rw [decodeRows] at h; cases h

/-- The typed decoding of the expected text is the untyped one, restricted in shape. -/
theorem unmarshalRows_any (s : String) (e : Option (List ExpRow))
    (h : unmarshalRows s = .ok e) : unmarshalAny s = .ok (expectedValue e) := by
  unfold unmarshalRows at h
  unfold unmarshalAny
  cases hp : parseJSON s.data with
  | error err => rw [hp] at h; cases h
  | ok t =>
    rw [hp] at h
    simp only at h ⊢
    exact decodeRows_any t e h

theorem expectedValue_decoded (s : String) (e : Option (List ExpRow))
    (h : unmarshalRows s = .ok e) :
    (expectedValue e).decoded = true ∧ (expectedValue e).depth ≤ maxNestingDepth :=
  unmarshalAny_sound s _ (unmarshalRows_any s e h)

/-! ## The comparison of runCheck -/

theorem string_mk_ne_empty (t : List Char) (h : 1 ≤ t.length) : String.mk t ≠ "" := by
  intro e
  have := congrArg String.data e
  simp only at this
  rw [this] at h
  exact absurd h (by decide)

/-- The two texts runCheck compares are equal exactly when the rows can be encoded and, with
their integers converted to float64, are the decoded expected value. -/
theorem compare_iff (results : List Row) (s : String) (expected : Option (List ExpRow))
    (hgood : ∀ r ∈ results, GoodRow r) (hexp : unmarshalRows s = .ok expected) :
    normalizeJSON (marshalString (resultsValue results))
        = normalizeJSON (marshalString (expectedValue expected)) ↔
      (resultsValue results).supported = true ∧
        (resultsValue results).canon = expectedValue expected := by
  obtain ⟨hdec, hdep⟩ := expectedValue_decoded s expected hexp
  obtain ⟨hve, hse, _⟩ := decoded_props _ hdec
  have hv := resultsValue_valid results hgood
  have hd := resultsValue_depth results
  rw [normalizeJSON_decoded _ hdec hdep, marshalString_supported _ hse]
  cases hs : (resultsValue results).supported with
  | true =>
    rw [normalizeJSON_encode _ hv hs hd]
    have hc := canon_decoded _ hv hs
    constructor
    · intro h
      have h' : (resultsValue results).canon.encode = (expectedValue expected).encode := by
        have := congrArg String.data h
        exact this
      exact ⟨rfl, encode_inj _ _ hc.1 hdec (le_trans hc.2 hd) hdep h'⟩
    · intro h
      rw [h.2]
  | false =>
    rw [marshalString_unsupported _ hs, normalizeJSON_empty]
    constructor
    · intro h
      exact absurd h.symm (string_mk_ne_empty _ (encode_length_pos _ hve hse))
    · intro h
      exact absurd h.1 (by simp)

theorem canon_rowToJV (r : Row) : r.toJV.canon = .obj (canonRow r) := by
  unfold Row.toJV canonRow
  rw [JV.canon]

theorem canonList_rows : ∀ (rs : List Row) (es : List ExpRow),
    canonList (rs.map Row.toJV) = es.map ExpRow.toJV →
    es = rs.map (fun r => some (canonRow r))
  | [], [], _ => rfl
  | [], e :: es, h => by
    rw [List.map_nil, canonList, List.map_cons] at h
    cases h
  | r :: rs, [], h => by
    rw [List.map_cons, canonList, List.map_nil] at h
    cases h
  | r :: rs, e :: es, h => by
    rw [List.map_cons, canonList, List.map_cons, canon_rowToJV] at h
    simp only [List.cons.injEq] at h
    have ih := canonList_rows rs es h.2
    rw [List.map_cons, ← ih]
    cases e with
    | none => rw [ExpRow.toJV] at h; cases h.1
    | some m =>
      rw [ExpRow.toJV] at h
      have := h.1
      simp only [JV.obj.injEq] at this
      rw [this]

/-- The rows behind an equal comparison: the expected rows are the actual rows with their
integers converted to float64. -/
theorem canon_results (results : List Row) (expected : Option (List ExpRow))
    (h : (resultsValue results).canon = expectedValue expected) :
    expectedRows expected = results.map (fun r => some (canonRow r)) := by
  cases results with
  | nil =>
    cases expected with
    | none => rfl
    | some es =>
      unfold resultsValue expectedValue at h
      simp only at h
      rw [JV.canon] at h
      cases h
  | cons r rs =>
    cases expected with
    | none =>
      unfold resultsValue expectedValue at h
      simp only at h
      rw [JV.canon] at h
      cases h
    | some es =>
      unfold resultsValue expectedValue at h
      simp only at h
      rw [JV.canon] at h
      simp only [JV.arr.injEq] at h
      exact canonList_rows (r :: rs) es h

/-! ## runCheck, branch by branch -/

theorem runCheck_query_error {σ : Type} (eng : Engine σ) (db db' : σ) (check : Check)
    (err : String) (hq : eng.query db check.Query = (.error err, db')) :
    runCheck eng db check = (⟨check.Name, false, "Query error: " ++ err, "", ""⟩, db') := by
  unfold runCheck
  rw [hq]

theorem runCheck_compare {σ : Type} (eng : Engine σ) (db db' : σ) (check : Check) (rows : Rows)
    (columns : List String) (results : List Row) (expected : Option (List ExpRow))
    (hq : eng.query db check.Query = (.ok rows, db')) (hc : rows.columns = .ok columns)
    (hr : collectRows columns rows.rows [] = .ok results)
    (he : unmarshalRows check.Expected = .ok expected) :
    runCheck eng db check =
      if normalizeJSON (marshalString (resultsValue results))
          = normalizeJSON (marshalString (expectedValue expected)) then
        (⟨check.Name, true, "Passed!", "", ""⟩, db')
      else
        (⟨check.Name, false, check.Description, marshalString (expectedValue expected),
          marshalString (resultsValue results)⟩, db') := by
  unfold runCheck
  rw [hq]
  simp only [hc, hr, he]

/-- Every branch of runCheck names the check; only the equal comparison passes. -/
theorem runCheck_cases {σ : Type} (eng : Engine σ) (db : σ) (check : Check) :
    (runCheck eng db check).1.CheckName = check.Name ∧
    ((runCheck eng db check).1.Passed = true →
      ∃ rows db' columns results expected,
        eng.query db check.Query = (.ok rows, db') ∧ rows.columns = .ok columns ∧
        collectRows columns rows.rows [] = .ok results ∧
        unmarshalRows check.Expected = .ok expected ∧
        normalizeJSON (marshalString (resultsValue results))
          = normalizeJSON (marshalString (expectedValue expected))) := by
  cases hq : eng.query db check.Query with
  | mk res db' =>
    cases res with
    | error err =>
      rw [runCheck_query_error eng db db' check err hq]
      exact ⟨rfl, fun h => absurd h (by simp)⟩
    | ok rows =>
      cases hc : rows.columns with
      | error err =>
        have : runCheck eng db check
            = (⟨check.Name, false, "Error getting columns: " ++ err, "", ""⟩, db') := by
          unfold runCheck; rw [hq]; simp only [hc]
        rw [this]
        exact ⟨rfl, fun h => absurd h (by simp)⟩
      | ok columns =>
        cases hr : collectRows columns rows.rows [] with
        | error err =>
          have : runCheck eng db check
              = (⟨check.Name, false, "Scan error: " ++ err, "", ""⟩, db') := by
            unfold runCheck; rw [hq]; simp only [hc, hr]
          rw [this]
          exact ⟨rfl, fun h => absurd h (by simp)⟩
        | ok results =>
          cases he : unmarshalRows check.Expected with
          | error err =>
            have : runCheck eng db check
                = (⟨check.Name, false, "Invalid expected JSON: " ++ err.Error, "", ""⟩, db') := by
              unfold runCheck; rw [hq]; simp only [hc, hr, he]
            rw [this]
            exact ⟨rfl, fun h => absurd h (by simp)⟩
          | ok expected =>
            rw [runCheck_compare eng db db' check rows columns results expected hq hc hr he]
            by_cases hcmp : normalizeJSON (marshalString (resultsValue results))
                = normalizeJSON (marshalString (expectedValue expected))
            · rw [if_pos hcmp]
              exact ⟨rfl, fun _ => ⟨rows, db', columns, results, expected, rfl,
                hc, hr, rfl, hcmp⟩⟩
            · rw [if_neg hcmp]
              exact ⟨rfl, fun h => absurd h (by simp)⟩

/-! ## The fuel of the scanner is enough -/

theorem skipWs_length : ∀ (cs : List Char), (skipWs cs).length ≤ cs.length
  | [] => by rw [skipWs]
  | c :: cs => by
    rw [skipWs]
    split
    · exact Nat.le_succ_of_le (skipWs_length cs)
    · exact Nat.le_refl _

theorem skipWs_cons_length (cs : List Char) (c : Char) (rest : List Char)
    (h : skipWs cs = c :: rest) : rest.length + 1 ≤ cs.length := by
  have := skipWs_length cs
  rw [h] at this
  exact this

theorem takeDigits_length : ∀ (cs : List Char), (takeDigits cs).2.length ≤ cs.length
  | [] => by rw [takeDigits]
  | c :: cs => by
    rw [takeDigits]
    split
    · exact Nat.le_succ_of_le (takeDigits_length cs)
    · exact Nat.le_refl _

theorem lexInt_length (cs ip r : List Char) (h : lexInt cs = some (ip, r)) :
    r.length < cs.length := by
  unfold lexInt at h
  split at h
  · cases h
  · next c rest =>
    split at h
    · simp only [Option.some.injEq, Prod.mk.injEq] at h
      rw [← h.2]; exact Nat.lt_succ_self _
    · split at h
      · simp only [Option.some.injEq, Prod.mk.injEq] at h
        rw [← h.2]
        exact Nat.lt_succ_of_le (takeDigits_length rest)
      · cases h

theorem lexFrac_length (cs fp r : List Char) (h : lexFrac cs = some (fp, r)) :
    r.length ≤ cs.length := by
  unfold lexFrac at h
  split at h
  · simp only [Option.some.injEq, Prod.mk.injEq] at h
    rw [← h.2]
  · next c rest =>
    split at h
    · split at h
      · cases h
      · simp only [Option.some.injEq] at h
        have := takeDigits_length rest
        rw [h] at this
        exact Nat.le_succ_of_le this
    · simp only [Option.some.injEq, Prod.mk.injEq] at h
      rw [← h.2]

theorem lexExp_length (cs : List Char) (e : Int) (r : List Char)
    (h : lexExp cs = some (e, r)) : r.length ≤ cs.length := by
  unfold lexExp at h
  split at h
  · simp only [Option.some.injEq, Prod.mk.injEq] at h
    rw [← h.2]
  · next c rest =>
    split at h
    · split at h
      · cases h
      · next s rest2 =>
        split at h
        · split at h
          · cases h
          · simp only [Option.some.injEq, Prod.mk.injEq] at h
            rw [← h.2]
            have := takeDigits_length rest2
            simp only [List.length_cons]
            omega
        · split at h
          · split at h
            · cases h
            · simp only [Option.some.injEq, Prod.mk.injEq] at h
              rw [← h.2]
              have := takeDigits_length rest2
              simp only [List.length_cons]
              omega
          · split at h
            · cases h
            · simp only [Option.some.injEq, Prod.mk.injEq] at h
              rw [← h.2]
              have := takeDigits_length (s :: rest2)
              simp only [List.length_cons] at this ⊢
              omega
    · simp only [Option.some.injEq, Prod.mk.injEq] at h
      rw [← h.2]

theorem lexUnsigned_length (neg : Bool) (cs : List Char) (n : NumLit) (r : List Char)
    (h : lexUnsigned neg cs = some (n, r)) : r.length < cs.length := by
  unfold lexUnsigned at h
  split at h
  · cases h
  · next ip r1 h1 =>
    split at h
    · cases h
    · next fp r2 h2 =>
      split at h
      · cases h
      · next e r3 h3 =>
        simp only [Option.some.injEq, Prod.mk.injEq] at h
        rw [← h.2]
        have a := lexInt_length cs ip r1 h1
        have b := lexFrac_length r1 fp r2 h2
        have c := lexExp_length r2 e r3 h3
        omega

theorem lexNumber_length (cs : List Char) (n : NumLit) (r : List Char)
    (h : lexNumber cs = some (n, r)) : r.length < cs.length := by
  unfold lexNumber at h
  split at h
  · cases h
  · next c rest =>
    split at h
    · have := lexUnsigned_length true rest n r h
      simp only [List.length_cons]
      omega
    · exact lexUnsigned_length false (c :: rest) n r h

theorem getHex4_length (cs : List Char) (u : Nat) (r : List Char)
    (h : getHex4 cs = some (u, r)) : r.length ≤ cs.length := by
  unfold getHex4 at h
  split at h
  · split at h
    · simp only [Option.some.injEq, Prod.mk.injEq] at h
      rw [← h.2]
      simp only [List.length_cons]
      omega
    · cases h
  · cases h

theorem getu4_length (cs : List Char) (u : Nat) (r : List Char)
    (h : getu4 cs = some (u, r)) : r.length ≤ cs.length := by
  unfold getu4 at h
  split at h
  · next b x rest =>
    split at h
    · have := getHex4_length rest u r h
      simp only [List.length_cons]
      omega
    · cases h
  · cases h

theorem lexEscape_length (cs : List Char) (x : Char) (r : List Char)
    (h : lexEscape cs = some (x, r)) : r.length < cs.length := by
  cases cs with
  | nil => rw [lexEscape] at h; cases h
  | cons e rest =>
    have key : r.length ≤ rest.length := by
      rw [lexEscape] at h
      by_cases h1 : e.toNat = 34
      · rw [if_pos h1] at h
        simp only [Option.some.injEq, Prod.mk.injEq] at h; rw [← h.2]
      rw [if_neg h1] at h
      by_cases h2 : e.toNat = 92
      · rw [if_pos h2] at h
        simp only [Option.some.injEq, Prod.mk.injEq] at h; rw [← h.2]
      rw [if_neg h2] at h
      by_cases h3 : e.toNat = 47
      · rw [if_pos h3] at h
        simp only [Option.some.injEq, Prod.mk.injEq] at h; rw [← h.2]
      rw [if_neg h3] at h
      by_cases h4 : e.toNat = 98
      · rw [if_pos h4] at h
        simp only [Option.some.injEq, Prod.mk.injEq] at h; rw [← h.2]
      rw [if_neg h4] at h
      by_cases h5 : e.toNat = 102
      · rw [if_pos h5] at h
        simp only [Option.some.injEq, Prod.mk.injEq] at h; rw [← h.2]
      rw [if_neg h5] at h
      by_cases h6 : e.toNat = 110
      · rw [if_pos h6] at h
        simp only [Option.some.injEq, Prod.mk.injEq] at h; rw [← h.2]
      rw [if_neg h6] at h
      by_cases h7 : e.toNat = 114
      · rw [if_pos h7] at h
        simp only [Option.some.injEq, Prod.mk.injEq] at h; rw [← h.2]
      rw [if_neg h7] at h
      by_cases h8 : e.toNat = 116
      · rw [if_pos h8] at h
        simp only [Option.some.injEq, Prod.mk.injEq] at h; rw [← h.2]
      rw [if_neg h8] at h
      by_cases h9 : e.toNat = 117
      · rw [if_pos h9] at h
        cases hg : getHex4 rest with
        | none => rw [hg] at h; cases h
        | some p =>
          obtain ⟨u, rest2⟩ := p
          rw [hg] at h
          have l2 := getHex4_length rest u rest2 hg
          simp only at h
          split at h
          · split at h
            · next l rest3 hu =>
              have l3 := getu4_length rest2 l rest3 hu
              split at h
              · simp only [Option.some.injEq, Prod.mk.injEq] at h
                rw [← h.2]; omega
              · simp only [Option.some.injEq, Prod.mk.injEq] at h
                rw [← h.2]; exact l2
            · simp only [Option.some.injEq, Prod.mk.injEq] at h
              rw [← h.2]; exact l2
          · simp only [Option.some.injEq, Prod.mk.injEq] at h
            rw [← h.2]; exact l2
      · rw [if_neg h9] at h
        cases h
    simp only [List.length_cons]
    omega

theorem lexString_length : ∀ (f : Nat) (cs acc s r : List Char),
    lexString f cs acc = some (s, r) → r.length < cs.length
  | 0, _, _, _, _, h => by rw [lexString] at h; cases h
  | _ + 1, [], _, _, _, h => by rw [lexString] at h; cases h
  | f + 1, c :: rest, acc, s, r, h => by
    rw [lexString] at h
    by_cases h1 : c.toNat = 34
    · rw [if_pos h1] at h
      simp only [Option.some.injEq, Prod.mk.injEq] at h
      rw [← h.2]; exact Nat.lt_succ_self _
    rw [if_neg h1] at h
    by_cases h2 : c.toNat = 92
    · rw [if_pos h2] at h
      cases he : lexEscape rest with
      | none => rw [he] at h; cases h
      | some p =>
        obtain ⟨x, rest2⟩ := p
        rw [he] at h
        simp only at h
        have a := lexEscape_length rest x rest2 he
        have b := lexString_length f rest2 (x :: acc) s r h
        simp only [List.length_cons]
        omega
    rw [if_neg h2] at h
    by_cases h3 : c.toNat < 32
    · rw [if_pos h3] at h; cases h
    rw [if_neg h3] at h
    have b := lexString_length f rest (c :: acc) s r h
    simp only [List.length_cons]
    omega

theorem expectLit_length (lit : List Char) (v : JSyn) (cs : List Char) (t : JSyn)
    (r : List Char) (hl : 0 < lit.length) (h : expectLit lit v cs = .ok (t, r)) :
    r.length < cs.length := by
  unfold expectLit at h
  split at h
  · next hp =>
    simp only [Except.ok.injEq, Prod.mk.injEq] at h
    rw [← h.2, List.length_drop]
    have := (List.isPrefixOf_iff_prefix.mp hp).length_le
    omega
  · cases h

/-- What the three scanners leave of the input is shorter than the input. -/
theorem parse_length (f : Nat) :
    (∀ d cs t r, parseValue f d cs = .ok (t, r) → r.length < cs.length) ∧
    (∀ d cs acc t r, parseElems f d cs acc = .ok (t, r) → r.length < cs.length) ∧
    (∀ d cs acc t r, parseMembers f d cs acc = .ok (t, r) → r.length < cs.length) := by
  induction f with
  | zero =>
    refine ⟨?_, ?_, ?_⟩
    · intro d cs t r h; rw [parseValue] at h; cases h
    · intro d cs acc t r h; rw [parseElems] at h; cases h
    · intro d cs acc t r h; rw [parseMembers] at h; cases h
  | succ f ih =>
    obtain ⟨ihV, ihE, ihM⟩ := ih
    refine ⟨?_, ?_, ?_⟩
    · intro d cs t r h
      rw [parseValue] at h
      split at h
      · cases h
      · next c rest hs =>
        have l0 := skipWs_cons_length cs c rest hs
        split at h
        · split at h
          · cases h
          · split at h
            · cases h
            · next c2 rest2 hs2 =>
              have l1 := skipWs_cons_length rest c2 rest2 hs2
              split at h
              · simp only [Except.ok.injEq, Prod.mk.injEq] at h
                rw [← h.2]; omega
              · have := ihM (d + 1) _ _ t r h
                simp only [List.length_cons] at this
                omega
        · split at h
          · split at h
            · cases h
            · split at h
              · cases h
              · next c2 rest2 hs2 =>
                have l1 := skipWs_cons_length rest c2 rest2 hs2
                split at h
                · simp only [Except.ok.injEq, Prod.mk.injEq] at h
                  rw [← h.2]; omega
                · have := ihE (d + 1) _ _ t r h
                  simp only [List.length_cons] at this
                  omega
          · split at h
            · split at h
              · next s r1 hl =>
                simp only [Except.ok.injEq, Prod.mk.injEq] at h
                have := lexString_length _ _ _ _ _ hl
                rw [← h.2]; omega
              · cases h
            · split at h
              · have := expectLit_length _ _ _ t r (by decide) h
                simp only [List.length_cons] at this
                omega
              · split at h
                · have := expectLit_length _ _ _ t r (by decide) h
                  simp only [List.length_cons] at this
                  omega
                · split at h
                  · have := expectLit_length _ _ _ t r (by decide) h
                    simp only [List.length_cons] at this
                    omega
                  · split at h
                    · next n r1 hl =>
                      simp only [Except.ok.injEq, Prod.mk.injEq] at h
                      have := lexNumber_length _ _ _ hl
                      simp only [List.length_cons] at this
                      rw [← h.2]; omega
                    · cases h
    · intro d cs acc t r h
      rw [parseElems] at h
      split at h
      · cases h
      · next v r1 hv =>
        have l0 := ihV d cs v r1 hv
        split at h
        · cases h
        · next c rest hs =>
          have l1 := skipWs_cons_length r1 c rest hs
          split at h
          · have := ihE d rest (v :: acc) t r h
            omega
          · split at h
            · simp only [Except.ok.injEq, Prod.mk.injEq] at h
              rw [← h.2]; omega
            · cases h
    · intro d cs acc t r h
      rw [parseMembers] at h
      split at h
      · cases h
      · next q rest hs =>
        have l0 := skipWs_cons_length cs q rest hs
        split at h
        · split at h
          · cases h
          · next k r1 hl =>
            have l1 := lexString_length _ _ _ _ _ hl
            split at h
            · cases h
            · next c r2 hs2 =>
              have l2 := skipWs_cons_length r1 c r2 hs2
              split at h
              · split at h
                · cases h
                · next v r3 hv =>
                  have l3 := ihV d r2 v r3 hv
                  split at h
                  · cases h
                  · next c3 r4 hs3 =>
                    have l4 := skipWs_cons_length r3 c3 r4 hs3
                    split at h
                    · have := ihM d r4 ((k, v) :: acc) t r h
                      omega
                    · split at h
                      · simp only [Except.ok.injEq, Prod.mk.injEq] at h
                        rw [← h.2]; omega
                      · cases h
              · cases h
        · cases h

theorem expectLit_ne_fuel (lit : List Char) (v : JSyn) (cs : List Char) :
    expectLit lit v cs ≠ .error .fuel := by
  unfold expectLit
  split
  · intro h; cases h
  · intro h; cases h

/-- With fuel for twice the length of the input, the three scanners do not run out of it. -/
theorem parse_fuel (f : Nat) :
    (∀ d cs, 2 * cs.length + 1 ≤ f → parseValue f d cs ≠ .error .fuel) ∧
    (∀ d cs acc, 2 * cs.length + 2 ≤ f → parseElems f d cs acc ≠ .error .fuel) ∧
    (∀ d cs acc, 2 * cs.length + 1 ≤ f → parseMembers f d cs acc ≠ .error .fuel) := by
  induction f with
  | zero =>
    refine ⟨?_, ?_, ?_⟩
    · intro d cs h; omega
    · intro d cs acc h; omega
    · intro d cs acc h; omega
  | succ f ih =>
    obtain ⟨ihV, ihE, ihM⟩ := ih
    refine ⟨?_, ?_, ?_⟩
    · intro d cs hf h
      rw [parseValue] at h
      split at h
      · cases h
      · next c rest hs =>
        have l0 := skipWs_cons_length cs c rest hs
        split at h
        · split at h
          · cases h
          · split at h
            · cases h
            · next c2 rest2 hs2 =>
              have l1 := skipWs_cons_length rest c2 rest2 hs2
              split at h
              · cases h
              · refine ihM (d + 1) _ _ ?_ h
                simp only [List.length_cons]
                omega
        · split at h
          · split at h
            · cases h
            · split at h
              · cases h
              · next c2 rest2 hs2 =>
                have l1 := skipWs_cons_length rest c2 rest2 hs2
                split at h
                · cases h
                · refine ihE (d + 1) _ _ ?_ h
                  simp only [List.length_cons]
                  omega
          · split at h
            · split at h
              · cases h
              · cases h
            · split at h
              · exact expectLit_ne_fuel _ _ _ h
              · split at h
                · exact expectLit_ne_fuel _ _ _ h
                · split at h
                  · exact expectLit_ne_fuel _ _ _ h
                  · split at h
                    · cases h
                    · cases h
    · intro d cs acc hf h
      rw [parseElems] at h
      split at h
      · next e hv =>
        simp only [Except.error.injEq] at h
        rw [h] at hv
        exact ihV d cs (by omega) hv
      · next v r1 hv =>
        have l0 := (parse_length f).1 d cs v r1 hv
        split at h
        · cases h
        · next c rest hs =>
          have l1 := skipWs_cons_length r1 c rest hs
          split at h
          · exact ihE d rest (v :: acc) (by omega) h
          · split at h
            · cases h
            · cases h
    · intro d cs acc hf h
      rw [parseMembers] at h
      split at h
      · cases h
      · next q rest hs =>
        have l0 := skipWs_cons_length cs q rest hs
        split at h
        · split at h
          · cases h
          · next k r1 hl =>
            have l1 := lexString_length _ _ _ _ _ hl
            split at h
            · cases h
            · next c r2 hs2 =>
              have l2 := skipWs_cons_length r1 c r2 hs2
              split at h
              · split at h
                · next e hv =>
                  simp only [Except.error.injEq] at h
                  rw [h] at hv
                  exact ihV d r2 (by omega) hv
                · next v r3 hv =>
                  have l3 := (parse_length f).1 d r2 v r3 hv
                  split at h
                  · cases h
                  · next c3 r4 hs3 =>
                    have l4 := skipWs_cons_length r3 c3 r4 hs3
                    split at h
                    · exact ihM d r4 ((k, v) :: acc) (by omega) h
                    · split at h
                      · cases h
                      · cases h
              · cases h
        · cases h

/-- The scanner never stops for lack of fuel: an error of parseJSON is an error of the text. -/
theorem parseJSON_ne_fuel (cs : List Char) : parseJSON cs ≠ .error .fuel := by
  unfold parseJSON
  intro h
  split at h
  · next e hv =>
    simp only [Except.error.injEq] at h
    rw [h] at hv
    exact (parse_fuel _).1 0 cs (by omega) hv
  · split at h
    · cases h
    · cases h

set_option maxRecDepth 100000
set_option exponentiation.threshold 5000


/-! ## The grading loop -/

theorem gradeLoop_eq {σ : Type} (eng : Engine σ) : ∀ (checks : List Check) (db : σ)
    (result : GradeResult), gradeLoop eng db checks result =
      ⟨result.ExerciseID, result.Passed && (checkResults eng db checks).all (fun d => d.Passed),
        result.Message, result.Details ++ checkResults eng db checks⟩
  | [], db, result => by
    rw [gradeLoop, checkResults]
    simp
  | check :: rest, db, result => by
    rw [gradeLoop, gradeLoop_eq eng rest, checkResults]
    simp only [List.all_cons, List.append_assoc, List.singleton_append]
    cases (runCheck eng db check).1.Passed <;> cases result.Passed <;> simp

theorem checkResults_names {σ : Type} (eng : Engine σ) : ∀ (checks : List Check) (db : σ),
    (checkResults eng db checks).map (fun d => d.CheckName) = checks.map (fun c => c.Name)
  | [], db => by rw [checkResults]; rfl
  | check :: rest, db => by
    rw [checkResults, List.map_cons, List.map_cons, checkResults_names eng rest,
      (runCheck_cases eng db check).1]

theorem gradeExercise_graded {σ : Type} (fs : FS) (connect : Except String σ) (eng : Engine σ)
    (exerciseID : String) (exercise : Exercise) (result : GradeResult)
    (h : gradeExercise fs connect eng exerciseID = .graded exercise result) :
    ∃ db, prepare fs connect eng exerciseID = .ok (exercise, db) ∧
      result = gradeLoop eng db exercise.Checks ⟨exerciseID, true, "", []⟩ := by
  unfold gradeExercise at h
  cases hp : prepare fs connect eng exerciseID with
  | error msg => rw [hp] at h; cases h
  | ok p =>
    obtain ⟨ex, db⟩ := p
    rw [hp] at h
    simp only [Outcome.graded.injEq] at h
    exact ⟨db, by rw [h.1], by rw [← h.2, h.1]⟩

theorem gradeExercise_of_prepare {σ : Type} (fs : FS) (connect : Except String σ)
    (eng : Engine σ) (exerciseID : String) (exercise : Exercise) (db : σ)
    (h : prepare fs connect eng exerciseID = .ok (exercise, db)) :
    gradeExercise fs connect eng exerciseID
      = .graded exercise (gradeLoop eng db exercise.Checks ⟨exerciseID, true, "", []⟩) := by
  unfold gradeExercise
  rw [h]

/-- C1: the result gradeExercise builds has Passed = true exactly when every CheckResult in
its Details has Passed = true; with zero checks it is true. -/
theorem passed_iff_every_detail_passed {σ : Type} (fs : FS) (connect : Except String σ)
    (eng : Engine σ) (exerciseID : String) (exercise : Exercise) (result : GradeResult)
    (h : gradeExercise fs connect eng exerciseID = .graded exercise result) :
    (result.Passed = true ↔ ∀ d ∈ result.Details, d.Passed = true) ∧
      (exercise.Checks = [] → result.Passed = true) := by
  obtain ⟨db, _, hr⟩ := gradeExercise_graded fs connect eng exerciseID exercise result h
  rw [hr, gradeLoop_eq]
  have hall : ∀ ds : List CheckResult,
      ((true && ds.all (fun d => d.Passed)) = true ↔ ∀ d ∈ [] ++ ds, d.Passed = true) := by
    intro ds
    rw [Bool.true_and, List.nil_append, List.all_eq_true]
  refine ⟨hall _, ?_⟩
  intro hc
  rw [hc, checkResults]
  rfl

/-- C2: once setup and solution have run, gradeExercise ends with one CheckResult per Check,
in declaration order and under the check's name, whatever the checks before it did. -/
theorem one_result_per_check {σ : Type} (fs : FS) (connect : Except String σ) (eng : Engine σ)
    (exerciseID : String) (exercise : Exercise) (db : σ)
    (h : prepare fs connect eng exerciseID = .ok (exercise, db)) :
    ∃ result, gradeExercise fs connect eng exerciseID = .graded exercise result ∧
      result.Details.length = exercise.Checks.length ∧
      result.Details.map (fun d => d.CheckName) = exercise.Checks.map (fun c => c.Name) ∧
      result.Details = checkResults eng db exercise.Checks := by
  refine ⟨_, gradeExercise_of_prepare fs connect eng exerciseID exercise db h, ?_⟩
  rw [gradeLoop_eq]
  have hn := checkResults_names eng exercise.Checks db
  have hl := congrArg List.length hn
  rw [List.length_map, List.length_map] at hl
  exact ⟨hl, hn, rfl⟩

/-- C7: a query that fails with the engine error `e` gives the check's name, Passed = false,
the message `Query error: ` followed by `e`, and empty Expected and Got, whatever the expected
text is. -/
theorem query_error_result {σ : Type} (eng : Engine σ) (db db' : σ) (check : Check) (e : String)
    (hq : eng.query db check.Query = (.error e, db')) :
    (runCheck eng db check).1 = ⟨check.Name, false, "Query error: " ++ e, "", ""⟩ := by
  rw [runCheck_query_error eng db db' check e hq]

/-- C8: normalizeJSON is idempotent on every string. -/
theorem normalizeJSON_idempotent (s : String) :
    normalizeJSON (normalizeJSON s) = normalizeJSON s :=
  normalizeJSON_idem s

/-! ## The catalog -/

theorem loadEntries_eq (fs : FS) : ∀ (entries : List DirEntry) (exercises : List Exercise),
    loadEntries fs entries exercises = exercises ++ catalogOf fs entries
  | [], exercises => by
    rw [loadEntries]
    simp [catalogOf]
  | entry :: rest, exercises => by
    rw [loadEntries]
    unfold catalogOf
    rw [List.filterMap_cons]
    cases hd : entry.IsDir with
    | false =>
      simp only [Bool.not_false, if_true, Bool.false_and, Bool.false_eq_true, if_false]
      exact loadEntries_eq fs rest exercises
    | true =>
      cases hh : hasDotPrefix entry.Name with
      | true =>
        simp only [Bool.not_true, Bool.false_eq_true, if_false, if_true, Bool.and_false]
        exact loadEntries_eq fs rest exercises
      | false =>
        simp only [Bool.not_true, Bool.false_eq_true, if_false, Bool.not_false, Bool.and_self,
          if_true]
        cases hr : fs.readFile ["exercises", entry.Name, "config.json"] with
        | error err =>
          simp only
          exact loadEntries_eq fs rest exercises
        | ok data =>
          simp only
          cases hu : unmarshalExercise data with
          | error err =>
            simp only
            exact loadEntries_eq fs rest exercises
          | ok exercise =>
            simp only
            rw [loadEntries_eq fs rest (exercises ++ [exercise])]
            unfold catalogOf
            simp

/-- C9: for every listing of the catalog directory, loadExercises returns without error
exactly the exercises decoded from the entries that are directories, are not hidden and have a
readable definition that decodes, in listing order; a missing or malformed definition is
skipped. -/
theorem loadExercises_catalog (fs : FS) (entries : List DirEntry)
    (h : fs.readDir ["exercises"] = .ok entries) :
    loadExercises fs = .ok (catalogOf fs entries) := by
  unfold loadExercises
  rw [h]
  simp only
  rw [loadEntries_eq]
  rfl


theorem loadExercise_iff (fs : FS) (id : String) (ex : Exercise) :
    loadExercise fs id = .ok ex ↔
      ∃ data, fs.readFile ["exercises", id, "config.json"] = .ok data ∧
        unmarshalExercise data = .ok ex := by
  unfold loadExercise
  cases hr : fs.readFile ["exercises", id, "config.json"] with
  | error err =>
    simp only
    constructor
    · intro h; cases h
    · rintro ⟨data, h, _⟩; cases h
  | ok data =>
    simp only
    cases hu : unmarshalExercise data with
    | error err =>
      simp only
      constructor
      · intro h; cases h
      · rintro ⟨data', h, h'⟩
        simp only [Except.ok.injEq] at h
        rw [← h, hu] at h'
        cases h'
    | ok exercise =>
      simp only
      constructor
      · intro h
        simp only [Except.ok.injEq] at h
        exact ⟨data, rfl, by rw [hu, h]⟩
      · rintro ⟨data', h, h'⟩
        simp only [Except.ok.injEq] at h
        rw [← h, hu] at h'
        simp only [Except.ok.injEq] at h'
        rw [h']

/-- The text of a definition that has the single member `id`. -/
theorem unmarshalExercise_id (s : String) :
    unmarshalExercise (String.mk (JV.encode (.obj [("id".data, .str s.data)])))
      = .ok { zeroExercise with ID := s } := by
  have hv : (JV.obj [("id".data, .str s.data)]).valid = true := by
    rw [JV.valid, sortedKeys, validMembers, validMembers, JV.valid]; rfl
  have hs : (JV.obj [("id".data, .str s.data)]).supported = true := by
    rw [JV.supported, supportedMembers, supportedMembers, JV.supported]; rfl
  have hd : (JV.obj [("id".data, .str s.data)]).depth ≤ maxNestingDepth := by
    rw [JV.depth, depthMembers, depthMembers, JV.depth]; decide
  have hp := parseJSON_encode _ hv hs hd
  unfold unmarshalExercise
  simp only
  rw [hp, JV.syn, synMembers, synMembers, JV.syn]
  rfl

/-! ## Numbers -/

/-- An integer of at most 53 bits is a float64. -/
theorem roundMag_int_exact (n : Nat) (h : n ≤ 2 ^ 53) : roundMag n 1 = twoPow1074 * n := by
  have e1 : roundMag n 1 = roundMag (n * twoPow1074) (1 * twoPow1074) :=
    (roundMag_scale n 1 twoPow1074 twoPow1074_pos).symm
  rw [e1, Nat.one_mul, Nat.mul_comm twoPow1074 n]
  rcases Nat.lt_or_ge n (2 ^ 53) with hlt | hge
  · rw [twoPow1074_eq]
    apply roundMag_of_mul_pow
    have h1 : n * 2 ^ 1074 < 2 ^ (53 + 1074) := by
      rw [pow_add]; exact Nat.mul_lt_mul_of_pos_right hlt (Nat.two_pow_pos _)
    have := bitLen_le_of_lt h1
    omega
  · have hn : n = 2 ^ 53 := le_antisymm h hge
    have e2 : n * twoPow1074 = 1 * 2 ^ 1127 := by
      rw [hn, twoPow1074_eq, ← pow_add, Nat.one_mul]
    rw [e2]
    apply roundMag_of_mul_pow
    have h1 : 1 * 2 ^ 1127 < 2 ^ 1128 := by
      rw [Nat.one_mul]; exact Nat.pow_lt_pow_right (by norm_num) (by norm_num)
    have := bitLen_le_of_lt h1
    omega

/-- An integer whose exact value is a float64 converts to it. -/
theorem roundMag_int_valid (n : Nat) (h : validMag (twoPow1074 * n) = true) :
    roundMag n 1 = twoPow1074 * n := by
  have e1 : roundMag n 1 = roundMag (n * twoPow1074) (1 * twoPow1074) :=
    (roundMag_scale n 1 twoPow1074 twoPow1074_pos).symm
  rw [e1, Nat.one_mul, Nat.mul_comm n twoPow1074]
  exact ((validMag_iff _).mp h).1

/-! ## The ID of a definition -/

theorem decodeString_id (old : String) (v : JSyn) (s : String) (rest : List (List Char × JSyn))
    (k : List Char) (hk : fieldMatch k "id" = true) (h : decodeString old v = .ok s) :
    memberID ((k, v) :: rest) old = memberID rest s := by
  rw [memberID, if_pos hk]
  cases v with
  | str t =>
    rw [decodeString] at h
    simp only [Except.ok.injEq] at h
    rw [← h, memberValue]
  | null =>
    rw [decodeString] at h
    simp only [Except.ok.injEq] at h
    rw [← h, memberValue]
  | bool b => rw [decodeString] at h; cases h
  | num n => rw [decodeString] at h; cases h
  | arr xs => rw [decodeString] at h; cases h
  | obj kvs => rw [decodeString] at h; cases h

theorem memberID_skip (k : List Char) (v : JSyn) (rest : List (List Char × JSyn))
    (cur : String) (hk : ¬ fieldMatch k "id" = true) :
    memberID ((k, v) :: rest) cur = memberID rest cur := by
  rw [memberID, if_neg hk]

/-- The ID of the Exercise the members decode to is the ID they give. -/
theorem decodeExerciseFields_id : ∀ (kvs : List (List Char × JSyn)) (ex : Exercise)
    (stale : List Check) (ex' : Exercise) (stale' : List Check),
    decodeExerciseFields kvs (ex, stale) = .ok (ex', stale') → ex'.ID = memberID kvs ex.ID
  | [], ex, stale, ex', stale', h => by
    rw [decodeExerciseFields] at h
    simp only [Except.ok.injEq, Prod.mk.injEq] at h
    rw [memberID, h.1]
  | (k, v) :: rest, ex, stale, ex', stale', h => by
    rw [decodeExerciseFields] at h
    by_cases h1 : fieldMatch k "id" = true
    · rw [if_pos h1] at h
      cases hd : decodeString ex.ID v with
      | error e => rw [hd] at h; cases h
      | ok s =>
        rw [hd] at h
        simp only at h
        rw [decodeString_id ex.ID v s rest k h1 hd]
        have key := decodeExerciseFields_id rest _ stale ex' stale' h
        exact key
    rw [if_neg h1] at h
    rw [memberID_skip k v rest ex.ID h1]
    by_cases h2 : fieldMatch k "name" = true
    · rw [if_pos h2] at h
      cases hd : decodeString ex.Name v with
      | error e => rw [hd] at h; cases h
      | ok s =>
        rw [hd] at h
        simp only at h
        have key := decodeExerciseFields_id rest _ stale ex' stale' h
        exact key
    rw [if_neg h2] at h
    by_cases h3 : fieldMatch k "description" = true
    · rw [if_pos h3] at h
      cases hd : decodeString ex.Description v with
      | error e => rw [hd] at h; cases h
      | ok s =>
        rw [hd] at h
        simp only at h
        have key := decodeExerciseFields_id rest _ stale ex' stale' h
        exact key
    rw [if_neg h3] at h
    by_cases h4 : fieldMatch k "setup_sql" = true
    · rw [if_pos h4] at h
      cases hd : decodeString ex.SetupSQL v with
      | error e => rw [hd] at h; cases h
      | ok s =>
        rw [hd] at h
        simp only at h
        have key := decodeExerciseFields_id rest _ stale ex' stale' h
        exact key
    rw [if_neg h4] at h
    by_cases h5 : fieldMatch k "solution_sql" = true
    · rw [if_pos h5] at h
      cases hd : decodeString ex.SolutionSQL v with
      | error e => rw [hd] at h; cases h
      | ok s =>
        rw [hd] at h
        simp only at h
        have key := decodeExerciseFields_id rest _ stale ex' stale' h
        exact key
    rw [if_neg h5] at h
    by_cases h6 : fieldMatch k "checks" = true
    · rw [if_pos h6] at h
      cases hd : decodeChecks (ex.Checks, stale) v with
      | error e => rw [hd] at h; cases h
      | ok p =>
        obtain ⟨cs, st⟩ := p
        rw [hd] at h
        simp only at h
        have key := decodeExerciseFields_id rest _ st ex' stale' h
        exact key
    rw [if_neg h6] at h
    exact decodeExerciseFields_id rest ex stale ex' stale' h

theorem decodeExercise_id (t : JSyn) (ex : Exercise) (h : decodeExercise t = .ok ex) :
    ex.ID = definitionID t := by
  cases t with
  | null =>
    rw [decodeExercise] at h
    simp only [Except.ok.injEq] at h
    rw [← h, definitionID]
    rfl
  | obj kvs =>
    rw [decodeExercise] at h
    cases hd : decodeExerciseFields kvs (zeroExercise, []) with
    | error e => rw [hd] at h; cases h
    | ok p =>
      obtain ⟨ex1, st⟩ := p
      rw [hd] at h
      simp only [Except.ok.injEq] at h
      rw [← h, definitionID]
      exact decodeExerciseFields_id kvs zeroExercise [] ex1 st hd
  | bool b => rw [decodeExercise] at h; cases h
  | num n => rw [decodeExercise] at h; cases h
  | str s => rw [decodeExercise] at h; cases h
  | arr xs => rw [decodeExercise] at h; cases h

theorem unmarshalExercise_iff (data : String) (ex : Exercise) :
    unmarshalExercise data = .ok ex ↔
      ∃ t, parseJSON data.data = .ok t ∧ decodeExercise t = .ok ex := by
  unfold unmarshalExercise
  cases hp : parseJSON data.data with
  | error e =>
    simp only
    constructor
    · intro h; cases h
    · rintro ⟨t, h, _⟩; cases h
  | ok t =>
    simp only
    constructor
    · intro h; exact ⟨t, rfl, h⟩
    · rintro ⟨t', h, h'⟩
      simp only [Except.ok.injEq] at h
      rw [h]; exact h'

/-- What loadExercise returns, and where its ID comes from. -/
theorem loadExercise_definition (fs : FS) (id : String) :
    (∀ ex, loadExercise fs id = .ok ex ↔
        ∃ data t, fs.readFile ["exercises", id, "config.json"] = .ok data ∧
          parseJSON data.data = .ok t ∧ decodeExercise t = .ok ex) ∧
    (∀ ex, loadExercise fs id = .ok ex →
        ∃ data t, fs.readFile ["exercises", id, "config.json"] = .ok data ∧
          parseJSON data.data = .ok t ∧ ex.ID = definitionID t) ∧
    (∀ s : String, fs.readFile ["exercises", id, "config.json"]
          = .ok (String.mk (JV.encode (.obj [("id".data, .str s.data)]))) →
        loadExercise fs id = .ok { zeroExercise with ID := s }) := by
  have h1 : ∀ ex, loadExercise fs id = .ok ex ↔
      ∃ data t, fs.readFile ["exercises", id, "config.json"] = .ok data ∧
        parseJSON data.data = .ok t ∧ decodeExercise t = .ok ex := by
    intro ex
    rw [loadExercise_iff]
    constructor
    · rintro ⟨data, hr, hu⟩
      obtain ⟨t, hp, hd⟩ := (unmarshalExercise_iff data ex).mp hu
      exact ⟨data, t, hr, hp, hd⟩
    · rintro ⟨data, t, hr, hp, hd⟩
      exact ⟨data, hr, (unmarshalExercise_iff data ex).mpr ⟨t, hp, hd⟩⟩
  refine ⟨h1, ?_, ?_⟩
  · intro ex h
    obtain ⟨data, t, hr, hp, hd⟩ := (h1 ex).mp h
    exact ⟨data, t, hr, hp, decodeExercise_id t ex hd⟩
  · intro s h
    exact (loadExercise_iff fs id _).mpr ⟨_, h, unmarshalExercise_id s⟩

/-! ## Rows that are the same -/

theorem decodedList_iff : ∀ (xs : List JV), decodedList xs = true ↔ ∀ x ∈ xs, x.decoded = true
  | [] => by
    rw [decodedList]
    exact ⟨fun _ p hp => absurd hp (List.not_mem_nil p), fun _ => rfl⟩
  | x :: xs => by rw [decodedList, Bool.and_eq_true, decodedList_iff xs, List.forall_mem_cons]

/-- A column value that is the same as a decoded value can be encoded, and is the same as its
own conversion. -/
theorem sameValue_props (s : Scalar) (v : JV) (hv : v.decoded = true)
    (h : sameValue s v = true) :
    s.toJV.valid = true ∧ s.toJV.supported = true ∧ sameValue s s.toJV.canon = true := by
  cases s with
  | null =>
    rw [Scalar.toJV, JV.valid, JV.supported, JV.canon]
    exact ⟨rfl, rfl, rfl⟩
  | bool b =>
    rw [Scalar.toJV, JV.valid, JV.supported, JV.canon]
    refine ⟨rfl, rfl, ?_⟩
    unfold sameValue
    exact beq_self_eq_true b
  | int n =>
    cases v with
    | num f =>
      rw [JV.decoded] at hv
      unfold sameValue at h
      simp only [Bool.and_eq_true, decide_eq_true_eq] at h
      rw [h.1] at hv
      have e := roundMag_int_valid n.natAbs hv
      rw [Scalar.toJV, JV.valid, JV.supported, JV.canon]
      refine ⟨?_, rfl, ?_⟩
      · unfold intOk
        rw [decide_eq_true_eq, e]
        exact ((validMag_iff _).mp hv).2
      · unfold sameValue
        simp only [Bool.and_eq_true, decide_eq_true_eq, Bool.or_eq_true, beq_self_eq_true,
          true_or, and_true]
        exact e
    | null => exact absurd h Bool.false_ne_true
    | bool _ => exact absurd h Bool.false_ne_true
    | int _ => exact absurd h Bool.false_ne_true
    | nonFinite => exact absurd h Bool.false_ne_true
    | str _ => exact absurd h Bool.false_ne_true
    | arr _ => exact absurd h Bool.false_ne_true
    | obj _ => exact absurd h Bool.false_ne_true
  | float g =>
    cases v with
    | num f =>
      rw [JV.decoded] at hv
      unfold sameValue at h
      simp only [Bool.and_eq_true, decide_eq_true_eq] at h
      rw [h.1] at hv
      rw [Scalar.toJV, JV.valid, JV.supported, JV.canon]
      refine ⟨hv, rfl, ?_⟩
      unfold sameValue
      simp only [Bool.and_eq_true, decide_eq_true_eq, Bool.or_eq_true, beq_self_eq_true,
        true_or, and_true]
    | null => exact absurd h Bool.false_ne_true
    | bool _ => exact absurd h Bool.false_ne_true
    | int _ => exact absurd h Bool.false_ne_true
    | nonFinite => exact absurd h Bool.false_ne_true
    | str _ => exact absurd h Bool.false_ne_true
    | arr _ => exact absurd h Bool.false_ne_true
    | obj _ => exact absurd h Bool.false_ne_true
  | nonFinite => cases v <;> exact absurd h Bool.false_ne_true
  | text t =>
    rw [Scalar.toJV, JV.valid, JV.supported, JV.canon]
    refine ⟨rfl, rfl, ?_⟩
    unfold sameValue
    exact decide_eq_true rfl

/-- A column value that can be encoded, an integer of at most 53 bits if it is one, is the
same as its own conversion. -/
theorem sameValue_canon (s : Scalar) (hs : s.toJV.supported = true)
    (hb : ∀ n, s = .int n → n.natAbs ≤ 2 ^ 53) : sameValue s s.toJV.canon = true := by
  cases s with
  | null => rfl
  | bool b =>
    rw [Scalar.toJV, JV.canon]
    unfold sameValue
    exact beq_self_eq_true b
  | int n =>
    rw [Scalar.toJV, JV.canon]
    unfold sameValue
    simp only [Bool.and_eq_true, decide_eq_true_eq, Bool.or_eq_true, beq_self_eq_true,
      true_or, and_true]
    exact roundMag_int_exact _ (hb n rfl)
  | float g =>
    rw [Scalar.toJV, JV.canon]
    unfold sameValue
    simp only [Bool.and_eq_true, decide_eq_true_eq, Bool.or_eq_true, beq_self_eq_true,
      true_or, and_true]
  | nonFinite =>
    rw [Scalar.toJV, JV.supported] at hs
    exact absurd hs Bool.false_ne_true
  | text t =>
    rw [Scalar.toJV, JV.canon]
    unfold sameValue
    exact decide_eq_true rfl

theorem canonRow_cons (k : List Char) (s : Scalar) (r : Row) :
    canonRow ((k, s) :: r) = (k, s.toJV.canon) :: canonRow r := by
  unfold canonRow
  rw [List.map_cons, canonMembers]

theorem sameMembers_canonRow : ∀ (r : Row), (∀ p ∈ r, sameValue p.2 p.2.toJV.canon = true) →
    sameMembers r (canonRow r) = true
  | [], _ => rfl
  | (k, s) :: r, h => by
    rw [canonRow_cons, sameMembers, Bool.and_eq_true, Bool.and_eq_true]
    exact ⟨⟨decide_eq_true rfl, h (k, s) (List.mem_cons_self _ _)⟩,
      sameMembers_canonRow r (fun p hp => h p (List.mem_cons_of_mem _ hp))⟩

theorem sameRows_canon : ∀ (rs : List Row),
    (∀ r ∈ rs, ∀ p ∈ r, sameValue p.2 p.2.toJV.canon = true) →
    sameRows rs (rs.map (fun r => some (canonRow r))) = true
  | [], _ => rfl
  | r :: rs, h => by
    rw [List.map_cons, sameRows, Bool.and_eq_true]
    exact ⟨sameMembers_canonRow r (h r (List.mem_cons_self _ _)),
      sameRows_canon rs (fun q hq => h q (List.mem_cons_of_mem _ hq))⟩

theorem sameRows_mem : ∀ (rs : List Row) (es : List ExpRow), sameRows rs es = true →
    ∀ r ∈ rs, ∃ e ∈ es, sameRow r e = true
  | [], _, _ => fun r hr => absurd hr (List.not_mem_nil r)
  | r :: rs, [], h => absurd h Bool.false_ne_true
  | r :: rs, e :: es, h => by
    rw [sameRows, Bool.and_eq_true] at h
    intro q hq
    rcases List.mem_cons.mp hq with e1 | hq'
    · rw [e1]; exact ⟨e, List.mem_cons_self _ _, h.1⟩
    · obtain ⟨e', he', hs⟩ := sameRows_mem rs es h.2 q hq'
      exact ⟨e', List.mem_cons_of_mem _ he', hs⟩

theorem sameMembers_values : ∀ (r : Row) (m : List (List Char × JV)), sameMembers r m = true →
    r.map Prod.fst = m.map Prod.fst ∧ ∀ p ∈ r, ∃ q ∈ m, sameValue p.2 q.2 = true
  | [], [], _ => ⟨rfl, fun p hp => absurd hp (List.not_mem_nil p)⟩
  | [], _ :: _, h => absurd h Bool.false_ne_true
  | _ :: _, [], h => absurd h Bool.false_ne_true
  | (k, s) :: r, (k', v) :: m, h => by
    rw [sameMembers, Bool.and_eq_true, Bool.and_eq_true, decide_eq_true_eq] at h
    obtain ⟨ih1, ih2⟩ := sameMembers_values r m h.2
    refine ⟨by rw [List.map_cons, List.map_cons, ih1, h.1.1], ?_⟩
    intro p hp
    rcases List.mem_cons.mp hp with e1 | hp'
    · rw [e1]; exact ⟨(k', v), List.mem_cons_self _ _, h.1.2⟩
    · obtain ⟨q, hq, hs⟩ := ih2 p hp'
      exact ⟨q, List.mem_cons_of_mem _ hq, hs⟩

theorem sortedKeys_of_keys {α β : Type} : ∀ (a : List (List Char × α))
    (b : List (List Char × β)), a.map Prod.fst = b.map Prod.fst → sortedKeys a = sortedKeys b
  | [], [], _ => by rw [sortedKeys, sortedKeys]
  | [], _ :: _, h => by cases h
  | _ :: _, [], h => by cases h
  | [(k, v)], [(k', v')], _ => by rw [sortedKeys, sortedKeys]
  | [_], _ :: _ :: _, h => by
    rw [List.map_cons, List.map_cons, List.map_cons, List.map_nil] at h
    simp only [List.cons.injEq] at h
    exact absurd h.2 (by simp)
  | _ :: _ :: _, [_], h => by
    rw [List.map_cons, List.map_cons, List.map_cons, List.map_nil] at h
    simp only [List.cons.injEq] at h
    exact absurd h.2 (by simp)
  | (k, v) :: (k2, v2) :: a, (k', v') :: (k2', v2') :: b, h => by
    have h1 : k = k' ∧ k2 = k2' ∧ a.map Prod.fst = b.map Prod.fst := by
      simp only [List.map_cons, List.cons.injEq] at h
      exact h
    have ih := sortedKeys_of_keys ((k2, v2) :: a) ((k2', v2') :: b)
      (by rw [List.map_cons, List.map_cons, h1.2.1, h1.2.2])
    rw [sortedKeys, sortedKeys, ih, h1.1, h1.2.1]

/-- A row that is the same as a decoded row can be encoded, and is the same as its own
conversion. -/
theorem sameRow_props (r : Row) (m : List (List Char × JV)) (hm : (JV.obj m).decoded = true)
    (h : sameMembers r m = true) :
    GoodRow r ∧ (∀ p ∈ r, p.2.toJV.supported = true) ∧
      ∀ p ∈ r, sameValue p.2 p.2.toJV.canon = true := by
  rw [JV.decoded, Bool.and_eq_true, decodedMembers_iff] at hm
  obtain ⟨hk, hval⟩ := sameMembers_values r m h
  have hall : ∀ p ∈ r, p.2.toJV.valid = true ∧ p.2.toJV.supported = true ∧
      sameValue p.2 p.2.toJV.canon = true := by
    intro p hp
    obtain ⟨q, hq, hs⟩ := hval p hp
    exact sameValue_props p.2 q.2 (hm.2 q hq) hs
  refine ⟨⟨?_, fun p hp => (hall p hp).1⟩, fun p hp => (hall p hp).2.1,
    fun p hp => (hall p hp).2.2⟩
  rw [sortedKeys_of_keys r m hk]
  exact hm.1

theorem expectedRows_decoded (s : String) (expected : Option (List ExpRow))
    (he : unmarshalRows s = .ok expected) :
    ∀ m, some m ∈ expectedRows expected → (JV.obj m).decoded = true := by
  have hd := (expectedValue_decoded s expected he).1
  cases expected with
  | none => intro m hm; exact absurd hm (List.not_mem_nil _)
  | some es =>
    unfold expectedValue at hd
    simp only at hd
    rw [JV.decoded, decodedList_iff] at hd
    intro m hm
    exact hd (JV.obj m) (List.mem_map.mpr ⟨some m, hm, rfl⟩)

/-- Rows that are, in some order, the same as the decoded expected rows can be encoded, and
are the same as their own conversion. -/
theorem permuted_props (s : String) (expected : Option (List ExpRow)) (results rs : List Row)
    (he : unmarshalRows s = .ok expected) (hp : rs.Perm results)
    (hs : sameRows rs (expectedRows expected) = true) :
    ∀ r ∈ results, GoodRow r ∧ (∀ p ∈ r, p.2.toJV.supported = true) ∧
      ∀ p ∈ r, sameValue p.2 p.2.toJV.canon = true := by
  intro r hr
  obtain ⟨e, hmem, hsame⟩ := sameRows_mem rs _ hs r (hp.mem_iff.mpr hr)
  cases e with
  | none => exact absurd hsame Bool.false_ne_true
  | some m => exact sameRow_props r m (expectedRows_decoded s expected he m hmem) hsame

/-- When the comparison of runCheck succeeds on rows that are the same as their conversion,
the rows are the same as the decoded expected rows. -/
theorem sameRows_of_compare (s : String) (expected : Option (List ExpRow)) (results : List Row)
    (he : unmarshalRows s = .ok expected) (hgood : ∀ r ∈ results, GoodRow r)
    (hsame : ∀ r ∈ results, ∀ p ∈ r, sameValue p.2 p.2.toJV.canon = true)
    (h : normalizeJSON (marshalString (resultsValue results))
      = normalizeJSON (marshalString (expectedValue expected))) :
    sameRows results (expectedRows expected) = true := by
  have hc := ((compare_iff results s expected hgood he).mp h).2
  rw [canon_results results expected hc]
  exact sameRows_canon results hsame

theorem supported_rows (results : List Row)
    (h : (resultsValue results).supported = true) :
    ∀ r ∈ results, ∀ p ∈ r, p.2.toJV.supported = true := by
  cases results with
  | nil => intro r hr; exact absurd hr (List.not_mem_nil r)
  | cons r0 rs =>
    unfold resultsValue at h
    simp only at h
    rw [JV.supported, supportedList_iff] at h
    intro r hr p hp
    have h1 := h r.toJV (List.mem_map.mpr ⟨r, hr, rfl⟩)
    unfold Row.toJV at h1
    rw [JV.supported, supportedMembers_iff] at h1
    exact h1 (p.1, p.2.toJV) (List.mem_map.mpr ⟨p, hp, rfl⟩)

theorem encode_ne_nil (v : JV) (hv : v.valid = true) (hs : v.supported = true) :
    String.mk v.encode ≠ "" :=
  string_mk_ne_empty _ (encode_length_pos v hv hs)

/-! ## The claims about one check -/

theorem passed_agree {σ : Type} (eng : Engine σ) (db db' : σ) (check : Check) (rows : Rows)
    (hq : eng.query db check.Query = (.ok rows, db')) (hv : Rows.valid rows)
    (hp : (runCheck eng db check).1.Passed = true) :
    ∃ columns results expected,
      rows.columns = .ok columns ∧ collectRows columns rows.rows [] = .ok results ∧
      unmarshalRows check.Expected = .ok expected ∧
      expectedRows expected = results.map (fun r => some (canonRow r)) ∧
      ((∀ r ∈ results, ∀ p ∈ r, ∀ n, p.2 = .int n → n.natAbs ≤ 2 ^ 53) →
        sameRows results (expectedRows expected) = true) := by
  obtain ⟨rows', db'', columns, results, expected, hq', hc, hr, he, hcmp⟩ :=
    (runCheck_cases eng db check).2 hp
  rw [hq] at hq'
  simp only [Prod.mk.injEq, Except.ok.injEq] at hq'
  rw [← hq'.1] at hc hr
  have hgood : ∀ r ∈ results, GoodRow r :=
    collectRows_good columns rows.rows [] results hr hv
      (fun r hr => absurd hr (List.not_mem_nil r))
  have hc2 := (compare_iff results check.Expected expected hgood he).mp hcmp
  refine ⟨columns, results, expected, hc, hr, he, canon_results results expected hc2.2, ?_⟩
  intro hb
  exact sameRows_of_compare check.Expected expected results he hgood
    (fun r hr p hp => sameValue_canon p.2 (supported_rows results hc2.1 r hr p hp)
      (fun n hn => hb r hr p hp n hn)) hcmp

theorem permuted_fail {σ : Type} (eng : Engine σ) (db db' : σ) (check : Check) (rows : Rows)
    (columns : List String) (results : List Row) (expected : Option (List ExpRow))
    (hq : eng.query db check.Query = (.ok rows, db')) (hc : rows.columns = .ok columns)
    (hr : collectRows columns rows.rows [] = .ok results)
    (he : unmarshalRows check.Expected = .ok expected)
    (hperm : ∃ rs, rs.Perm results ∧ sameRows rs (expectedRows expected) = true)
    (hne : sameRows results (expectedRows expected) = false) :
    (runCheck eng db check).1.Passed = false := by
  obtain ⟨rs, hp, hs⟩ := hperm
  have hall := permuted_props check.Expected expected results rs he hp hs
  rw [runCheck_compare eng db db' check rows columns results expected hq hc hr he]
  by_cases hcmp : normalizeJSON (marshalString (resultsValue results))
      = normalizeJSON (marshalString (expectedValue expected))
  · have := sameRows_of_compare check.Expected expected results he
      (fun r hr => (hall r hr).1) (fun r hr => (hall r hr).2.2) hcmp
    rw [this] at hne
    exact absurd hne (by decide)
  · rw [if_neg hcmp]

theorem failed_fields {σ : Type} (eng : Engine σ) (db db' : σ) (check : Check) (rows : Rows)
    (columns : List String) (results : List Row) (expected : Option (List ExpRow))
    (hq : eng.query db check.Query = (.ok rows, db')) (hc : rows.columns = .ok columns)
    (hr : collectRows columns rows.rows [] = .ok results)
    (he : unmarshalRows check.Expected = .ok expected)
    (hne : normalizeJSON (marshalString (resultsValue results))
      ≠ normalizeJSON (marshalString (expectedValue expected))) :
    (runCheck eng db check).1 = ⟨check.Name, false, check.Description,
        marshalString (expectedValue expected), marshalString (resultsValue results)⟩ ∧
      normalizeJSON (marshalString (expectedValue expected))
        = marshalString (expectedValue expected) ∧
      marshalString (expectedValue expected) ≠ "" ∧
      marshalString (expectedValue expected) ≠ marshalString (resultsValue results) := by
  obtain ⟨hdec, hdep⟩ := expectedValue_decoded check.Expected expected he
  obtain ⟨hve, hse, _⟩ := decoded_props _ hdec
  refine ⟨?_, normalizeJSON_decoded _ hdec hdep, ?_, ?_⟩
  · rw [runCheck_compare eng db db' check rows columns results expected hq hc hr he,
      if_neg hne]
  · rw [marshalString_supported _ hse]
    exact encode_ne_nil _ hve hse
  · intro e
    exact hne (by rw [e])

/-- C3: a query that returns zero rows, checked against the expected text `[]`, does not
pass: the rows are marshalled as `null`, which is reported as Got. -/
theorem empty_rows_do_not_pass :
    runCheck (constEngine (.ok (columnX []))) ()
        ⟨"no-rows", "SELECT x FROM t", "[]", "t must be empty"⟩
      = (⟨"no-rows", false, "t must be empty", "[]", "null"⟩, ()) := by
  with_unfolding_all decide

/-- C4, as stated, fails: the integer 9007199254740993 of the engine passes a check whose expected
text holds 9007199254740992. -/
theorem passed_with_different_integers :
    (runCheck (constEngine (.ok (columnX [.int 9007199254740993]))) ()
        ⟨"big", "SELECT x FROM t", "[\x7b\"x\":9007199254740992\x7d]", "x is 2^53"⟩).1.Passed
        = true ∧
      collectRows ["x"] (columnX [.int 9007199254740993]).rows []
        = .ok [[("x".data, .int 9007199254740993)]] ∧
      unmarshalRows "[\x7b\"x\":9007199254740992\x7d]"
        = .ok (some [some [("x".data, .num ⟨false, twoPow1074 * 9007199254740992⟩)]]) ∧
      sameRows [[("x".data, .int 9007199254740993)]]
        [some [("x".data, .num ⟨false, twoPow1074 * 9007199254740992⟩)]] = false := by
  refine ⟨?_, ?_, ?_, ?_⟩
  · with_unfolding_all decide
  · with_unfolding_all rfl
  · with_unfolding_all rfl
  · with_unfolding_all decide

/-- C4, amended: when runCheck returns Passed = true on machine values, the query and the
decoding of Expected succeeded and the expected rows are, row by row, the actual rows with
every integer converted to the nearest float64: same length, same column names, same values
but for that conversion. When every integer is at most 2^53 in magnitude the rows are the
same; a number is never the same as a string. -/
theorem passed_rows_agree {σ : Type} (eng : Engine σ) (db db' : σ) (check : Check)
    (rows : Rows) (hq : eng.query db check.Query = (.ok rows, db')) (hv : Rows.valid rows)
    (hp : (runCheck eng db check).1.Passed = true) :
    ∃ columns results expected,
      rows.columns = .ok columns ∧ collectRows columns rows.rows [] = .ok results ∧
      unmarshalRows check.Expected = .ok expected ∧
      expectedRows expected = results.map (fun r => some (canonRow r)) ∧
      ((∀ r ∈ results, ∀ p ∈ r, ∀ n, p.2 = .int n → n.natAbs ≤ 2 ^ 53) →
        sameRows results (expectedRows expected) = true) :=
  passed_agree eng db db' check rows hq hv hp

/-- C5, as stated, fails: the rows 9007199254740993, 9007199254740992 of the engine are a
permutation of the rows 9007199254740992, 9007199254740993 that Expected writes, and not the
same sequence, yet the check passes: both integers become the float64 9007199254740992 before
the comparison. -/
theorem permuted_rows_pass :
    (runCheck (constEngine (.ok (columnX [.int 9007199254740993, .int 9007199254740992]))) ()
        ⟨"order", "SELECT x FROM t",
          "[\x7b\"x\":9007199254740992\x7d,\x7b\"x\":9007199254740993\x7d]",
          "x in order"⟩).1.Passed = true ∧
      collectRows ["x"] (columnX [.int 9007199254740993, .int 9007199254740992]).rows []
        = .ok [[("x".data, .int 9007199254740993)], [("x".data, .int 9007199254740992)]] ∧
      parseJSON "[\x7b\"x\":9007199254740992\x7d,\x7b\"x\":9007199254740993\x7d]".data
        = .ok (.arr [.obj [("x".data, .num ⟨false, 9007199254740992, 0⟩)],
            .obj [("x".data, .num ⟨false, 9007199254740993, 0⟩)]]) ∧
      List.Perm [[("x".data, Scalar.int 9007199254740993)], [("x".data, .int 9007199254740992)]]
        [[("x".data, .int 9007199254740992)], [("x".data, .int 9007199254740993)]] ∧
      [[("x".data, Scalar.int 9007199254740993)], [("x".data, .int 9007199254740992)]]
        ≠ [[("x".data, .int 9007199254740992)], [("x".data, .int 9007199254740993)]] := by
  refine ⟨?_, ?_, ?_, List.Perm.swap _ _ _, ?_⟩
  · with_unfolding_all decide
  · with_unfolding_all rfl
  · with_unfolding_all rfl
  · decide

/-- C5, amended: when the query succeeds and Expected parses, rows that are a permutation of
the rows Expected decodes to, every number of Expected being the nearest float64 and a value of
the engine being the same as a decoded value when the two are equal as numbers, but that are
not that sequence, give Passed = false. -/
theorem permuted_rows_fail {σ : Type} (eng : Engine σ) (db db' : σ) (check : Check)
    (rows : Rows) (columns : List String) (results : List Row)
    (expected : Option (List ExpRow))
    (hq : eng.query db check.Query = (.ok rows, db')) (hc : rows.columns = .ok columns)
    (hr : collectRows columns rows.rows [] = .ok results)
    (he : unmarshalRows check.Expected = .ok expected)
    (hperm : ∃ rs, rs.Perm results ∧ sameRows rs (expectedRows expected) = true)
    (hne : sameRows results (expectedRows expected) = false) :
    (runCheck eng db check).1.Passed = false :=
  permuted_fail eng db db' check rows columns results expected hq hc hr he hperm hne

/-- C6, as stated, fails: the Got of a failed check is the marshalled text of the rows, which
normalizeJSON changes before the comparison, and is empty when a value is NaN. -/
theorem got_is_not_canonical :
    (runCheck (constEngine (.ok (columnX [.int 9007199254740993]))) ()
        ⟨"big", "SELECT x FROM t", "[\x7b\"x\":1\x7d]", "x is 1"⟩).1
        = ⟨"big", false, "x is 1", "[\x7b\"x\":1\x7d]", "[\x7b\"x\":9007199254740993\x7d]"⟩ ∧
      normalizeJSON "[\x7b\"x\":9007199254740993\x7d]" = "[\x7b\"x\":9007199254740992\x7d]" ∧
      (runCheck (constEngine (.ok (columnX [.nonFinite]))) ()
        ⟨"nan", "SELECT x FROM t", "[\x7b\"x\":1\x7d]", "x is 1"⟩).1
        = ⟨"nan", false, "x is 1", "[\x7b\"x\":1\x7d]", ""⟩ := by
  refine ⟨?_, ?_, ?_⟩
  · with_unfolding_all decide
  · with_unfolding_all decide
  · with_unfolding_all decide

/-- C6, amended: when the query succeeds, Expected parses and the two canonical encodings
differ, runCheck returns Passed = false with the check's description; Expected is the
canonical expected encoding, which is not empty; Got is the marshalled text of the actual rows
before normalizeJSON; the two fields differ. -/
theorem failed_check_fields {σ : Type} (eng : Engine σ) (db db' : σ) (check : Check)
    (rows : Rows) (columns : List String) (results : List Row)
    (expected : Option (List ExpRow))
    (hq : eng.query db check.Query = (.ok rows, db')) (hc : rows.columns = .ok columns)
    (hr : collectRows columns rows.rows [] = .ok results)
    (he : unmarshalRows check.Expected = .ok expected)
    (hne : normalizeJSON (marshalString (resultsValue results))
      ≠ normalizeJSON (marshalString (expectedValue expected))) :
    (runCheck eng db check).1 = ⟨check.Name, false, check.Description,
        marshalString (expectedValue expected), marshalString (resultsValue results)⟩ ∧
      normalizeJSON (marshalString (expectedValue expected))
        = marshalString (expectedValue expected) ∧
      marshalString (expectedValue expected) ≠ "" ∧
      marshalString (expectedValue expected) ≠ marshalString (resultsValue results) :=
  failed_fields eng db db' check rows columns results expected hq hc hr he hne

/-- C10, as stated, fails: under the directory `a`, a definition whose `id` is `b` is accepted
with ID = `b`, and one without `id` is accepted with an empty ID. -/
theorem id_is_not_checked :
    loadExercise (catalogFS "a" "\x7b\"id\":\"b\"\x7d") "a" = .ok { zeroExercise with ID := "b" } ∧
      loadExercise (catalogFS "a" "\x7b\x7d") "a" = .ok zeroExercise ∧
      ({ zeroExercise with ID := "b" } : Exercise).ID ≠ "a" ∧ zeroExercise.ID ≠ "a" := by
  refine ⟨?_, ?_, ?_, ?_⟩
  · with_unfolding_all rfl
  · with_unfolding_all rfl
  · decide
  · decide

/-- C10, amended: loadExercise succeeds exactly when the definition file of the directory can
be read, is JSON text and decodes as an Exercise, and returns what it decodes to. The ID of
the result is never compared with the directory name: it is what the definition gives, the
string of the last member whose key is `id` in any letter case (a `null` member leaving it
alone), empty when there is none; so a definition that has only the member `id` with the
string `s` is accepted with ID = `s` in every directory. -/
theorem loadExercise_reads_definition (fs : FS) (id : String) :
    (∀ ex, loadExercise fs id = .ok ex ↔
        ∃ data t, fs.readFile ["exercises", id, "config.json"] = .ok data ∧
          parseJSON data.data = .ok t ∧ decodeExercise t = .ok ex) ∧
    (∀ ex, loadExercise fs id = .ok ex →
        ∃ data t, fs.readFile ["exercises", id, "config.json"] = .ok data ∧
          parseJSON data.data = .ok t ∧ ex.ID = definitionID t) ∧
    (∀ s : String, fs.readFile ["exercises", id, "config.json"]
          = .ok (String.mk (JV.encode (.obj [("id".data, .str s.data)]))) →
        loadExercise fs id = .ok { zeroExercise with ID := s }) :=
  loadExercise_definition fs id

/-! ## Instances -/

theorem passed_iff_every_detail_passed_witness :
    gradeExercise (catalogFS "a" sampleConfig) (.ok ()) (constEngine (.ok (columnX [.int 1])))
        "a"
      = .graded sampleExercise ⟨"a", false, "",
          [⟨"c1", false, "Invalid expected JSON: invalid character in JSON input", "", ""⟩,
           ⟨"c2", true, "Passed!", "", ""⟩]⟩ ∧
    ((false = true ↔
        ∀ d ∈ [(⟨"c1", false, "Invalid expected JSON: invalid character in JSON input", "",
            ""⟩ : CheckResult), ⟨"c2", true, "Passed!", "", ""⟩], d.Passed = true) ∧
      (sampleExercise.Checks = [] → false = true)) :=
  ⟨by with_unfolding_all decide,
    passed_iff_every_detail_passed (catalogFS "a" sampleConfig) (.ok ())
      (constEngine (.ok (columnX [.int 1]))) "a" sampleExercise
      ⟨"a", false, "",
        [⟨"c1", false, "Invalid expected JSON: invalid character in JSON input", "", ""⟩,
         ⟨"c2", true, "Passed!", "", ""⟩]⟩
      (by with_unfolding_all decide)⟩

theorem one_result_per_check_witness :
    ∃ result, gradeExercise (catalogFS "a" sampleConfig) (.ok ())
        (constEngine (.ok (columnX [.int 1]))) "a" = .graded sampleExercise result ∧
      result.Details.length = sampleExercise.Checks.length ∧
      result.Details.map (fun d => d.CheckName) = sampleExercise.Checks.map (fun c => c.Name) ∧
      result.Details = checkResults (constEngine (.ok (columnX [.int 1]))) ()
        sampleExercise.Checks :=
  one_result_per_check (catalogFS "a" sampleConfig) (.ok ())
    (constEngine (.ok (columnX [.int 1]))) "a" sampleExercise ()
    (by with_unfolding_all rfl)

theorem passed_rows_agree_witness :
    ∃ columns results expected,
      (columnX [.int 1, .int 2]).columns = .ok columns ∧
      collectRows columns (columnX [.int 1, .int 2]).rows [] = .ok results ∧
      unmarshalRows "[\x7b\"x\":1\x7d, \x7b\"x\":2\x7d]" = .ok expected ∧
      expectedRows expected = results.map (fun r => some (canonRow r)) ∧
      ((∀ r ∈ results, ∀ p ∈ r, ∀ n, p.2 = .int n → n.natAbs ≤ 2 ^ 53) →
        sameRows results (expectedRows expected) = true) :=
  passed_rows_agree (constEngine (.ok (columnX [.int 1, .int 2]))) () ()
    ⟨"two", "SELECT x FROM t", "[\x7b\"x\":1\x7d, \x7b\"x\":2\x7d]", "x is 1, 2"⟩
    (columnX [.int 1, .int 2]) rfl
    (by
      intro values hm s hs
      rcases List.mem_cons.mp hm with e | hm
      · simp only [Except.ok.injEq] at e
        rw [e] at hs
        rcases List.mem_cons.mp hs with e2 | hs
        · rw [e2]; rfl
        · exact absurd hs (List.not_mem_nil s)
      · rcases List.mem_cons.mp hm with e | hm
        · simp only [Except.ok.injEq] at e
          rw [e] at hs
          rcases List.mem_cons.mp hs with e2 | hs
          · rw [e2]; rfl
          · exact absurd hs (List.not_mem_nil s)
        · exact absurd hm (List.not_mem_nil _))
    (by with_unfolding_all decide)

theorem permuted_rows_fail_witness :
    (runCheck (constEngine (.ok (columnX [.int 2, .int 1]))) ()
      ⟨"order", "SELECT x FROM t", "[\x7b\"x\":1\x7d,\x7b\"x\":2\x7d]", "x is 1, 2"⟩).1.Passed
      = false :=
  permuted_rows_fail (constEngine (.ok (columnX [.int 2, .int 1]))) () ()
    ⟨"order", "SELECT x FROM t", "[\x7b\"x\":1\x7d,\x7b\"x\":2\x7d]", "x is 1, 2"⟩
    (columnX [.int 2, .int 1]) ["x"]
    [[("x".data, .int 2)], [("x".data, .int 1)]]
    (some [some [("x".data, .num ⟨false, twoPow1074 * 1⟩)],
      some [("x".data, .num ⟨false, twoPow1074 * 2⟩)]])
    rfl rfl (by with_unfolding_all rfl) (by with_unfolding_all rfl)
    ⟨[[("x".data, .int 1)], [("x".data, .int 2)]], List.Perm.swap _ _ _,
      by with_unfolding_all decide⟩
    (by with_unfolding_all decide)

theorem failed_check_fields_witness :
    (runCheck (constEngine (.ok (columnX [.int 2]))) ()
        ⟨"one", "SELECT x FROM t", "[\x7b\"x\": 1\x7d]", "x is 1"⟩).1
      = ⟨"one", false, "x is 1",
          marshalString (expectedValue (some [some [("x".data, .num ⟨false, twoPow1074 * 1⟩)]])),
          marshalString (resultsValue [[("x".data, .int 2)]])⟩ ∧
      normalizeJSON
          (marshalString (expectedValue (some [some [("x".data, .num ⟨false, twoPow1074 * 1⟩)]])))
        = marshalString (expectedValue (some [some [("x".data, .num ⟨false, twoPow1074 * 1⟩)]])) ∧
      marshalString (expectedValue (some [some [("x".data, .num ⟨false, twoPow1074 * 1⟩)]]))
        ≠ "" ∧
      marshalString (expectedValue (some [some [("x".data, .num ⟨false, twoPow1074 * 1⟩)]]))
        ≠ marshalString (resultsValue [[("x".data, .int 2)]]) :=
  failed_check_fields (constEngine (.ok (columnX [.int 2]))) () ()
    ⟨"one", "SELECT x FROM t", "[\x7b\"x\": 1\x7d]", "x is 1"⟩
    (columnX [.int 2]) ["x"] [[("x".data, .int 2)]]
    (some [some [("x".data, .num ⟨false, twoPow1074 * 1⟩)]])
    rfl rfl (by with_unfolding_all rfl) (by with_unfolding_all rfl)
    (by with_unfolding_all decide)

theorem query_error_result_witness :
    (runCheck (constEngine (.error "Catalog Error: Table with name t does not exist!")) ()
        ⟨"c", "SELECT x FROM t", "not json", "d"⟩).1
      = ⟨"c", false, "Query error: " ++ "Catalog Error: Table with name t does not exist!",
          "", ""⟩ :=
  query_error_result (constEngine (.error "Catalog Error: Table with name t does not exist!"))
    () () ⟨"c", "SELECT x FROM t", "not json", "d"⟩ _ rfl

theorem loadExercises_catalog_witness :
    (catalogFS "a" sampleConfig).readDir ["exercises"]
      = .ok [⟨"README.md", false⟩, ⟨".git", true⟩, ⟨"a", true⟩, ⟨"broken", true⟩,
          ⟨"empty", true⟩] ∧
    loadExercises (catalogFS "a" sampleConfig)
      = .ok (catalogOf (catalogFS "a" sampleConfig)
          [⟨"README.md", false⟩, ⟨".git", true⟩, ⟨"a", true⟩, ⟨"broken", true⟩,
            ⟨"empty", true⟩]) ∧
    catalogOf (catalogFS "a" sampleConfig)
        [⟨"README.md", false⟩, ⟨".git", true⟩, ⟨"a", true⟩, ⟨"broken", true⟩, ⟨"empty", true⟩]
      = [sampleExercise] :=
  ⟨rfl, loadExercises_catalog (catalogFS "a" sampleConfig) _ rfl, by with_unfolding_all decide⟩

theorem loadExercise_reads_definition_witness :
    (∃ data t, (catalogFS "a" "\x7b\"id\":\"b\",\"ID\":\"c\"\x7d").readFile
          ["exercises", "a", "config.json"] = .ok data ∧
        parseJSON data.data = .ok t ∧
        ({ zeroExercise with ID := "c" } : Exercise).ID = definitionID t) ∧
      loadExercise (catalogFS "a" "\x7b\"id\":\"b\"\x7d") "a"
        = .ok { zeroExercise with ID := "b" } :=
  ⟨(loadExercise_reads_definition (catalogFS "a" "\x7b\"id\":\"b\",\"ID\":\"c\"\x7d") "a").2.1
      { zeroExercise with ID := "c" } (by with_unfolding_all rfl),
    (loadExercise_reads_definition (catalogFS "a" "\x7b\"id\":\"b\"\x7d") "a").2.2 "b"
      (by with_unfolding_all rfl)⟩

/-! ## The verdict of one check -/

theorem canonList_map : ∀ (rs : List Row),
    canonList (rs.map Row.toJV) = (rs.map (fun r => some (canonRow r))).map ExpRow.toJV
  | [] => by rw [List.map_nil, canonList, List.map_nil, List.map_nil]
  | r :: rs => by
    rw [List.map_cons, canonList, canon_rowToJV, canonList_map rs, List.map_cons, List.map_cons]
    rfl

theorem results_canon (r : Row) (rs : List Row) (expected : Option (List ExpRow))
    (h : expectedRows expected = (r :: rs).map (fun r => some (canonRow r))) :
    (resultsValue (r :: rs)).canon = expectedValue expected := by
  cases expected with
  | none => rw [expectedRows, List.map_cons] at h; cases h
  | some es =>
    rw [expectedRows] at h
    unfold resultsValue expectedValue
    simp only
    rw [JV.canon, canonList_map, h]

theorem verdict_rows {σ : Type} (eng : Engine σ) (db db' : σ) (check : Check) (rows : Rows)
    (columns : List String) (r : Row) (rs : List Row) (expected : Option (List ExpRow))
    (hq : eng.query db check.Query = (.ok rows, db')) (hc : rows.columns = .ok columns)
    (hr : collectRows columns rows.rows [] = .ok (r :: rs))
    (he : unmarshalRows check.Expected = .ok expected) (hv : Rows.valid rows) :
    ((runCheck eng db check).1.Passed = true ↔
        (resultsValue (r :: rs)).supported = true ∧
          expectedRows expected = (r :: rs).map (fun r => some (canonRow r))) ∧
      ((runCheck eng db check).1.Passed = true →
        (runCheck eng db check).1 = ⟨check.Name, true, "Passed!", "", ""⟩) := by
  have hgood : ∀ q ∈ r :: rs, GoodRow q :=
    collectRows_good columns rows.rows [] (r :: rs) hr hv
      (fun q hq => absurd hq (List.not_mem_nil q))
  have hcmp := compare_iff (r :: rs) check.Expected expected hgood he
  rw [runCheck_compare eng db db' check rows columns (r :: rs) expected hq hc hr he]
  by_cases hn : normalizeJSON (marshalString (resultsValue (r :: rs)))
      = normalizeJSON (marshalString (expectedValue expected))
  · rw [if_pos hn]
    have h2 := hcmp.mp hn
    exact ⟨⟨fun _ => ⟨h2.1, canon_results _ _ h2.2⟩, fun _ => rfl⟩, fun _ => rfl⟩
  · rw [if_neg hn]
    refine ⟨⟨fun h => absurd h (by simp), ?_⟩, fun h => absurd h (by simp)⟩
    rintro ⟨h1, h2⟩
    exact absurd (hcmp.mpr ⟨h1, results_canon r rs expected h2⟩) hn

theorem verdict_empty {σ : Type} (eng : Engine σ) (db db' : σ) (check : Check) (rows : Rows)
    (columns : List String) (expected : Option (List ExpRow))
    (hq : eng.query db check.Query = (.ok rows, db')) (hc : rows.columns = .ok columns)
    (hr : collectRows columns rows.rows [] = .ok [])
    (he : unmarshalRows check.Expected = .ok expected) :
    ((runCheck eng db check).1.Passed = true ↔ expected = none) ∧
      ((runCheck eng db check).1.Passed = false →
        (runCheck eng db check).1.Got = "null") := by
  have hcmp := compare_iff [] check.Expected expected
    (fun q hq => absurd hq (List.not_mem_nil q)) he
  rw [runCheck_compare eng db db' check rows columns [] expected hq hc hr he]
  by_cases hn : normalizeJSON (marshalString (resultsValue []))
      = normalizeJSON (marshalString (expectedValue expected))
  · rw [if_pos hn]
    have h2 := (hcmp.mp hn).2
    refine ⟨⟨fun _ => ?_, fun _ => rfl⟩, fun h => absurd h (by simp)⟩
    cases expected with
    | none => rfl
    | some es =>
      unfold resultsValue expectedValue at h2
      simp only at h2
      rw [JV.canon] at h2
      cases h2
  · rw [if_neg hn]
    have hgot : marshalString (resultsValue []) = "null" := by decide
    refine ⟨⟨fun h => absurd h (by simp), ?_⟩, fun _ => hgot⟩
    intro h
    rw [h] at hn
    exact absurd rfl hn

theorem scan_error {σ : Type} (eng : Engine σ) (db db' : σ) (check : Check) (rows : Rows)
    (columns : List String) (e : String)
    (hq : eng.query db check.Query = (.ok rows, db')) (hc : rows.columns = .ok columns)
    (hr : collectRows columns rows.rows [] = .error e) :
    (runCheck eng db check).1 = ⟨check.Name, false, "Scan error: " ++ e, "", ""⟩ := by
  unfold runCheck
  rw [hq]
  simp only
  rw [hc]
  simp only
  rw [hr]

/-- X1: when the query returns at least one row of machine values and Expected parses,
runCheck passes exactly when the rows hold no NaN or infinity and the decoded expected rows
are the actual rows with every integer converted to the nearest float64; a pass has the
message `Passed!` and empty Expected and Got. -/
theorem rows_pass_iff {σ : Type} (eng : Engine σ) (db db' : σ) (check : Check) (rows : Rows)
    (columns : List String) (r : Row) (rs : List Row) (expected : Option (List ExpRow))
    (hq : eng.query db check.Query = (.ok rows, db')) (hc : rows.columns = .ok columns)
    (hr : collectRows columns rows.rows [] = .ok (r :: rs))
    (he : unmarshalRows check.Expected = .ok expected) (hv : Rows.valid rows) :
    ((runCheck eng db check).1.Passed = true ↔
        (resultsValue (r :: rs)).supported = true ∧
          expectedRows expected = (r :: rs).map (fun r => some (canonRow r))) ∧
      ((runCheck eng db check).1.Passed = true →
        (runCheck eng db check).1 = ⟨check.Name, true, "Passed!", "", ""⟩) :=
  verdict_rows eng db db' check rows columns r rs expected hq hc hr he hv

/-- X2: when the query returns zero rows and Expected parses, runCheck passes exactly when
Expected decodes to a nil slice, that is when its text is `null`; otherwise Got is `null`. -/
theorem zero_rows_pass_iff {σ : Type} (eng : Engine σ) (db db' : σ) (check : Check)
    (rows : Rows) (columns : List String) (expected : Option (List ExpRow))
    (hq : eng.query db check.Query = (.ok rows, db')) (hc : rows.columns = .ok columns)
    (hr : collectRows columns rows.rows [] = .ok [])
    (he : unmarshalRows check.Expected = .ok expected) :
    ((runCheck eng db check).1.Passed = true ↔ expected = none) ∧
      ((runCheck eng db check).1.Passed = false →
        (runCheck eng db check).1.Got = "null") :=
  verdict_empty eng db db' check rows columns expected hq hc hr he

/-- X3: when `rows.Scan` fails with the error `e` on some row, runCheck returns the check's
name, Passed = false, the message `Scan error: ` followed by `e`, and empty Expected and
Got. -/
theorem scan_error_result {σ : Type} (eng : Engine σ) (db db' : σ) (check : Check)
    (rows : Rows) (columns : List String) (e : String)
    (hq : eng.query db check.Query = (.ok rows, db')) (hc : rows.columns = .ok columns)
    (hr : collectRows columns rows.rows [] = .error e) :
    (runCheck eng db check).1 = ⟨check.Name, false, "Scan error: " ++ e, "", ""⟩ :=
  scan_error eng db db' check rows columns e hq hc hr

theorem rows_pass_iff_witness :
    ((runCheck (constEngine (.ok (columnX [.int 7]))) ()
          ⟨"seven", "SELECT x FROM t", " [ \x7b \"x\" : 7.0 \x7d ] ", "x is 7"⟩).1.Passed = true ↔
        (resultsValue [[("x".data, .int 7)]]).supported = true ∧
          expectedRows (some [some [("x".data, .num ⟨false, twoPow1074 * 7⟩)]])
            = [[("x".data, Scalar.int 7)]].map (fun r => some (canonRow r))) ∧
      ((runCheck (constEngine (.ok (columnX [.int 7]))) ()
          ⟨"seven", "SELECT x FROM t", " [ \x7b \"x\" : 7.0 \x7d ] ", "x is 7"⟩).1.Passed = true →
        (runCheck (constEngine (.ok (columnX [.int 7]))) ()
          ⟨"seven", "SELECT x FROM t", " [ \x7b \"x\" : 7.0 \x7d ] ", "x is 7"⟩).1
          = ⟨"seven", true, "Passed!", "", ""⟩) :=
  rows_pass_iff (constEngine (.ok (columnX [.int 7]))) () ()
    ⟨"seven", "SELECT x FROM t", " [ \x7b \"x\" : 7.0 \x7d ] ", "x is 7"⟩
    (columnX [.int 7]) ["x"] [("x".data, .int 7)] []
    (some [some [("x".data, .num ⟨false, twoPow1074 * 7⟩)]])
    rfl rfl (by with_unfolding_all rfl) (by with_unfolding_all rfl)
    (by
      intro values hm s hs
      rcases List.mem_cons.mp hm with e | hm
      · simp only [Except.ok.injEq] at e
        rw [e] at hs
        rcases List.mem_cons.mp hs with e2 | hs
        · rw [e2]; rfl
        · exact absurd hs (List.not_mem_nil s)
      · exact absurd hm (List.not_mem_nil _))

theorem zero_rows_pass_iff_witness :
    ((runCheck (constEngine (.ok (columnX []))) ()
          ⟨"no-rows", "SELECT x FROM t", "null", "t must be empty"⟩).1.Passed = true ↔
        (none : Option (List ExpRow)) = none) ∧
      ((runCheck (constEngine (.ok (columnX []))) ()
          ⟨"no-rows", "SELECT x FROM t", "null", "t must be empty"⟩).1.Passed = false →
        (runCheck (constEngine (.ok (columnX []))) ()
          ⟨"no-rows", "SELECT x FROM t", "null", "t must be empty"⟩).1.Got = "null") :=
  zero_rows_pass_iff (constEngine (.ok (columnX []))) () ()
    ⟨"no-rows", "SELECT x FROM t", "null", "t must be empty"⟩
    (columnX []) ["x"] none rfl rfl rfl (by with_unfolding_all rfl)

theorem scan_error_result_witness :
    (runCheck (constEngine (.ok ⟨.ok ["x"], [.ok [.int 1], .error "sql: Scan error"]⟩)) ()
        ⟨"c", "SELECT x FROM t", "[]", "d"⟩).1
      = ⟨"c", false, "Scan error: " ++ "sql: Scan error", "", ""⟩ :=
  scan_error_result (constEngine (.ok ⟨.ok ["x"], [.ok [.int 1], .error "sql: Scan error"]⟩))
    () () ⟨"c", "SELECT x FROM t", "[]", "d"⟩
    ⟨.ok ["x"], [.ok [.int 1], .error "sql: Scan error"]⟩ ["x"] "sql: Scan error" rfl rfl
    (by with_unfolding_all rfl)

end AutoGrader
